import Mathlib

/-!
Verification development for the claude-telegram bridge.

A shallow embedding of the repository's core logic:

* `transcript_watcher.py` — the per-transcript watcher state machine
  (`TranscriptWatcher.check`, `_process_line`, `_handle_tool_result`,
  `_handle_compaction`), with time modelled as `ℚ` seconds and parsed
  JSONL records modelled by the `Entry`/`ContentItem` structures that
  carry exactly the fields the Python code reads out of each record.
* `telegram-daemon.py` — `handle_completed_tools` over the message-state.
* `telegram_poller.py` — `handle_callback` (the y/n/a permission branch),
  `_handle_reply_to_tracked`, `get_pending_tool_from_transcript` with its
  substring / regex extraction over raw transcript lines.
* `telegram_utils.py` — `split_message_with_code_blocks` together with
  `_parse_code_blocks` and `_find_split_point` over `List Char` (Python
  `str` indexing becomes positional list access), `send_to_topic`'s
  button placement, and `State._flush`'s write behaviour.
* `registry.py` — `_write_json`, `write_marker_file` (modelled as the
  sequence of file-system operations each performs) and
  `rebuild_registry_from_markers`.

Python `dict.get` defaults are modelled by default structure fields; a
missing string field is the empty string (matching the code's truthiness
tests `if tool_use_id:`), Python `set` becomes `Finset String`, and the
insertion-ordered `dict` becomes an association list.
-/

namespace CT

/- Rational arithmetic is used for clock values; making the arithmetic
operations semireducible lets `decide` evaluate concrete witnesses. -/
attribute [local semireducible] Rat.add Rat.sub Rat.inv Rat.mul

/-- `NOTIFY_DELAY = 0.4` seconds (transcript_watcher.py). -/
def NOTIFY_DELAY : ℚ := 2/5

/-- `SKIP_TOOLS` — tools that never notify (transcript_watcher.py). -/
def SKIP_TOOLS : List String := ["BashOutput", "KillShell", "AgentOutputTool", "TodoWrite"]

/-- `PendingTool` dataclass: a tool_use waiting for permission. -/
structure PendingTool where
  tool_id : String
  tool_name : String
  tool_input : String
  assistant_text : String
  transcript_path : String
  pane : String
  cwd : String
  detected_at : ℚ
deriving Repr, DecidableEq

/-- `CompactionEvent` dataclass. -/
structure CompactionEvent where
  trigger : String
  pre_tokens : Nat
  pane : String
  cwd : String
deriving Repr, DecidableEq

/-- `IdleEvent` dataclass. -/
structure IdleEvent where
  text : String
  pane : String
  cwd : String
  transcript_path : String
  msg_id : String
deriving Repr, DecidableEq

/-- One element of a record's `message.content` list, carrying the keys
the watcher reads (`c.get("type")`, `c.get("id","")`, `c.get("name","")`,
`c.get("text","")`, `c.get("input",{})` held opaquely, and
`c.get("tool_use_id")` where `""` stands for an absent/falsy value).
`isDict` models the `isinstance(c, dict)` guard. -/
structure ContentItem where
  ctype : String := ""
  id : String := ""
  name : String := ""
  text : String := ""
  input : String := ""
  tool_use_id : String := ""
  isDict : Bool := true
deriving Repr, DecidableEq

/-- A parsed JSONL transcript record, restricted to the fields
`_process_line` inspects: `entry.get("type")`, `entry.get("subtype")`,
`compactMetadata.get("trigger","unknown")`, `compactMetadata.get("preTokens",0)`,
`message.get("id","")` and `message.get("content",[])`. -/
structure Entry where
  etype : String := ""
  subtype : String := ""
  compactTrigger : String := "unknown"
  compactPreTokens : Nat := 0
  msgId : String := ""
  content : List ContentItem := []
deriving Repr, DecidableEq

/-- `TranscriptWatcher` dataclass state. `position` is the stored file
offset; `pending_tools` is the insertion-ordered `tool_id -> PendingTool`
dict; `last_check` mirrors the field of the same name. -/
structure WatcherState where
  path : String
  pane : String
  cwd : String
  position : Nat := 0
  notified_tools : Finset String := ∅
  tool_results : Finset String := ∅
  pending_tools : List (String × PendingTool) := []
  tool_queue : List String := []
  compactions : List CompactionEvent := []
  idle_events : List IdleEvent := []
  last_check : ℚ := 0
  last_idle_msg_id : String := ""
  tool_use_msg_ids : Finset String := ∅
deriving DecidableEq

/-- `del self.pending_tools[tool_id]` / `self.pending_tools.pop(tool_use_id, None)`. -/
def pendingErase (m : List (String × PendingTool)) (id : String) : List (String × PendingTool) :=
  m.filter (fun p => p.1 ≠ id)

/-- `tool_id in self.pending_tools`. -/
def pendingHas (m : List (String × PendingTool)) (id : String) : Bool :=
  (m.lookup id).isSome

/-- `_handle_tool_result`, one content element: a dict of type
`tool_result` with a truthy `tool_use_id` adds the id to `tool_results`,
discards it from `notified_tools` and pops it from `pending_tools`. -/
def handleToolResultItem (s : WatcherState) (c : ContentItem) : WatcherState :=
  if c.isDict ∧ c.ctype = "tool_result" ∧ c.tool_use_id ≠ "" then
    { s with tool_results := insert c.tool_use_id s.tool_results,
             notified_tools := s.notified_tools.erase c.tool_use_id,
             pending_tools := pendingErase s.pending_tools c.tool_use_id }
  else s

/-- `_handle_tool_result` over the whole content list (the entry is
already known to have `type == "user"`). -/
def handleToolResult (s : WatcherState) (e : Entry) : WatcherState :=
  e.content.foldl handleToolResultItem s

/-- The body of the `for tool_call in tool_calls` loop in `_process_line`:
skip `SKIP_TOOLS`, skip ids already notified / resolved / pending, else
append to `tool_queue` and insert into `pending_tools` with
`detected_at = now`. -/
def detectTool (now : ℚ) (atext : String) (s : WatcherState) (c : ContentItem) : WatcherState :=
  if c.name ∈ SKIP_TOOLS then s
  else if c.id ∈ s.notified_tools ∨ c.id ∈ s.tool_results then s
  else if pendingHas s.pending_tools c.id then s
  else
    { s with
      tool_queue := s.tool_queue ++ [c.id],
      pending_tools := s.pending_tools ++
        [(c.id, ⟨c.id, c.name, c.input, atext, s.path, s.pane, s.cwd, now⟩)] }

/-- `assistant_text` after the content loop: every `text` item overwrites it. -/
def lastTextOf (content : List ContentItem) : String :=
  content.foldl (fun acc c => if c.isDict ∧ c.ctype = "text" then c.text else acc) ""

/-- The `tool_use` content items of an entry (the `tool_calls` list
collected by `_process_line`). -/
def toolCallsOf (e : Entry) : List ContentItem :=
  e.content.filter (fun c => c.isDict ∧ c.ctype = "tool_use")

/-- `_process_line`'s "If we see tool_use, mark that this message is not
idle" step: record the message id in `tool_use_msg_ids` and clear a
matching `last_idle_msg_id`. -/
def markToolUse (msgId : String) (toolCalls : List ContentItem) (s : WatcherState) :
    WatcherState :=
  if (¬ toolCalls.isEmpty) ∧ msgId ≠ "" then
    let s' := { s with tool_use_msg_ids := insert msgId s.tool_use_msg_ids }
    if s'.last_idle_msg_id = msgId then { s' with last_idle_msg_id := "" } else s'
  else s

/-- `_process_line`'s idle branch: emit an `IdleEvent` once per message id. -/
def emitIdle (atext msgId : String) (s1 : WatcherState) : WatcherState × Bool :=
  if msgId ≠ s1.last_idle_msg_id then
    ({ s1 with idle_events := s1.idle_events ++ [⟨atext, s1.pane, s1.cwd, s1.path, msgId⟩],
               last_idle_msg_id := msgId }, true)
  else (s1, false)

/-- `_process_line` on a `type == "assistant"` record: thinking check,
tool-use marking, idle check, then the `for tool_call in tool_calls`
detection loop. -/
def processAssistant (now : ℚ) (s : WatcherState) (e : Entry) : WatcherState × Bool :=
  let msgId := e.msgId
  let atext := lastTextOf e.content
  let toolCalls := toolCallsOf e
  let hasThinking := e.content.any (fun c => c.isDict ∧ c.ctype = "thinking")
  if hasThinking ∧ toolCalls.isEmpty ∧ atext = "" then (s, true)
  else
    let s1 := markToolUse msgId toolCalls s
    if atext ≠ "" ∧ toolCalls.isEmpty ∧ msgId ≠ "" then emitIdle atext msgId s1
    else if toolCalls.isEmpty then (s1, false)
    else (toolCalls.foldl (detectTool now atext) s1, true)

/-- `_process_line` on a successfully parsed record.  Returns the updated
state and the "Claude is actively working" boolean. -/
def processEntry (now : ℚ) (s : WatcherState) (e : Entry) : WatcherState × Bool :=
  if e.etype = "system" ∧ e.subtype = "compact_boundary" then
    ({ s with compactions := s.compactions ++
        [⟨e.compactTrigger, e.compactPreTokens, s.pane, s.cwd⟩] }, false)
  else if e.etype = "user" then (handleToolResult s e, false)
  else if e.etype ≠ "assistant" then (s, false)
  else processAssistant now s e

/-- The read loop of `check()`: each line that parses is fed to
`_process_line` (its return value is discarded there); an unparseable
line (`json.JSONDecodeError`) leaves the state unchanged. -/
def processLines (now : ℚ) (s : WatcherState) (lines : List (Option Entry)) : WatcherState :=
  lines.foldl (fun st l => match l with | none => st | some e => (processEntry now st e).1) s

/-- Result of the head-of-queue scan in `check()`. -/
structure ScanResult where
  ready : List PendingTool
  notified : Finset String
  pending : List (String × PendingTool)
deriving DecidableEq

/-- The `for tool_id in self.tool_queue` notification scan of `check()`:
skip ids that have a result; stop at an already-notified id (it still
awaits its result); announce the first pending id whose `detected_at` is
strictly more than `NOTIFY_DELAY` old, and stop. -/
def scanQueue (now : ℚ) (results : Finset String) :
    Finset String → List (String × PendingTool) → List String → ScanResult
  | notified, pending, [] => ⟨[], notified, pending⟩
  | notified, pending, id :: rest =>
    if id ∈ results then scanQueue now results notified pending rest
    else if id ∈ notified then ⟨[], notified, pending⟩
    else
      match pending.lookup id with
      | none => scanQueue now results notified pending rest
      | some tool =>
        if NOTIFY_DELAY < now - tool.detected_at then
          ⟨[tool], insert id notified, pendingErase pending id⟩
        else scanQueue now results notified pending rest

/-- What one `check()` call returns, plus the successor state. -/
structure CheckResult where
  state : WatcherState
  ready : List PendingTool
  compactions : List CompactionEvent
  idles : List IdleEvent
  had_activity : Bool

/-- `TranscriptWatcher.check()` at the parsed-record level: `lines` are the
newly read lines (`none` = failed `json.loads`), `now` the single clock
reading used for `detected_at` stamps and the delay comparison.  After
processing, completed tools are dropped from queue / pending / notified
and the head-of-queue scan picks at most one tool to announce. -/
def watcherCheck (s : WatcherState) (now : ℚ) (lines : List (Option Entry)) : CheckResult :=
  let s1 := processLines now s lines
  let s1 := { s1 with last_check := now }
  let comps := s1.compactions
  let idles := s1.idle_events
  let s2 := { s1 with compactions := [], idle_events := [] }
  let q := s2.tool_queue.filter (fun t => t ∉ s2.tool_results)
  let pend := s2.pending_tools.filter (fun p => p.1 ∉ s2.tool_results)
  let ntf := s2.notified_tools \ s2.tool_results
  let r := scanQueue now s2.tool_results ntf pend q
  ⟨{ s2 with tool_queue := q, pending_tools := r.pending, notified_tools := r.notified },
   r.ready, comps, idles, !lines.isEmpty⟩

/-- Split a character stream into the lines Python's file iteration
yields: each line keeps its trailing newline; a final line without a
newline is yielded as well. -/
def linesOfAux : List Char → List Char → List (List Char)
  | acc, [] => if acc = [] then [] else [acc.reverse]
  | acc, c :: cs =>
    if c = '\n' then (acc.reverse ++ ['\n']) :: linesOfAux [] cs
    else linesOfAux (c :: acc) cs

/-- All lines of a file's character content. -/
def linesOf (cs : List Char) : List (List Char) := linesOfAux [] cs

/-- `TranscriptWatcher.check()` at the file level: seek to the stored
offset, iterate the remaining lines through `_process_line` (via the
`decode` model of `json.loads` plus field extraction), then store
`f.tell()` — which after the iteration is the end of file — as the new
offset.  The offset update does not consult the per-line parse results. -/
def watcherCheckFile (decode : List Char → Option Entry) (content : List Char)
    (s : WatcherState) (now : ℚ) : CheckResult :=
  let newLines := (linesOf (content.drop s.position)).map decode
  let r := watcherCheck s now newLines
  { r with state := { r.state with position := content.length } }

/-- A freshly constructed `TranscriptWatcher(path=..., pane=..., cwd=...,
position=size)`, optionally with `watcher.tool_results = existing_results`
as `TranscriptManager.add_from_state` does. -/
def mkWatcher (path pane cwd : String) (position : Nat) (results : Finset String) :
    WatcherState :=
  { path := path, pane := pane, cwd := cwd, position := position, tool_results := results }

/-- One orchestrator tick seen by a single watcher: the clock value
`time.time()` used throughout that `check()` call, and the newly read
lines (`none` = `json.JSONDecodeError`). -/
abbrev CheckStep := ℚ × List (Option Entry)

/-- The sequence of `check()` results produced from a start state by a
sequence of ticks, each feeding its successor state to the next. -/
def runChecks (s : WatcherState) : List CheckStep → List CheckResult
  | [] => []
  | (now, lines) :: rest =>
    let r := watcherCheck s now lines
    r :: runChecks r.state rest

/-- The tools announced at tick `i` (empty when `i` is out of range). -/
def readyAt (s : WatcherState) (tr : List CheckStep) (i : Nat) : List PendingTool :=
  ((runChecks s tr)[i]?.map CheckResult.ready).getD []

/-- The watcher's `tool_results` set at the end of tick `i`; `check()`
leaves `tool_results` untouched after the line-processing phase, so this
is also the set consulted by tick `i`'s notification scan. -/
def resultsAtCheck (s : WatcherState) (tr : List CheckStep) (i : Nat) : Finset String :=
  ((runChecks s tr)[i]?.map (fun r => r.state.tool_results)).getD ∅

/-- The tool ids named by `tool_result` content items of a `user` record
(those that `_handle_tool_result` adds to `tool_results`). -/
def entryResultIds (e : Entry) : List String :=
  if e.etype = "user" then
    e.content.filterMap
      (fun c => if c.isDict ∧ c.ctype = "tool_result" ∧ c.tool_use_id ≠ "" then
        some c.tool_use_id else none)
  else []

/-- All tool ids whose `tool_result` appears among the given lines. -/
def lineResultIds (lines : List (Option Entry)) : List String :=
  (lines.map (fun l => (l.map entryResultIds).getD [])).flatten

/-- Every `pending_tools` entry is keyed by its tool's own id. -/
def PendingKeys (s : WatcherState) : Prop :=
  ∀ p ∈ s.pending_tools, p.2.tool_id = p.1

/-! ### The watcher core

`check()`'s notification behaviour depends only on the fields
`tool_queue`, `pending_tools`, `notified_tools`, `tool_results` (plus the
constant `path`/`pane`/`cwd` copied into new `PendingTool`s).  `Core`
projects a `WatcherState` to exactly these fields, and `coreEntry` /
`coreCheck` are the restrictions of `_process_line` / `check()` to them;
the bridge lemmas `core_processEntry` / `core_watcherCheck` prove the
restriction faithful.  All queue/announcement invariants are then proved
over `Core`. -/

structure Core where
  path : String
  pane : String
  cwd : String
  queue : List String
  pending : List (String × PendingTool)
  notified : Finset String
  results : Finset String
deriving DecidableEq

/-- Project a watcher state to its notification-relevant core. -/
def WatcherState.core (s : WatcherState) : Core :=
  ⟨s.path, s.pane, s.cwd, s.tool_queue, s.pending_tools, s.notified_tools, s.tool_results⟩

/-- `handleToolResultItem` on the core. -/
def resultItemCore (k : Core) (c : ContentItem) : Core :=
  if c.isDict ∧ c.ctype = "tool_result" ∧ c.tool_use_id ≠ "" then
    { k with results := insert c.tool_use_id k.results,
             notified := k.notified.erase c.tool_use_id,
             pending := pendingErase k.pending c.tool_use_id }
  else k

/-- `detectTool` on the core. -/
def detectCore (now : ℚ) (atext : String) (k : Core) (c : ContentItem) : Core :=
  if c.name ∈ SKIP_TOOLS then k
  else if c.id ∈ k.notified ∨ c.id ∈ k.results then k
  else if pendingHas k.pending c.id then k
  else
    { k with
      queue := k.queue ++ [c.id],
      pending := k.pending ++
        [(c.id, ⟨c.id, c.name, c.input, atext, k.path, k.pane, k.cwd, now⟩)] }

/-- `_process_line` on the core (every assistant sub-branch other than the
tool loop leaves the core unchanged, and the tool loop runs over
`toolCallsOf e`, which is empty in those sub-branches). -/
def coreEntry (now : ℚ) (k : Core) (e : Entry) : Core :=
  if e.etype = "system" ∧ e.subtype = "compact_boundary" then k
  else if e.etype = "user" then e.content.foldl resultItemCore k
  else if e.etype ≠ "assistant" then k
  else (toolCallsOf e).foldl (detectCore now (lastTextOf e.content)) k

/-- The read loop on the core. -/
def coreLines (now : ℚ) (k : Core) (lines : List (Option Entry)) : Core :=
  lines.foldl (fun c l => match l with | none => c | some e => coreEntry now c e) k

/-- The completed-tool cleanup of `check()`: drop resolved ids from the
queue, the pending map and the notified set. -/
def cleanCore (k : Core) : Core :=
  { k with queue := k.queue.filter (fun t => t ∉ k.results),
           pending := k.pending.filter (fun p => p.1 ∉ k.results),
           notified := k.notified \ k.results }

/-- `check()` on the core: read, clean up completed tools, scan. -/
def coreCheck (now : ℚ) (k : Core) (lines : List (Option Entry)) : Core × List PendingTool :=
  let k2 := cleanCore (coreLines now k lines)
  let r := scanQueue now k2.results k2.notified k2.pending k2.queue
  ({ k2 with pending := r.pending, notified := r.notified }, r.ready)

theorem core_handleToolResultItem (s : WatcherState) (c : ContentItem) :
    (handleToolResultItem s c).core = resultItemCore s.core c := by
  unfold handleToolResultItem resultItemCore WatcherState.core
  dsimp only
  split_ifs <;> rfl

theorem core_handleToolResult (s : WatcherState) (e : Entry) :
    (handleToolResult s e).core = e.content.foldl resultItemCore s.core := by
  unfold handleToolResult
  induction e.content generalizing s with
  | nil => rfl
  | cons c cs ih => rw [List.foldl_cons, List.foldl_cons, ← core_handleToolResultItem, ih]

theorem core_detectTool (now : ℚ) (atext : String) (s : WatcherState) (c : ContentItem) :
    (detectTool now atext s c).core = detectCore now atext s.core c := by
  unfold detectTool detectCore WatcherState.core
  dsimp only
  split_ifs <;> rfl

theorem core_detectFold (now : ℚ) (atext : String) (cs : List ContentItem)
    (s : WatcherState) :
    (cs.foldl (detectTool now atext) s).core = cs.foldl (detectCore now atext) s.core := by
  induction cs generalizing s with
  | nil => rfl
  | cons c cs ih => rw [List.foldl_cons, List.foldl_cons, ← core_detectTool, ih]

theorem core_markToolUse (msgId : String) (toolCalls : List ContentItem) (s : WatcherState) :
    (markToolUse msgId toolCalls s).core = s.core := by
  unfold markToolUse
  dsimp only
  split_ifs <;> rfl

theorem core_emitIdle (atext msgId : String) (s1 : WatcherState) :
    ((emitIdle atext msgId s1).1).core = s1.core := by
  unfold emitIdle
  split_ifs <;> rfl

theorem core_processAssistant (now : ℚ) (s : WatcherState) (e : Entry) :
    ((processAssistant now s e).1).core
      = (toolCallsOf e).foldl (detectCore now (lastTextOf e.content)) s.core := by
  unfold processAssistant
  dsimp only
  split_ifs with h1 h2 h3
  · obtain ⟨-, hemp, -⟩ := h1
    rw [List.isEmpty_iff] at hemp
    rw [hemp]
    rfl
  · obtain ⟨-, hemp, -⟩ := h2
    rw [List.isEmpty_iff] at hemp
    rw [hemp, List.foldl_nil, core_emitIdle, core_markToolUse]
  · rw [List.isEmpty_iff] at h3
    rw [h3, List.foldl_nil, core_markToolUse]
  · rw [core_detectFold, core_markToolUse]

theorem core_processEntry (now : ℚ) (s : WatcherState) (e : Entry) :
    ((processEntry now s e).1).core = coreEntry now s.core e := by
  unfold processEntry coreEntry
  split_ifs
  · rfl
  · exact core_handleToolResult s e
  · rfl
  · exact core_processAssistant now s e

theorem core_processLines (now : ℚ) (s : WatcherState) (lines : List (Option Entry)) :
    (processLines now s lines).core = coreLines now s.core lines := by
  unfold processLines coreLines
  induction lines generalizing s with
  | nil => rfl
  | cons l ls ih =>
    rw [List.foldl_cons, List.foldl_cons]
    cases l with
    | none => exact ih s
    | some e =>
      dsimp only
      rw [← core_processEntry]
      exact ih _

theorem core_watcherCheck_state (s : WatcherState) (now : ℚ) (lines : List (Option Entry)) :
    (watcherCheck s now lines).state.core = (coreCheck now s.core lines).1 := by
  unfold watcherCheck coreCheck
  rw [← core_processLines]
  rfl

theorem core_watcherCheck_ready (s : WatcherState) (now : ℚ) (lines : List (Option Entry)) :
    (watcherCheck s now lines).ready = (coreCheck now s.core lines).2 := by
  unfold watcherCheck coreCheck
  rw [← core_processLines]
  rfl

/-! ### Basic facts about the core step functions -/

theorem results_resultItemCore (k : Core) (c : ContentItem) :
    k.results ⊆ (resultItemCore k c).results := by
  unfold resultItemCore
  split
  · exact Finset.subset_insert _ _
  · exact Finset.Subset.refl _

theorem results_detectCore (now : ℚ) (atext : String) (k : Core) (c : ContentItem) :
    (detectCore now atext k c).results = k.results := by
  unfold detectCore
  split_ifs <;> rfl

theorem results_coreEntry (now : ℚ) (k : Core) (e : Entry) :
    k.results ⊆ (coreEntry now k e).results := by
  unfold coreEntry
  split_ifs
  · exact Finset.Subset.refl _
  · induction e.content generalizing k with
    | nil => exact Finset.Subset.refl _
    | cons c cs ih => exact (results_resultItemCore k c).trans (ih _)
  · exact Finset.Subset.refl _
  · induction toolCallsOf e generalizing k with
    | nil => exact Finset.Subset.refl _
    | cons c cs ih =>
      rw [List.foldl_cons]
      refine Finset.Subset.trans ?_ (ih _)
      rw [results_detectCore]

theorem results_coreLines (now : ℚ) (k : Core) (lines : List (Option Entry)) :
    k.results ⊆ (coreLines now k lines).results := by
  unfold coreLines
  induction lines generalizing k with
  | nil => exact Finset.Subset.refl _
  | cons l ls ih =>
    rw [List.foldl_cons]
    cases l with
    | none => exact ih k
    | some e => exact (results_coreEntry now k e).trans (ih _)

theorem results_fold_resultItemCore (cs : List ContentItem) (k : Core) :
    k.results ⊆ (cs.foldl resultItemCore k).results := by
  induction cs generalizing k with
  | nil => exact Finset.Subset.refl _
  | cons c cs ih => exact (results_resultItemCore k c).trans (ih _)

theorem mem_results_fold_resultItemCore (cs : List ContentItem) (k : Core) (id : String)
    (h : id ∈ cs.filterMap
      (fun c => if c.isDict ∧ c.ctype = "tool_result" ∧ c.tool_use_id ≠ "" then
        some c.tool_use_id else none)) :
    id ∈ (cs.foldl resultItemCore k).results := by
  induction cs generalizing k with
  | nil => simp at h
  | cons c cs ih =>
    rw [List.filterMap_cons] at h
    rw [List.foldl_cons]
    by_cases hc : c.isDict ∧ c.ctype = "tool_result" ∧ c.tool_use_id ≠ ""
    · rw [if_pos hc] at h
      rcases List.mem_cons.mp h with h1 | h2
      · refine Finset.mem_of_subset (results_fold_resultItemCore cs _) ?_
        unfold resultItemCore
        rw [if_pos hc, h1]
        exact Finset.mem_insert_self _ _
      · exact ih _ h2
    · rw [if_neg hc] at h
      exact ih _ h

theorem mem_results_coreEntry (now : ℚ) (k : Core) (e : Entry) (id : String)
    (h : id ∈ entryResultIds e) : id ∈ (coreEntry now k e).results := by
  unfold entryResultIds at h
  unfold coreEntry
  by_cases hu : e.etype = "user"
  · have hsys : ¬ (e.etype = "system" ∧ e.subtype = "compact_boundary") := by
      intro hc
      rw [hu] at hc
      exact absurd hc.1 (by decide)
    rw [if_neg hsys, if_pos hu]
    rw [if_pos hu] at h
    exact mem_results_fold_resultItemCore e.content k id h
  · rw [if_neg hu] at h
    simp at h

theorem mem_results_coreLines (now : ℚ) (k : Core) (lines : List (Option Entry)) (id : String)
    (h : id ∈ lineResultIds lines) : id ∈ (coreLines now k lines).results := by
  unfold lineResultIds at h
  unfold coreLines
  induction lines generalizing k with
  | nil => simp at h
  | cons l ls ih =>
    rw [List.map_cons, List.flatten_cons, List.mem_append] at h
    rw [List.foldl_cons]
    rcases h with h1 | h2
    · cases l with
      | none => simp at h1
      | some e =>
        refine Finset.mem_of_subset (results_coreLines now _ ls) ?_
        exact mem_results_coreEntry now k e id (by simpa using h1)
    · cases l with
      | none => exact ih _ h2
      | some e => exact ih _ h2

/-! ### The notification scan -/

theorem lookup_mem_pair {α β : Type} [BEq α] [LawfulBEq α]
    {l : List (α × β)} {id : α} {t : β}
    (h : l.lookup id = some t) : (id, t) ∈ l := by
  induction l with
  | nil => simp [List.lookup] at h
  | cons p rest ih =>
    rcases p with ⟨a, b⟩
    rw [List.lookup] at h
    by_cases hk : id == a
    · simp only [hk] at h
      have ha : id = a := by simpa using hk
      have hb : b = t := by simpa using h
      subst ha
      subst hb
      exact List.mem_cons_self _ _
    · rw [Bool.not_eq_true] at hk
      simp only [hk] at h
      exact List.mem_cons_of_mem _ (ih h)

theorem scan_ready_sound (now : ℚ) (results ntf : Finset String)
    (pend : List (String × PendingTool)) (q : List String) (t : PendingTool)
    (h : t ∈ (scanQueue now results ntf pend q).ready) :
    ∃ id, id ∈ q ∧ pend.lookup id = some t ∧ id ∉ results ∧
      NOTIFY_DELAY < now - t.detected_at := by
  induction q with
  | nil => simp [scanQueue] at h
  | cons id rest ih =>
    rw [scanQueue] at h
    split_ifs at h with h1 h2
    · rcases ih h with ⟨id2, hm, hrest⟩
      exact ⟨id2, List.mem_cons_of_mem _ hm, hrest⟩
    · simp at h
    · rcases hl : pend.lookup id with _ | tool
      · rw [hl] at h
        rcases ih h with ⟨id2, hm, hrest⟩
        exact ⟨id2, List.mem_cons_of_mem _ hm, hrest⟩
      · rw [hl] at h
        dsimp only at h
        split_ifs at h with h3
        · simp only [List.mem_singleton] at h
          subst h
          exact ⟨id, List.mem_cons_self _ _, hl, h1, h3⟩
        · rcases ih h with ⟨id2, hm, hrest⟩
          exact ⟨id2, List.mem_cons_of_mem _ hm, hrest⟩

theorem scan_ready_len (now : ℚ) (results ntf : Finset String)
    (pend : List (String × PendingTool)) (q : List String) :
    (scanQueue now results ntf pend q).ready.length ≤ 1 := by
  induction q with
  | nil => simp [scanQueue]
  | cons id rest ih =>
    rw [scanQueue]
    split_ifs
    · exact ih
    · simp
    · rcases hl : pend.lookup id with _ | tool
      · exact ih
      · dsimp only
        split_ifs
        · simp
        · exact ih

theorem scan_pending_sub (now : ℚ) (results ntf : Finset String)
    (pend : List (String × PendingTool)) (q : List String) (p : String × PendingTool)
    (h : p ∈ (scanQueue now results ntf pend q).pending) : p ∈ pend := by
  induction q with
  | nil => simpa [scanQueue] using h
  | cons id rest ih =>
    rw [scanQueue] at h
    split_ifs at h
    · exact ih h
    · simpa using h
    · rcases hl : pend.lookup id with _ | tool
      · rw [hl] at h
        exact ih h
      · rw [hl] at h
        dsimp only at h
        split_ifs at h
        · simp only at h
          exact List.mem_of_mem_filter h
        · exact ih h

/-! ### Pending-key invariant and the trace of checks -/

/-- Every pending entry is keyed by its own tool id (true of every state
the watcher can reach: `_process_line` inserts `(tool_id, PendingTool(tool_id=...))`). -/
def PendingKeysC (k : Core) : Prop := ∀ p ∈ k.pending, p.2.tool_id = p.1

theorem pendingKeys_resultItemCore {k : Core} (hk : PendingKeysC k) (c : ContentItem) :
    PendingKeysC (resultItemCore k c) := by
  unfold resultItemCore
  split_ifs with h
  · intro p hp
    exact hk p (List.mem_of_mem_filter hp)
  · exact hk

theorem pendingKeys_detectCore {k : Core} (hk : PendingKeysC k) (now : ℚ) (atext : String)
    (c : ContentItem) : PendingKeysC (detectCore now atext k c) := by
  unfold detectCore
  split_ifs with h1 h2 h3
  · exact hk
  · exact hk
  · exact hk
  · intro p hp
    rcases List.mem_append.mp hp with h | h
    · exact hk p h
    · simp only [List.mem_singleton] at h
      rw [h]

theorem pendingKeys_coreEntry {k : Core} (hk : PendingKeysC k) (now : ℚ) (e : Entry) :
    PendingKeysC (coreEntry now k e) := by
  unfold coreEntry
  split_ifs
  · exact hk
  · induction e.content generalizing k with
    | nil => exact hk
    | cons c cs ih => exact ih (pendingKeys_resultItemCore hk c)
  · exact hk
  · induction toolCallsOf e generalizing k with
    | nil => exact hk
    | cons c cs ih => exact ih (pendingKeys_detectCore hk now _ c)

theorem pendingKeys_coreLines {k : Core} (hk : PendingKeysC k) (now : ℚ)
    (lines : List (Option Entry)) : PendingKeysC (coreLines now k lines) := by
  unfold coreLines
  induction lines generalizing k with
  | nil => exact hk
  | cons l ls ih =>
    rw [List.foldl_cons]
    cases l with
    | none => exact ih hk
    | some e => exact ih (pendingKeys_coreEntry hk now e)

theorem pendingKeys_coreCheck {k : Core} (hk : PendingKeysC k) (now : ℚ)
    (lines : List (Option Entry)) : PendingKeysC ((coreCheck now k lines).1) := by
  unfold coreCheck
  intro p hp
  simp only at hp
  have h1 := scan_pending_sub _ _ _ _ _ _ hp
  have h2 := List.mem_of_mem_filter h1
  exact pendingKeys_coreLines hk now lines p h2

theorem results_coreCheck_sub (now : ℚ) (k : Core) (lines : List (Option Entry)) :
    k.results ⊆ (coreCheck now k lines).1.results :=
  results_coreLines now k lines

theorem mem_results_coreCheck (now : ℚ) (k : Core) (lines : List (Option Entry))
    (id : String) (h : id ∈ lineResultIds lines) : id ∈ (coreCheck now k lines).1.results :=
  mem_results_coreLines now k lines id h

/-- The core components of the `runChecks` trace. -/
def runCores (k : Core) : List CheckStep → List (Core × List PendingTool)
  | [] => []
  | (now, lines) :: rest =>
    let r := coreCheck now k lines
    r :: runCores r.1 rest

theorem runCores_cons (k : Core) (now : ℚ) (lines : List (Option Entry))
    (rest : List CheckStep) :
    runCores k ((now, lines) :: rest)
      = coreCheck now k lines :: runCores (coreCheck now k lines).1 rest := rfl

theorem runChecks_core_map (tr : List CheckStep) (s : WatcherState) :
    (runChecks s tr).map (fun r => (r.state.core, r.ready)) = runCores s.core tr := by
  induction tr generalizing s with
  | nil => rfl
  | cons step rest ih =>
    rcases step with ⟨now, lines⟩
    rw [runCores_cons, runChecks, List.map_cons]
    rw [core_watcherCheck_state, core_watcherCheck_ready, ← core_watcherCheck_state]
    rw [ih]
    rw [core_watcherCheck_state]

theorem readyAt_core (s : WatcherState) (tr : List CheckStep) (i : Nat) :
    readyAt s tr i = ((runCores s.core tr)[i]?.map Prod.snd).getD [] := by
  unfold readyAt
  rw [← runChecks_core_map, List.getElem?_map]
  cases (runChecks s tr)[i]? <;> rfl

theorem resultsAtCheck_core (s : WatcherState) (tr : List CheckStep) (i : Nat) :
    resultsAtCheck s tr i = ((runCores s.core tr)[i]?.map (fun r => r.1.results)).getD ∅ := by
  unfold resultsAtCheck
  rw [← runChecks_core_map, List.getElem?_map]
  cases (runChecks s tr)[i]? <;> rfl

theorem runCores_start_sub (tr : List CheckStep) (k : Core) (j : Nat)
    (rj : Core × List PendingTool) (h : (runCores k tr)[j]? = some rj) :
    k.results ⊆ rj.1.results := by
  induction tr generalizing k j with
  | nil => simp [runCores] at h
  | cons step rest ih =>
    rcases step with ⟨now, lines⟩
    rw [runCores_cons] at h
    cases j with
    | zero =>
      rw [List.getElem?_cons_zero] at h
      cases h
      exact results_coreCheck_sub now k lines
    | succ j =>
      rw [List.getElem?_cons_succ] at h
      exact (results_coreCheck_sub now k lines).trans (ih _ _ h)

theorem runCores_pair_sub (tr : List CheckStep) (k : Core) (i j : Nat)
    (ri rj : Core × List PendingTool) (hij : i ≤ j)
    (hi : (runCores k tr)[i]? = some ri) (hj : (runCores k tr)[j]? = some rj) :
    ri.1.results ⊆ rj.1.results := by
  induction tr generalizing k i j with
  | nil => simp [runCores] at hi
  | cons step rest ih =>
    rcases step with ⟨now, lines⟩
    rw [runCores_cons] at hi hj
    cases i with
    | zero =>
      rw [List.getElem?_cons_zero] at hi
      cases hi
      cases j with
      | zero =>
        rw [List.getElem?_cons_zero] at hj
        cases hj
        exact Finset.Subset.refl _
      | succ j =>
        rw [List.getElem?_cons_succ] at hj
        exact runCores_start_sub rest _ j rj hj
    | succ i =>
      cases j with
      | zero => omega
      | succ j =>
        rw [List.getElem?_cons_succ] at hi hj
        exact ih _ i j (by omega) hi hj

theorem runCores_entry (tr : List CheckStep) (k : Core) (j : Nat)
    (rj : Core × List PendingTool) (h : (runCores k tr)[j]? = some rj)
    (hk : PendingKeysC k) :
    ∃ k' nj lj, tr[j]? = some (nj, lj) ∧ rj = coreCheck nj k' lj ∧ PendingKeysC k' := by
  induction tr generalizing k j with
  | nil => simp [runCores] at h
  | cons step rest ih =>
    rcases step with ⟨now, lines⟩
    rw [runCores_cons] at h
    cases j with
    | zero =>
      rw [List.getElem?_cons_zero] at h
      cases h
      exact ⟨k, now, lines, List.getElem?_cons_zero, rfl, hk⟩
    | succ j =>
      rw [List.getElem?_cons_succ] at h
      rcases ih _ j h (pendingKeys_coreCheck hk now lines) with ⟨k', nj, lj, h1, h2, h3⟩
      exact ⟨k', nj, lj, by rw [List.getElem?_cons_succ]; exact h1, h2, h3⟩

theorem runCores_lineResults (tr : List CheckStep) (k : Core) (i : Nat)
    (ri : Core × List PendingTool) (ni : ℚ) (li : List (Option Entry))
    (hi : (runCores k tr)[i]? = some ri) (hstep : tr[i]? = some (ni, li)) :
    ∀ id ∈ lineResultIds li, id ∈ ri.1.results := by
  induction tr generalizing k i with
  | nil => simp [runCores] at hi
  | cons step rest ih =>
    rcases step with ⟨now, lines⟩
    rw [runCores_cons] at hi
    cases i with
    | zero =>
      rw [List.getElem?_cons_zero] at hi hstep
      cases hi
      cases hstep
      intro id hid
      exact mem_results_coreCheck ni k li id hid
    | succ i =>
      rw [List.getElem?_cons_succ] at hi hstep
      exact ih _ i hi hstep

/-- One `coreCheck` announcement is honest: the announced tool's id has no
recorded result at that check, and the check's clock sits strictly more
than `NOTIFY_DELAY` past the tool's `detected_at`. -/
theorem coreCheck_ready_sound (now : ℚ) (k : Core) (lines : List (Option Entry))
    (hk : PendingKeysC k) (t : PendingTool) (ht : t ∈ (coreCheck now k lines).2) :
    t.tool_id ∉ (coreCheck now k lines).1.results ∧ NOTIFY_DELAY < now - t.detected_at := by
  unfold coreCheck at ht ⊢
  simp only at ht ⊢
  rcases scan_ready_sound _ _ _ _ _ _ ht with ⟨id, hq, hl, hres, hdel⟩
  have hpair := lookup_mem_pair hl
  have hmem := List.mem_of_mem_filter hpair
  have hid : t.tool_id = id := pendingKeys_coreLines hk now lines (id, t) hmem
  rw [hid]
  exact ⟨hres, hdel⟩

theorem runCores_length (k : Core) (tr : List CheckStep) :
    (runCores k tr).length = tr.length := by
  induction tr generalizing k with
  | nil => rfl
  | cons step rest ih =>
    rcases step with ⟨now, lines⟩
    rw [runCores_cons, List.length_cons, List.length_cons, ih]

theorem mkWatcher_pendingKeys (path pane cwd : String) (position : Nat)
    (results : Finset String) : PendingKeysC (mkWatcher path pane cwd position results).core := by
  intro p hp
  simp [mkWatcher, WatcherState.core] at hp

/-- **C1.**  For every tool id T detected in a watched transcript, T is
announced by `TranscriptWatcher.check()` only if no `tool_result` for T
has been seen at the time of the check, and only strictly later than
`NOTIFY_DELAY = 0.4 s` after T's detection time (first conjunct: any
announced tool has no recorded result and `now - detected_at >
NOTIFY_DELAY`, strictly).  In particular (second conjunct), if a
`tool_result` for T is read by a check whose clock is at or before
`detected_at + NOTIFY_DELAY`, then no check of the trace ever announces
T. -/
theorem C1_announce_no_result_and_strictly_after_delay
    (path pane cwd : String) (position : Nat) (initResults : Finset String)
    (tr : List CheckStep) :
    (∀ (i : Nat) (now : ℚ) (lines : List (Option Entry)) (t : PendingTool),
        tr[i]? = some (now, lines) →
        t ∈ readyAt (mkWatcher path pane cwd position initResults) tr i →
        t.tool_id ∉ resultsAtCheck (mkWatcher path pane cwd position initResults) tr i ∧
          NOTIFY_DELAY < now - t.detected_at)
    ∧ (List.Pairwise (fun a b : CheckStep => a.1 ≤ b.1) tr →
        ∀ (i j : Nat) (ni : ℚ) (li : List (Option Entry)) (t : PendingTool),
          tr[i]? = some (ni, li) →
          t ∈ readyAt (mkWatcher path pane cwd position initResults) tr j →
          t.tool_id ∈ lineResultIds li →
          ni ≤ t.detected_at + NOTIFY_DELAY → False) := by
  have hkeys := mkWatcher_pendingKeys path pane cwd position initResults
  have main : ∀ (i : Nat) (now : ℚ) (lines : List (Option Entry)) (t : PendingTool),
      tr[i]? = some (now, lines) →
      t ∈ readyAt (mkWatcher path pane cwd position initResults) tr i →
      t.tool_id ∉ resultsAtCheck (mkWatcher path pane cwd position initResults) tr i ∧
        NOTIFY_DELAY < now - t.detected_at := by
    intro i now lines t hstep hready
    rw [readyAt_core] at hready
    rw [resultsAtCheck_core]
    rcases hri : (runCores (mkWatcher path pane cwd position initResults).core tr)[i]? with
      _ | ri
    · rw [hri] at hready
      simp at hready
    · rw [hri] at hready
      simp only [Option.map_some', Option.getD_some] at hready
      rcases runCores_entry tr _ i ri hri hkeys with ⟨k', ni', li', hstep', heq, hk'⟩
      rw [hstep] at hstep'
      have hpair : (ni', li') = (now, lines) := by
        have := Option.some.inj hstep'
        exact this.symm
      cases hpair
      rw [heq] at hready
      have hsound := coreCheck_ready_sound now k' lines hk' t hready
      simp only [Option.map_some', Option.getD_some]
      rw [heq]
      exact hsound
  refine ⟨main, ?_⟩
  intro hmono i j ni li t hstepi hready hres htime
  have hready' := hready
  rw [readyAt_core] at hready'
  rcases hrj : (runCores (mkWatcher path pane cwd position initResults).core tr)[j]? with
    _ | rj
  · rw [hrj] at hready'
    simp at hready'
  · rw [hrj] at hready'
    simp only [Option.map_some', Option.getD_some] at hready'
    rcases runCores_entry tr _ j rj hrj hkeys with ⟨k', nj, lj, hstepj, heqj, hkj⟩
    have hsound := coreCheck_ready_sound nj k' lj hkj t (by rw [← heqj]; exact hready')
    -- nj is strictly later than detected_at + NOTIFY_DELAY, ni is not
    have hlt : ni < nj := by
      have h1 : NOTIFY_DELAY < nj - t.detected_at := hsound.2
      have : t.detected_at + NOTIFY_DELAY < nj := by linarith
      linarith
    -- times are monotone, so i < j
    have hij : i < j := by
      rcases Nat.lt_or_ge i j with hcase | hge
      · exact hcase
      · exfalso
        rcases Nat.lt_or_ge j i with hji | hge2
        · -- j < i: nj ≤ ni by pairwise monotonicity
          rcases List.getElem?_eq_some.mp hstepi with ⟨hleni, hgi⟩
          rcases List.getElem?_eq_some.mp hstepj with ⟨hlenj, hgj⟩
          have := List.pairwise_iff_getElem.mp hmono j i hlenj hleni hji
          rw [hgi, hgj] at this
          simp only at this
          exact absurd hlt (not_lt.mpr this)
        · have hji : j = i := by omega
          subst hji
          rw [hstepi] at hstepj
          have heq2 := Option.some.inj hstepj
          have hnn : ni = nj := by
            have := congrArg Prod.fst heq2
            simpa using this
          exact absurd hlt (by rw [hnn]; exact lt_irrefl nj)
    -- the result for t.tool_id was recorded at tick i and persists to tick j
    have hleni : i < tr.length := (List.getElem?_eq_some.mp hstepi).1
    have hlenr : i < (runCores (mkWatcher path pane cwd position initResults).core tr).length := by
      rw [runCores_length]
      exact hleni
    rcases List.getElem?_eq_some.mpr ⟨hlenr, rfl⟩ with hri
    set ri := (runCores (mkWatcher path pane cwd position initResults).core tr).get ⟨i, hlenr⟩ with hridef
    have hri' : (runCores (mkWatcher path pane cwd position initResults).core tr)[i]? = some ri :=
      List.getElem?_eq_some.mpr ⟨hlenr, rfl⟩
    have hmem : t.tool_id ∈ ri.1.results :=
      runCores_lineResults tr _ i ri ni li hri' hstepi t.tool_id hres
    have hsub : ri.1.results ⊆ rj.1.results :=
      runCores_pair_sub tr _ i j ri rj (Nat.le_of_lt hij) hri' hrj
    have : t.tool_id ∈ rj.1.results := hsub hmem
    rw [heqj] at this
    exact hsound.1 this

/-! ### Association-list lemmas for `pending_tools` -/

theorem lookup_append {α β : Type} [BEq α] [LawfulBEq α]
    (m m' : List (α × β)) (id : α) :
    (m ++ m').lookup id = ((m.lookup id).orElse (fun _ => m'.lookup id)) := by
  induction m with
  | nil => rfl
  | cons p rest ih =>
    rcases p with ⟨a, b⟩
    rw [List.cons_append, List.lookup, List.lookup]
    by_cases hk : id == a
    · simp only [hk]
      rfl
    · rw [Bool.not_eq_true] at hk
      simp only [hk]
      exact ih

theorem lookup_eq_none_of_not_mem_keys {α β : Type} [BEq α] [LawfulBEq α]
    {m : List (α × β)} {id : α}
    (h : id ∉ m.map Prod.fst) : m.lookup id = none := by
  induction m with
  | nil => rfl
  | cons p rest ih =>
    rcases p with ⟨a, b⟩
    rw [List.map_cons, List.mem_cons] at h
    push_neg at h
    rw [List.lookup]
    have : (id == a) = false := by
      rw [beq_eq_false_iff_ne]
      exact h.1
    simp only [this]
    exact ih h.2

theorem mem_keys_of_lookup_some {α β : Type} [BEq α] [LawfulBEq α]
    {m : List (α × β)} {id : α}
    {t : β} (h : m.lookup id = some t) : id ∈ m.map Prod.fst := by
  by_contra hmem
  rw [lookup_eq_none_of_not_mem_keys hmem] at h
  cases h

theorem lookup_filter_some {α β : Type} [BEq α] [LawfulBEq α] [DecidableEq α]
    {m : List (α × β)} {P : α × β → Bool}
    {id : α} {t : β}
    (hnd : (m.map Prod.fst).Nodup) (h : (m.filter P).lookup id = some t) :
    m.lookup id = some t := by
  induction m with
  | nil => simp [List.lookup] at h
  | cons p rest ih =>
    rcases p with ⟨a, b⟩
    rw [List.map_cons, List.nodup_cons] at hnd
    rw [List.filter_cons] at h
    by_cases hk : id == a
    · have ha : id = a := by simpa using hk
      subst ha
      rw [List.lookup]
      simp only [beq_self_eq_true]
      by_cases hP : P (id, b)
      · rw [if_pos hP] at h
        rw [List.lookup] at h
        simp only [beq_self_eq_true] at h
        exact h
      · rw [if_neg hP] at h
        -- id is not a key of rest, but the filtered lookup found it there
        have h1 := mem_keys_of_lookup_some h
        have h2 : id ∈ rest.map Prod.fst :=
          ((List.filter_sublist rest).map Prod.fst).subset h1
        exact absurd h2 hnd.1
    · rw [Bool.not_eq_true] at hk
      rw [List.lookup]
      simp only [hk]
      by_cases hP : P (a, b)
      · rw [if_pos hP] at h
        rw [List.lookup] at h
        simp only [hk] at h
        exact ih hnd.2 h
      · rw [if_neg hP] at h
        exact ih hnd.2 h

theorem lookup_filter_of_some {α β : Type} [BEq α] [LawfulBEq α]
    {m : List (α × β)}
    {P : α × β → Bool} {id : α} {t : β}
    (h : m.lookup id = some t) (hP : P (id, t) = true) :
    (m.filter P).lookup id = some t := by
  induction m with
  | nil => simp [List.lookup] at h
  | cons p rest ih =>
    rcases p with ⟨a, b⟩
    rw [List.lookup] at h
    rw [List.filter_cons]
    by_cases hk : id == a
    · have ha : id = a := by simpa using hk
      subst ha
      simp only [beq_self_eq_true] at h
      have hb : b = t := by simpa using h
      subst hb
      rw [if_pos hP, List.lookup]
      simp only [beq_self_eq_true]
    · rw [Bool.not_eq_true] at hk
      simp only [hk] at h
      by_cases hPb : P (a, b)
      · rw [if_pos hPb, List.lookup]
        simp only [hk]
        exact ih h
      · rw [if_neg hPb]
        exact ih h

theorem lookup_isSome_of_mem_keys {α β : Type} [BEq α] [LawfulBEq α]
    {m : List (α × β)} {id : α}
    (h : id ∈ m.map Prod.fst) : (m.lookup id).isSome := by
  induction m with
  | nil => simp at h
  | cons p rest ih =>
    rcases p with ⟨a, b⟩
    rw [List.map_cons, List.mem_cons] at h
    rw [List.lookup]
    by_cases hk : id == a
    · simp only [hk]
      rfl
    · rw [Bool.not_eq_true] at hk
      simp only [hk]
      rcases h with h | h

      · exact absurd (by simpa using h) (by simpa using hk)
      · exact ih h

theorem lookup_append_some {α β : Type} [BEq α] [LawfulBEq α]
    {m m' : List (α × β)} {id : α}
    {t : β} (h : m.lookup id = some t) : (m ++ m').lookup id = some t := by
  rw [lookup_append, h]
  rfl

theorem lookup_append_none {α β : Type} [BEq α] [LawfulBEq α]
    {m m' : List (α × β)} {id : α}
    (h : m.lookup id = none) : (m ++ m').lookup id = m'.lookup id := by
  rw [lookup_append, h]
  rfl

/-! ### The reachable-state invariant of the watcher core -/

/-- Queue order respects pending detection timestamps. -/
def pendLE (pend : List (String × PendingTool)) (a b : String) : Prop :=
  ∀ ta tb, pend.lookup a = some ta → pend.lookup b = some tb →
    ta.detected_at ≤ tb.detected_at

/-- Invariant of every reachable watcher core:
* every queued id is pending, already notified, or resolved;
* `pending_tools` has no duplicate keys and the queue no duplicate ids;
* queue order is nondecreasing in `detected_at` for pending entries;
* an announced-but-unresolved id sits in the queue behind only resolved
  ids (it is the head of the cleaned queue). -/
structure Inv (k : Core) : Prop where
  queue_mem : ∀ id ∈ k.queue,
    pendingHas k.pending id = true ∨ id ∈ k.notified ∨ id ∈ k.results
  keysNodup : (k.pending.map Prod.fst).Nodup
  qNodup : k.queue.Nodup
  sorted : k.queue.Pairwise (pendLE k.pending)
  nh : ∀ u ∈ k.notified, u ∉ k.results →
    ∃ q1 q2, k.queue = q1 ++ u :: q2 ∧ ∀ v ∈ q1, v ∈ k.results
  pkeys : PendingKeysC k

/-- All pending detection stamps are at most `T`. -/
def PendBound (k : Core) (T : ℚ) : Prop :=
  ∀ p ∈ k.pending, p.2.detected_at ≤ T

theorem pendBound_mono {k : Core} {T T' : ℚ} (h : PendBound k T) (hT : T ≤ T') :
    PendBound k T' :=
  fun p hp => le_trans (h p hp) hT

theorem inv_resultItemCore {k : Core} (h : Inv k) (c : ContentItem) :
    Inv (resultItemCore k c) := by
  unfold resultItemCore
  split_ifs with hc
  · refine ⟨?_, ?_, ?_, ?_, ?_, ?_⟩
    · intro id hid
      rcases h.queue_mem id hid with hp | hn | hr

      · by_cases hx : id = c.tool_use_id
        · subst hx
          exact Or.inr (Or.inr (Finset.mem_insert_self _ _))
        · left
          unfold pendingHas at hp ⊢
          rcases Option.isSome_iff_exists.mp hp with ⟨t, ht⟩
          have := lookup_filter_of_some (P := fun p => p.1 ≠ c.tool_use_id) ht
            (by simpa using hx)
          unfold pendingErase
          rw [this]
          rfl
      · by_cases hx : id = c.tool_use_id
        · subst hx
          exact Or.inr (Or.inr (Finset.mem_insert_self _ _))
        · exact Or.inr (Or.inl (Finset.mem_erase.mpr ⟨hx, hn⟩))
      · exact Or.inr (Or.inr (Finset.mem_insert_of_mem hr))
    · exact ((List.filter_sublist _).map Prod.fst).nodup h.keysNodup
    · exact h.qNodup
    · refine h.sorted.imp ?_
      intro a b hab ta tb hta htb
      exact hab ta tb (lookup_filter_some h.keysNodup hta) (lookup_filter_some h.keysNodup htb)
    · intro u hu hur
      have hu1 := Finset.mem_erase.mp hu
      have hur1 : u ∉ k.results := fun hr => hur (Finset.mem_insert_of_mem hr)
      rcases h.nh u hu1.2 hur1 with ⟨q1, q2, heq, hq1⟩
      exact ⟨q1, q2, heq, fun v hv => Finset.mem_insert_of_mem (hq1 v hv)⟩
    · intro p hp
      exact h.pkeys p (List.mem_of_mem_filter hp)
  · exact h

theorem pendBound_resultItemCore {k : Core} {T : ℚ} (h : PendBound k T) (c : ContentItem) :
    PendBound (resultItemCore k c) T := by
  unfold resultItemCore
  split_ifs with hc
  · intro p hp
    exact h p (List.mem_of_mem_filter hp)
  · exact h

theorem inv_detectCore {k : Core} (h : Inv k) (now : ℚ) (atext : String) (c : ContentItem)
    (hb : PendBound k now) :
    Inv (detectCore now atext k c) ∧ PendBound (detectCore now atext k c) now := by
  unfold detectCore
  split_ifs with h1 h2 h3
  · exact ⟨h, hb⟩
  · exact ⟨h, hb⟩
  · exact ⟨h, hb⟩
  · have hnone : k.pending.lookup c.id = none := by
      unfold pendingHas at h3
      rcases hn : k.pending.lookup c.id with _ | t
      · rfl
      · rw [hn] at h3
        simp at h3
    have hkeys : c.id ∉ k.pending.map Prod.fst := by
      intro hm
      have := lookup_isSome_of_mem_keys hm
      rw [hnone] at this
      cases this
    have hqueue : c.id ∉ k.queue := by
      intro hq
      rcases h.queue_mem c.id hq with hp | hn | hr
      · exact absurd hp (by simp [pendingHas, hnone])
      · exact h2 (Or.inl hn)
      · exact h2 (Or.inr hr)
    have hlookup_old : ∀ a ∈ k.queue,
        (k.pending ++ [(c.id, (⟨c.id, c.name, c.input, atext, k.path, k.pane, k.cwd, now⟩ : PendingTool))]).lookup a
          = k.pending.lookup a := by
      intro a ha
      rcases hl : k.pending.lookup a with _ | t
      · rw [lookup_append_none hl, List.lookup]
        have hne : (a == c.id) = false := by
          rw [beq_eq_false_iff_ne]
          intro hEq
          subst hEq
          exact hqueue ha
        simp only [hne]
        rfl
      · exact lookup_append_some hl
    have hlookup_new :
        (k.pending ++ [(c.id, (⟨c.id, c.name, c.input, atext, k.path, k.pane, k.cwd, now⟩ : PendingTool))]).lookup c.id
          = some (⟨c.id, c.name, c.input, atext, k.path, k.pane, k.cwd, now⟩ : PendingTool) := by
      rw [lookup_append_none hnone, List.lookup]
      simp only [beq_self_eq_true]
    refine ⟨⟨?_, ?_, ?_, ?_, ?_, ?_⟩, ?_⟩
    · intro id hid
      rcases List.mem_append.mp hid with hold | hnew
      · rcases h.queue_mem id hold with hp | hn | hr
        · left
          unfold pendingHas at hp ⊢
          rw [hlookup_old id hold]
          exact hp
        · exact Or.inr (Or.inl hn)
        · exact Or.inr (Or.inr hr)
      · simp only [List.mem_singleton] at hnew
        subst hnew
        left
        unfold pendingHas
        rw [hlookup_new]
        rfl
    · rw [List.map_append, List.map_singleton]
      rw [List.nodup_append]
      exact ⟨h.keysNodup, List.nodup_singleton _, by
        intro a ha hb
        simp only [List.mem_singleton] at hb
        subst hb
        exact hkeys ha⟩
    · rw [List.nodup_append]
      exact ⟨h.qNodup, List.nodup_singleton _, by
        intro a ha hb
        simp only [List.mem_singleton] at hb
        subst hb
        exact hqueue ha⟩
    · rw [List.pairwise_append]
      refine ⟨?_, List.pairwise_singleton _ _, ?_⟩
      · refine List.Pairwise.imp_of_mem ?_ h.sorted
        intro a b ha hb hab ta tb hta htb
        rw [hlookup_old a ha] at hta
        rw [hlookup_old b hb] at htb
        exact hab ta tb hta htb
      · intro a ha b hbm
        simp only [List.mem_singleton] at hbm
        subst hbm
        intro ta tb hta htb
        rw [hlookup_old a ha] at hta
        rw [hlookup_new] at htb
        have htb2 : tb.detected_at = now := by
          have := Option.some.inj htb
          rw [← this]
        have hle : ta.detected_at ≤ now := hb (a, ta) (lookup_mem_pair hta)
        rw [htb2]
        exact hle
    · intro u hu hur
      rcases h.nh u hu hur with ⟨q1, q2, heq, hq1⟩
      exact ⟨q1, q2 ++ [c.id], by rw [heq, List.append_assoc, List.cons_append], hq1⟩
    · intro p hp
      rcases List.mem_append.mp hp with hold | hnew
      · exact h.pkeys p hold
      · simp only [List.mem_singleton] at hnew
        subst hnew
        rfl
    · intro p hp
      rcases List.mem_append.mp hp with hold | hnew
      · exact hb p hold
      · simp only [List.mem_singleton] at hnew
        subst hnew
        exact le_refl now

theorem inv_fold_resultItemCore (cs : List ContentItem) {T : ℚ} :
    ∀ {k : Core}, Inv k → PendBound k T →
      Inv (cs.foldl resultItemCore k) ∧ PendBound (cs.foldl resultItemCore k) T := by
  induction cs with
  | nil => intro k h hb; exact ⟨h, hb⟩
  | cons c cs ih =>
    intro k h hb
    rw [List.foldl_cons]
    exact ih (inv_resultItemCore h c) (pendBound_resultItemCore hb c)

theorem inv_fold_detectCore (cs : List ContentItem) (now : ℚ) (atext : String) :
    ∀ {k : Core}, Inv k → PendBound k now →
      Inv (cs.foldl (detectCore now atext) k) ∧
        PendBound (cs.foldl (detectCore now atext) k) now := by
  induction cs with
  | nil => intro k h hb; exact ⟨h, hb⟩
  | cons c cs ih =>
    intro k h hb
    rw [List.foldl_cons]
    rcases inv_detectCore h now atext c hb with ⟨h', hb'⟩
    exact ih h' hb'

theorem inv_coreEntry {k : Core} (h : Inv k) (now : ℚ) (e : Entry) (hb : PendBound k now) :
    Inv (coreEntry now k e) ∧ PendBound (coreEntry now k e) now := by
  unfold coreEntry
  split_ifs
  · exact ⟨h, hb⟩
  · exact inv_fold_resultItemCore e.content h hb
  · exact ⟨h, hb⟩
  · exact inv_fold_detectCore (toolCallsOf e) now (lastTextOf e.content) h hb

theorem inv_coreLines {k : Core} (h : Inv k) (now : ℚ) (lines : List (Option Entry))
    (hb : PendBound k now) :
    Inv (coreLines now k lines) ∧ PendBound (coreLines now k lines) now := by
  unfold coreLines
  induction lines generalizing k with
  | nil => exact ⟨h, hb⟩
  | cons l ls ih =>
    rw [List.foldl_cons]
    cases l with
    | none => exact ih h hb
    | some e =>
      dsimp only
      rcases inv_coreEntry h now e hb with ⟨h', hb'⟩
      exact ih h' hb'

theorem clean_queue_not_res (k : Core) :
    ∀ id ∈ (cleanCore k).queue, id ∉ (cleanCore k).results := by
  intro id hid
  unfold cleanCore at hid ⊢
  simp only [List.mem_filter] at hid
  simpa using hid.2

theorem inv_cleanCore {k : Core} (h : Inv k) : Inv (cleanCore k) := by
  refine ⟨?_, ?_, ?_, ?_, ?_, ?_⟩
  · intro id hid
    unfold cleanCore at hid ⊢
    simp only [List.mem_filter] at hid
    have hid1 := hid.1
    have hid2 : id ∉ k.results := by simpa using hid.2
    rcases h.queue_mem id hid1 with hp | hn | hr
    · left
      unfold pendingHas at hp ⊢
      rcases Option.isSome_iff_exists.mp hp with ⟨t, ht⟩
      rw [lookup_filter_of_some ht (by simpa using hid2)]
      rfl
    · exact Or.inr (Or.inl (Finset.mem_sdiff.mpr ⟨hn, hid2⟩))
    · exact absurd hr hid2
  · exact ((List.filter_sublist _).map Prod.fst).nodup h.keysNodup
  · exact h.qNodup.filter _
  · refine ((h.sorted.sublist (List.filter_sublist _)).imp ?_)
    intro a b hab ta tb hta htb
    exact hab ta tb (lookup_filter_some h.keysNodup hta) (lookup_filter_some h.keysNodup htb)
  · intro u hu hur
    unfold cleanCore at hu hur ⊢
    simp only at hu hur
    have hu1 := Finset.mem_sdiff.mp hu
    rcases h.nh u hu1.1 hu1.2 with ⟨q1, q2, heq, hq1⟩
    refine ⟨[], q2.filter (fun t => t ∉ k.results), ?_, by simp⟩
    rw [heq, List.filter_append, List.filter_cons]
    have hq1nil : q1.filter (fun t => t ∉ k.results) = [] := by
      rw [List.filter_eq_nil_iff]
      intro a ha
      simpa using hq1 a ha
    rw [hq1nil]
    rw [if_pos (by simpa using hu1.2)]
  · intro p hp
    exact h.pkeys p (List.mem_of_mem_filter hp)

theorem pendBound_cleanCore {k : Core} {T : ℚ} (hb : PendBound k T) :
    PendBound (cleanCore k) T := by
  intro p hp
  exact hb p (List.mem_of_mem_filter hp)

theorem scan_result_cases (now : ℚ) (res ntf : Finset String)
    (pend : List (String × PendingTool)) (q : List String) :
    scanQueue now res ntf pend q = ⟨[], ntf, pend⟩
  ∨ ∃ id tool, id ∈ q ∧ pend.lookup id = some tool ∧ id ∉ res ∧ id ∉ ntf ∧
      NOTIFY_DELAY < now - tool.detected_at ∧
      scanQueue now res ntf pend q = ⟨[tool], insert id ntf, pendingErase pend id⟩ := by
  induction q with
  | nil => left; rfl
  | cons id rest ih =>
    rw [scanQueue]
    split_ifs with h1 h2
    · rcases ih with hc | ⟨id2, tool, hm, hrest⟩
      · left; exact hc
      · right; exact ⟨id2, tool, List.mem_cons_of_mem _ hm, hrest⟩
    · left; rfl
    · rcases hl : pend.lookup id with _ | tool
      · dsimp only
        rcases ih with hc | ⟨id2, tool, hm, hrest⟩
        · left; exact hc
        · right; exact ⟨id2, tool, List.mem_cons_of_mem _ hm, hrest⟩
      · dsimp only
        split_ifs with h3
        · right
          exact ⟨id, tool, List.mem_cons_self _ _, hl, h1, h2, h3, rfl⟩
        · rcases ih with hc | ⟨id2, tool2, hm, hrest⟩
          · left; exact hc
          · right; exact ⟨id2, tool2, List.mem_cons_of_mem _ hm, hrest⟩

theorem scan_announce_head (now : ℚ) (res ntf : Finset String)
    (pend : List (String × PendingTool)) (q : List String)
    (hres : ∀ id ∈ q, id ∉ res)
    (hmem : ∀ id ∈ q, pendingHas pend id = true ∨ id ∈ ntf)
    (hsorted : q.Pairwise (pendLE pend))
    (hkeys : ∀ p ∈ pend, p.2.tool_id = p.1)
    (t : PendingTool) (ht : t ∈ (scanQueue now res ntf pend q).ready) :
    ∃ rest, q = t.tool_id :: rest ∧ t.tool_id ∉ ntf := by
  cases q with
  | nil => simp [scanQueue] at ht
  | cons id rest =>
    rw [scanQueue] at ht
    split_ifs at ht with h1 h2
    · exact absurd h1 (hres id (List.mem_cons_self _ _))
    · simp at ht
    · rcases hl : pend.lookup id with _ | tool
      · rw [hl] at ht
        rcases hmem id (List.mem_cons_self _ _) with hp | hn
        · unfold pendingHas at hp
          rw [hl] at hp
          cases hp
        · exact absurd hn h2
      · rw [hl] at ht
        dsimp only at ht
        split_ifs at ht with h3
        · simp only [List.mem_singleton] at ht
          subst ht
          have hid : t.tool_id = id := hkeys (id, t) (lookup_mem_pair hl)
          rw [hid]
          exact ⟨rest, rfl, hid ▸ h2⟩
        · rcases scan_ready_sound now res ntf pend rest t ht with ⟨id2, hq2, hl2, _, hdel2⟩
          have hR : pendLE pend id id2 := (List.pairwise_cons.mp hsorted).1 id2 hq2
          have hle := hR tool t hl hl2
          push_neg at h3
          exact absurd hdel2 (by push_neg; linarith)

theorem inv_coreCheck {k : Core} (h : Inv k) (now : ℚ) (lines : List (Option Entry))
    (hb : PendBound k now) :
    Inv ((coreCheck now k lines).1) ∧ PendBound ((coreCheck now k lines).1) now := by
  rcases inv_coreLines h now lines hb with ⟨h1, hb1⟩
  have h2 : Inv (cleanCore (coreLines now k lines)) := inv_cleanCore h1
  have hb2 : PendBound (cleanCore (coreLines now k lines)) now := pendBound_cleanCore hb1
  unfold coreCheck
  dsimp only
  set k2 := cleanCore (coreLines now k lines) with hk2
  rcases scan_result_cases now k2.results k2.notified k2.pending k2.queue with
    hc | ⟨id0, tool, hq, hl, hres, hntf, hdel, hc⟩
  · rw [hc]
    exact ⟨h2, hb2⟩
  · rw [hc]
    dsimp only
    have htid : tool.tool_id = id0 := h2.pkeys (id0, tool) (lookup_mem_pair hl)
    -- the announced id0 is the head of the cleaned queue
    have hhead : ∃ rest, k2.queue = tool.tool_id :: rest ∧ tool.tool_id ∉ k2.notified := by
      refine scan_announce_head now k2.results k2.notified k2.pending k2.queue
        (clean_queue_not_res _) ?_ h2.sorted h2.pkeys tool ?_
      · intro id hid
        rcases h2.queue_mem id hid with hp | hn | hr
        · exact Or.inl hp
        · exact Or.inr hn
        · exact absurd hr (clean_queue_not_res _ id hid)
      · rw [hc]
        exact List.mem_singleton.mpr rfl
    rcases hhead with ⟨rest, hqeq, hid0ntf⟩
    rw [htid] at hqeq hid0ntf
    refine ⟨⟨?_, ?_, ?_, ?_, ?_, ?_⟩, ?_⟩
    · intro id hid
      rcases h2.queue_mem id hid with hp | hn | hr
      · by_cases hx : id = id0
        · subst hx
          exact Or.inr (Or.inl (Finset.mem_insert_self _ _))
        · left
          unfold pendingHas at hp ⊢
          rcases Option.isSome_iff_exists.mp hp with ⟨t, ht⟩
          unfold pendingErase
          rw [lookup_filter_of_some ht (by simpa using hx)]
          rfl
      · exact Or.inr (Or.inl (Finset.mem_insert_of_mem hn))
      · exact Or.inr (Or.inr hr)
    · exact ((List.filter_sublist _).map Prod.fst).nodup h2.keysNodup
    · exact h2.qNodup
    · refine h2.sorted.imp ?_
      intro a b hab ta tb hta htb
      exact hab ta tb (lookup_filter_some h2.keysNodup hta)
        (lookup_filter_some h2.keysNodup htb)
    · intro u hu hur
      rcases Finset.mem_insert.mp hu with heq0 | hn
      · subst heq0
        exact ⟨[], rest, hqeq, by simp⟩
      · rcases h2.nh u hn hur with ⟨q1, q2, heq, hq1⟩
        cases q1 with
        | cons a q1t =>
          have ha : a ∈ k2.queue := by
            rw [heq]
            exact List.mem_append.mpr (Or.inl (List.mem_cons_self _ _))
          exact absurd (hq1 a (List.mem_cons_self _ _)) (clean_queue_not_res _ a ha)
        | nil =>
          rw [List.nil_append] at heq
          rw [hqeq] at heq
          have : u = id0 := (List.cons.inj heq).1.symm
          subst this
          exact absurd hn hid0ntf
    · intro p hp
      exact h2.pkeys p (List.mem_of_mem_filter hp)
    · intro p hp
      exact hb2 p (List.mem_of_mem_filter hp)

theorem mkWatcher_inv (path pane cwd : String) (position : Nat) (results : Finset String) :
    Inv (mkWatcher path pane cwd position results).core := by
  refine ⟨?_, ?_, ?_, ?_, ?_, ?_⟩ <;>
    simp [mkWatcher, WatcherState.core, PendingKeysC]

theorem mkWatcher_pendBound (path pane cwd : String) (position : Nat)
    (results : Finset String) (T : ℚ) :
    PendBound (mkWatcher path pane cwd position results).core T := by
  intro p hp
  simp [mkWatcher, WatcherState.core] at hp

/-- Every tick's result arises from a `coreCheck` on an entering state
that satisfies the reachable-state invariant and the timestamp bound. -/
theorem runCores_inv (tr : List CheckStep) (k : Core) (j : Nat)
    (rj : Core × List PendingTool) (h : (runCores k tr)[j]? = some rj)
    (hmono : List.Pairwise (fun a b : CheckStep => a.1 ≤ b.1) tr)
    (hinv : Inv k)
    (hb : ∀ n l, tr[0]? = some (n, l) → PendBound k n) :
    ∃ k' nj lj, tr[j]? = some (nj, lj) ∧ rj = coreCheck nj k' lj ∧ Inv k' ∧ PendBound k' nj := by
  induction tr generalizing k j with
  | nil => simp [runCores] at h
  | cons step rest ih =>
    rcases step with ⟨n0, l0⟩
    rw [runCores_cons] at h
    have hb0 : PendBound k n0 := hb n0 l0 List.getElem?_cons_zero
    cases j with
    | zero =>
      rw [List.getElem?_cons_zero] at h
      cases h
      exact ⟨k, n0, l0, List.getElem?_cons_zero, rfl, hinv, hb0⟩
    | succ j =>
      rw [List.getElem?_cons_succ] at h
      rcases inv_coreCheck hinv n0 l0 hb0 with ⟨hinv1, hb1⟩
      have hmono' := (List.pairwise_cons.mp hmono).2
      have hhead := (List.pairwise_cons.mp hmono).1
      have hbr : ∀ n l, rest[0]? = some (n, l) → PendBound (coreCheck n0 k l0).1 n := by
        intro n l hl
        have hmem : ((n, l) : CheckStep) ∈ rest := List.getElem?_mem hl
        exact pendBound_mono hb1 (hhead (n, l) hmem)
      rcases ih _ j h hmono' hinv1 hbr with ⟨k', nj, lj, h1, h2, h3, h4⟩
      exact ⟨k', nj, lj, by rw [List.getElem?_cons_succ]; exact h1, h2, h3, h4⟩

/-- At an announcing check, the announced tool is the head of the cleaned
queue. -/
theorem coreCheck_ready_head {k : Core} (now : ℚ) (lines : List (Option Entry))
    (hinv : Inv k) (hb : PendBound k now) (t : PendingTool)
    (ht : t ∈ (coreCheck now k lines).2) :
    ((coreCheck now k lines).1.queue).head? = some t.tool_id := by
  rcases inv_coreLines hinv now lines hb with ⟨h1, _⟩
  have h2 := inv_cleanCore h1
  unfold coreCheck at ht ⊢
  dsimp only at ht ⊢
  set k2 := cleanCore (coreLines now k lines) with hk2
  have hhead := scan_announce_head now k2.results k2.notified k2.pending k2.queue
    (clean_queue_not_res _) ?_ h2.sorted h2.pkeys t ht
  · rcases hhead with ⟨rest, hqeq, _⟩
    rw [hqeq]
    rfl
  · intro id hid
    rcases h2.queue_mem id hid with hp | hn | hr
    · exact Or.inl hp
    · exact Or.inr hn
    · exact absurd hr (clean_queue_not_res _ id hid)

/-- The `tool_queue` of the watcher after tick `i`'s completed-tool
cleanup (the queue stored in the post-check state). -/
def queueAtCheck (s : WatcherState) (tr : List CheckStep) (i : Nat) : List String :=
  ((runChecks s tr)[i]?.map (fun r => r.state.tool_queue)).getD []

theorem queueAtCheck_core (s : WatcherState) (tr : List CheckStep) (i : Nat) :
    queueAtCheck s tr i = ((runCores s.core tr)[i]?.map (fun r => r.1.queue)).getD [] := by
  unfold queueAtCheck
  rw [← runChecks_core_map, List.getElem?_map]
  cases (runChecks s tr)[i]? <;> rfl

/-- **C2.**  Within one transcript, tool notifications are emitted in
detection order: whenever `check()` announces a tool, that tool sits at
the head (position 0) of the post-cleanup `tool_queue`, so the tool at
queue position N+1 is never announced while any tool at an earlier
position remains queued — in particular never before the tool at
position N has been announced or resolved. -/
theorem C2_announced_tool_is_queue_head
    (path pane cwd : String) (position : Nat) (initResults : Finset String)
    (tr : List CheckStep)
    (hmono : List.Pairwise (fun a b : CheckStep => a.1 ≤ b.1) tr)
    (i : Nat) (t : PendingTool)
    (ht : t ∈ readyAt (mkWatcher path pane cwd position initResults) tr i) :
    (queueAtCheck (mkWatcher path pane cwd position initResults) tr i).head?
      = some t.tool_id := by
  rw [readyAt_core] at ht
  rw [queueAtCheck_core]
  rcases hri : (runCores (mkWatcher path pane cwd position initResults).core tr)[i]? with
    _ | ri
  · rw [hri] at ht
    simp at ht
  · rw [hri] at ht
    simp only [Option.map_some', Option.getD_some] at ht
    simp only [Option.map_some', Option.getD_some]
    rcases runCores_inv tr _ i ri hri hmono
        (mkWatcher_inv path pane cwd position initResults)
        (fun n l _ => mkWatcher_pendBound path pane cwd position initResults n) with
      ⟨k', ni, li, hstep, heq, hinv', hb'⟩
    rw [heq] at ht ⊢
    exact coreCheck_ready_head ni li hinv' hb' t ht

/-! ### At most one announced tool awaits its result -/

theorem inv_awaiting_card {k : Core} (h : Inv k) : (k.notified \ k.results).card ≤ 1 := by
  rw [Finset.card_le_one]
  intro a ha b hb2
  have ha1 := Finset.mem_sdiff.mp ha
  have hb1 := Finset.mem_sdiff.mp hb2
  rcases h.nh a ha1.1 ha1.2 with ⟨p1, s1, he1, hr1⟩
  rcases h.nh b hb1.1 hb1.2 with ⟨p2, s2, he2, hr2⟩
  have hga : k.queue[p1.length]? = some a := by
    rw [he1, List.getElem?_append_right (le_refl _), Nat.sub_self, List.getElem?_cons_zero]
  have hgb : k.queue[p2.length]? = some b := by
    rw [he2, List.getElem?_append_right (le_refl _), Nat.sub_self, List.getElem?_cons_zero]
  rcases Nat.lt_trichotomy p1.length p2.length with hlt | heqn | hgt
  · have hin : k.queue[p1.length]? = p2[p1.length]? := by
      rw [he2, List.getElem?_append_left hlt]
    rw [hga] at hin
    have hmem : a ∈ p2 := List.getElem?_mem hin.symm
    exact absurd (hr2 a hmem) ha1.2
  · rw [heqn, hgb] at hga
    exact (Option.some.inj hga).symm
  · have hin : k.queue[p2.length]? = p1[p2.length]? := by
      rw [he1, List.getElem?_append_left hgt]
    rw [hgb] at hin
    have hmem : b ∈ p1 := List.getElem?_mem hin.symm
    exact absurd (hr1 b hmem) hb1.2

theorem detectCore_notified (now : ℚ) (atext : String) (k : Core) (c : ContentItem) :
    (detectCore now atext k c).notified = k.notified := by
  unfold detectCore
  split_ifs <;> rfl

theorem fold_detectCore_notified (cs : List ContentItem) (now : ℚ) (atext : String)
    (k : Core) : (cs.foldl (detectCore now atext) k).notified = k.notified := by
  induction cs generalizing k with
  | nil => rfl
  | cons c cs ih => rw [List.foldl_cons, ih, detectCore_notified]

theorem notified_persist_resultItemCore {k : Core} {c : ContentItem} {u : String}
    (hu : u ∈ k.notified) (hr : u ∉ (resultItemCore k c).results) :
    u ∈ (resultItemCore k c).notified := by
  unfold resultItemCore at hr ⊢
  split_ifs at hr ⊢ with hc
  · refine Finset.mem_erase.mpr ⟨?_, hu⟩
    intro hx
    subst hx
    exact hr (Finset.mem_insert_self _ _)
  · exact hu

theorem notified_persist_fold_resultItemCore (cs : List ContentItem) :
    ∀ {k : Core} {u : String}, u ∈ k.notified →
      u ∉ (cs.foldl resultItemCore k).results → u ∈ (cs.foldl resultItemCore k).notified := by
  induction cs with
  | nil => intro k u hu hr; exact hu
  | cons c cs ih =>
    intro k u hu hr
    rw [List.foldl_cons] at hr ⊢
    have hr1 : u ∉ (resultItemCore k c).results := by
      intro hmem
      exact hr (Finset.mem_of_subset (results_fold_resultItemCore cs _) hmem)
    exact ih (notified_persist_resultItemCore hu hr1) hr

theorem notified_persist_coreEntry {k : Core} {e : Entry} {u : String} (now : ℚ)
    (hu : u ∈ k.notified) (hr : u ∉ (coreEntry now k e).results) :
    u ∈ (coreEntry now k e).notified := by
  unfold coreEntry at hr ⊢
  split_ifs at hr ⊢
  · exact hu
  · exact notified_persist_fold_resultItemCore e.content hu hr
  · exact hu
  · rw [fold_detectCore_notified]
    exact hu

theorem notified_persist_coreLines {u : String} (now : ℚ)
    (lines : List (Option Entry)) :
    ∀ {k : Core}, u ∈ k.notified → u ∉ (coreLines now k lines).results →
      u ∈ (coreLines now k lines).notified := by
  induction lines with
  | nil => intro k hu hr; exact hu
  | cons l ls ih =>
    intro k hu hr
    unfold coreLines at hr ⊢
    rw [List.foldl_cons] at hr ⊢
    cases l with
    | none => exact ih hu hr
    | some e =>
      dsimp only at hr ⊢
      have hr1 : u ∉ (coreEntry now k e).results := by
        intro hmem
        exact hr (Finset.mem_of_subset (results_coreLines now _ ls) hmem)
      exact ih (notified_persist_coreEntry now hu hr1) hr

theorem scan_notified_sup (now : ℚ) (res ntf : Finset String)
    (pend : List (String × PendingTool)) (q : List String) :
    ntf ⊆ (scanQueue now res ntf pend q).notified := by
  rcases scan_result_cases now res ntf pend q with hc | ⟨id, tool, _, _, _, _, _, hc⟩
  · rw [hc]
  · rw [hc]
    exact Finset.subset_insert _ _

theorem coreCheck_results_eq (now : ℚ) (k : Core) (lines : List (Option Entry)) :
    (coreCheck now k lines).1.results = (coreLines now k lines).results := rfl

theorem notified_persist_coreCheck {k : Core} {u : String} (now : ℚ)
    (lines : List (Option Entry)) (hu : u ∈ k.notified)
    (hr : u ∉ (coreCheck now k lines).1.results) :
    u ∈ (coreCheck now k lines).1.notified := by
  have hr1 : u ∉ (coreLines now k lines).results := by
    rw [← coreCheck_results_eq now k lines]
    exact hr
  have hu1 : u ∈ (coreLines now k lines).notified := notified_persist_coreLines now lines hu hr1
  unfold coreCheck
  dsimp only
  refine Finset.mem_of_subset (scan_notified_sup _ _ _ _ _) ?_
  unfold cleanCore
  exact Finset.mem_sdiff.mpr ⟨hu1, hr1⟩

theorem coreCheck_ready_notified {k : Core} (now : ℚ) (lines : List (Option Entry))
    (hkeys : PendingKeysC k) (t : PendingTool) (ht : t ∈ (coreCheck now k lines).2) :
    t.tool_id ∈ (coreCheck now k lines).1.notified := by
  unfold coreCheck at ht ⊢
  dsimp only at ht ⊢
  set k2 := cleanCore (coreLines now k lines) with hk2
  have hkeys2 : PendingKeysC k2 := by
    intro p hp
    exact pendingKeys_coreLines hkeys now lines p (List.mem_of_mem_filter hp)
  rcases scan_result_cases now k2.results k2.notified k2.pending k2.queue with
    hc | ⟨id0, tool, hq, hl, hres, hntf, hdel, hc⟩
  · rw [hc] at ht
    simp at ht
  · rw [hc] at ht ⊢
    simp only [List.mem_singleton] at ht
    subst ht
    have htid : t.tool_id = id0 := hkeys2 (id0, t) (lookup_mem_pair hl)
    rw [htid]
    exact Finset.mem_insert_self _ _

theorem coreCheck_waiting_no_ready {k : Core} (now : ℚ) (lines : List (Option Entry))
    (hinv : Inv k) (hb : PendBound k now) (u : String)
    (hu : u ∈ k.notified) (hr : u ∉ (coreCheck now k lines).1.results) :
    (coreCheck now k lines).2 = [] := by
  have hr1 : u ∉ (coreLines now k lines).results := by
    rw [← coreCheck_results_eq now k lines]
    exact hr
  have hu1 : u ∈ (coreLines now k lines).notified := notified_persist_coreLines now lines hu hr1
  rcases inv_coreLines hinv now lines hb with ⟨h1, _⟩
  have h2 := inv_cleanCore h1
  unfold coreCheck
  dsimp only
  set k2 := cleanCore (coreLines now k lines) with hk2
  have hu2 : u ∈ k2.notified := Finset.mem_sdiff.mpr ⟨hu1, hr1⟩
  have hur2 : u ∉ k2.results := hr1
  rcases h2.nh u hu2 hur2 with ⟨q1, q2, heq, hq1⟩
  have hq1nil : q1 = [] := by
    cases q1 with
    | nil => rfl
    | cons a q1t =>
      have ha : a ∈ k2.queue := by
        rw [heq]
        exact List.mem_append.mpr (Or.inl (List.mem_cons_self _ _))
      exact absurd (hq1 a (List.mem_cons_self _ _)) (clean_queue_not_res _ a ha)
  subst hq1nil
  rw [List.nil_append] at heq
  rw [heq, scanQueue]
  rw [if_neg (by simpa using hur2), if_pos hu2]

theorem coreCheck_ready_len (now : ℚ) (k : Core) (lines : List (Option Entry)) :
    (coreCheck now k lines).2.length ≤ 1 := by
  unfold coreCheck
  dsimp only
  exact scan_ready_len _ _ _ _ _

/-- While `u` is announced and unresolved, every later check announces
nothing (and `u` stays announced). -/
theorem runCores_start_waiting (tr : List CheckStep) (k : Core) (u : String) (j : Nat)
    (rj : Core × List PendingTool) (h : (runCores k tr)[j]? = some rj)
    (hmono : List.Pairwise (fun a b : CheckStep => a.1 ≤ b.1) tr)
    (hinv : Inv k) (hb : ∀ n l, tr[0]? = some (n, l) → PendBound k n)
    (hu : u ∈ k.notified) (hr : u ∉ rj.1.results) :
    rj.2 = [] ∧ u ∈ rj.1.notified := by
  induction tr generalizing k j with
  | nil => simp [runCores] at h
  | cons step rest ih =>
    rcases step with ⟨n0, l0⟩
    rw [runCores_cons] at h
    have hb0 : PendBound k n0 := hb n0 l0 List.getElem?_cons_zero
    cases j with
    | zero =>
      rw [List.getElem?_cons_zero] at h
      cases h
      exact ⟨coreCheck_waiting_no_ready n0 l0 hinv hb0 u hu hr,
        notified_persist_coreCheck n0 l0 hu hr⟩
    | succ j =>
      rw [List.getElem?_cons_succ] at h
      have hr0 : u ∉ (coreCheck n0 k l0).1.results := by
        intro hmem
        exact hr (runCores_start_sub rest _ j rj h hmem)
      have hu0 : u ∈ (coreCheck n0 k l0).1.notified :=
        notified_persist_coreCheck n0 l0 hu hr0
      rcases inv_coreCheck hinv n0 l0 hb0 with ⟨hinv1, hb1⟩
      have hmono' := (List.pairwise_cons.mp hmono).2
      have hhead := (List.pairwise_cons.mp hmono).1
      have hbr : ∀ n l, rest[0]? = some (n, l) → PendBound (coreCheck n0 k l0).1 n := by
        intro n l hl
        exact pendBound_mono hb1 (hhead (n, l) (List.getElem?_mem hl))
      exact ih _ j h hmono' hinv1 hbr hu0

theorem runCores_drop (tr : List CheckStep) (k : Core) (i : Nat)
    (ri : Core × List PendingTool) (h : (runCores k tr)[i]? = some ri) :
    (runCores k tr).drop (i + 1) = runCores ri.1 (tr.drop (i + 1)) := by
  induction tr generalizing k i with
  | nil => simp [runCores] at h
  | cons step rest ih =>
    rcases step with ⟨n0, l0⟩
    rw [runCores_cons] at h ⊢
    cases i with
    | zero =>
      rw [List.getElem?_cons_zero] at h
      cases h
      rfl
    | succ i =>
      rw [List.getElem?_cons_succ] at h
      rw [List.drop_succ_cons, List.drop_succ_cons]
      exact ih _ i h

/-- The set of announced-but-unresolved tool ids after tick `i`. -/
def awaitingAtCheck (s : WatcherState) (tr : List CheckStep) (i : Nat) : Finset String :=
  ((runChecks s tr)[i]?.map
    (fun r => r.state.notified_tools \ r.state.tool_results)).getD ∅

theorem awaitingAtCheck_core (s : WatcherState) (tr : List CheckStep) (i : Nat) :
    awaitingAtCheck s tr i
      = ((runCores s.core tr)[i]?.map (fun r => r.1.notified \ r.1.results)).getD ∅ := by
  unfold awaitingAtCheck
  rw [← runChecks_core_map, List.getElem?_map]
  cases (runChecks s tr)[i]? <;> rfl

/-- **C10.**  Per watcher: (1) a single `check()` call returns at most one
newly announced tool; (2) at most one announced tool is awaiting its
result at any time (the announced-but-unresolved set has at most one
element after every tick); (3) while an announced tool's `tool_result`
has not been seen, no subsequent `check()` announces anything. -/
theorem C10_at_most_one_announced_awaiting
    (path pane cwd : String) (position : Nat) (initResults : Finset String)
    (tr : List CheckStep) :
    (∀ i : Nat, (readyAt (mkWatcher path pane cwd position initResults) tr i).length ≤ 1)
    ∧ (List.Pairwise (fun a b : CheckStep => a.1 ≤ b.1) tr →
        ∀ i : Nat,
          (awaitingAtCheck (mkWatcher path pane cwd position initResults) tr i).card ≤ 1)
    ∧ (List.Pairwise (fun a b : CheckStep => a.1 ≤ b.1) tr →
        ∀ (i j : Nat) (t : PendingTool), i < j →
          t ∈ readyAt (mkWatcher path pane cwd position initResults) tr i →
          t.tool_id ∉ resultsAtCheck (mkWatcher path pane cwd position initResults) tr j →
          readyAt (mkWatcher path pane cwd position initResults) tr j = []) := by
  refine ⟨?_, ?_, ?_⟩
  · intro i
    rw [readyAt_core]
    rcases hri : (runCores (mkWatcher path pane cwd position initResults).core tr)[i]? with
      _ | ri
    · simp
    · simp only [Option.map_some', Option.getD_some]
      rcases runCores_entry tr _ i ri hri
          (mkWatcher_pendingKeys path pane cwd position initResults) with
        ⟨k', n, l, _, heq, _⟩
      rw [heq]
      exact coreCheck_ready_len n k' l
  · intro hmono i
    rw [awaitingAtCheck_core]
    rcases hri : (runCores (mkWatcher path pane cwd position initResults).core tr)[i]? with
      _ | ri
    · simp
    · simp only [Option.map_some', Option.getD_some]
      rcases runCores_inv tr _ i ri hri hmono
          (mkWatcher_inv path pane cwd position initResults)
          (fun n l _ => mkWatcher_pendBound path pane cwd position initResults n) with
        ⟨k', ni, li, hstep, heq, hinv', hb'⟩
      have hInv_ri : Inv ri.1 := by
        rw [heq]
        exact (inv_coreCheck hinv' ni li hb').1
      exact inv_awaiting_card hInv_ri
  · intro hmono i j t hij ht hres
    rw [readyAt_core] at ht
    rcases hri : (runCores (mkWatcher path pane cwd position initResults).core tr)[i]? with
      _ | ri
    · rw [hri] at ht
      simp at ht
    · rw [hri] at ht
      simp only [Option.map_some', Option.getD_some] at ht
      rcases runCores_inv tr _ i ri hri hmono
          (mkWatcher_inv path pane cwd position initResults)
          (fun n l _ => mkWatcher_pendBound path pane cwd position initResults n) with
        ⟨k', ni, li, hstep, heq, hinv', hb'⟩
      have hnotif : t.tool_id ∈ ri.1.notified := by
        rw [heq]
        rw [heq] at ht
        exact coreCheck_ready_notified ni li hinv'.pkeys t ht
      have hInv_ri : Inv ri.1 := by
        rw [heq]
        exact (inv_coreCheck hinv' ni li hb').1
      have hPB_ri : PendBound ri.1 ni := by
        rw [heq]
        exact (inv_coreCheck hinv' ni li hb').2
      rw [readyAt_core]
      rcases hrj : (runCores (mkWatcher path pane cwd position initResults).core tr)[j]? with
        _ | rj
      · simp
      · simp only [Option.map_some', Option.getD_some]
        have hres' : t.tool_id ∉ rj.1.results := by
          rw [resultsAtCheck_core, hrj] at hres
          simpa using hres
        have hd : (i + 1) + (j - i - 1) = j := by omega
        have hdropEl :
            (runCores ri.1 (tr.drop (i + 1)))[j - i - 1]?
              = (runCores (mkWatcher path pane cwd position initResults).core tr)[j]? := by
          rw [← runCores_drop tr _ i ri hri, List.getElem?_drop, hd]
        have hrj' : (runCores ri.1 (tr.drop (i + 1)))[j - i - 1]? = some rj := by
          rw [hdropEl]
          exact hrj
        have hmono' : List.Pairwise (fun a b : CheckStep => a.1 ≤ b.1) (tr.drop (i + 1)) :=
          hmono.sublist (List.drop_sublist _ _)
        have hbd : ∀ n l, (tr.drop (i + 1))[0]? = some (n, l) → PendBound ri.1 n := by
          intro n l hl
          rw [List.getElem?_drop] at hl
          have hstep1 : tr[i + 1]? = some (n, l) := by
            simpa using hl
          rcases List.getElem?_eq_some.mp hstep with ⟨hleni, hgi⟩
          rcases List.getElem?_eq_some.mp hstep1 with ⟨hlenj, hgj⟩
          have hle := List.pairwise_iff_getElem.mp hmono i (i + 1) hleni hlenj (by omega)
          rw [hgi, hgj] at hle
          simp only at hle
          exact pendBound_mono hPB_ri hle
        exact (runCores_start_waiting (tr.drop (i + 1)) ri.1 t.tool_id (j - i - 1) rj
          hrj' hmono' hInv_ri hbd hnotif hres').1

/-- A concrete assistant record carrying one `tool_use` block. -/
def entryW1 : Entry :=
  { etype := "assistant", msgId := "m1",
    content := [{ ctype := "tool_use", id := "toolu_1", name := "Bash" }] }

/-- A concrete two-tick trace: detect `toolu_1` at `t = 0`, announce at `t = 1`. -/
def trW1 : List CheckStep := [((0 : ℚ), [some entryW1]), ((1 : ℚ), [])]

/-- The `PendingTool` record announced at the second tick of `trW1`. -/
def toolW1 : PendingTool :=
  ⟨"toolu_1", "Bash", "", "", "t", "p", "c", 0⟩

/-- Witness for C1 at a concrete trace. -/
theorem C1_witness :
    trW1[1]? = some ((1 : ℚ), []) ∧
    toolW1 ∈ readyAt (mkWatcher ("t") ("p") ("c") 0 ∅) trW1 1 ∧
    (toolW1.tool_id ∉ resultsAtCheck (mkWatcher ("t") ("p") ("c") 0 ∅) trW1 1 ∧
      NOTIFY_DELAY < 1 - toolW1.detected_at) :=
  ⟨by decide, by decide,
    (C1_announce_no_result_and_strictly_after_delay ("t") ("p") ("c") 0 ∅ trW1).1
      1 1 [] toolW1 (by decide) (by decide)⟩

/-- A concrete three-tick trace: detect at `t = 0`, announce at `t = 1`,
tick again at `t = 2` with the result still missing. -/
def trW3 : List CheckStep :=
  [((0 : ℚ), [some entryW1]), ((1 : ℚ), []), ((2 : ℚ), [])]

/-- Witness for C2 at a concrete trace. -/
theorem C2_witness :
    List.Pairwise (fun a b : CheckStep => a.1 ≤ b.1) trW1 ∧
    toolW1 ∈ readyAt (mkWatcher ("t") ("p") ("c") 0 ∅) trW1 1 ∧
    (queueAtCheck (mkWatcher ("t") ("p") ("c") 0 ∅) trW1 1).head? = some toolW1.tool_id :=
  ⟨by decide, by decide,
    C2_announced_tool_is_queue_head ("t") ("p") ("c") 0 ∅ trW1 (by decide) 1 toolW1
      (by decide)⟩

/-- Witness for C10 at concrete traces. -/
theorem C10_witness :
    List.Pairwise (fun a b : CheckStep => a.1 ≤ b.1) trW3 ∧
    (readyAt (mkWatcher ("t") ("p") ("c") 0 ∅) trW3 1).length ≤ 1 ∧
    (awaitingAtCheck (mkWatcher ("t") ("p") ("c") 0 ∅) trW3 1).card ≤ 1 ∧
    readyAt (mkWatcher ("t") ("p") ("c") 0 ∅) trW3 2 = [] :=
  ⟨by decide,
    (C10_at_most_one_announced_awaiting ("t") ("p") ("c") 0 ∅ trW3).1 1,
    (C10_at_most_one_announced_awaiting ("t") ("p") ("c") 0 ∅ trW3).2.1 (by decide) 1,
    (C10_at_most_one_announced_awaiting ("t") ("p") ("c") 0 ∅ trW3).2.2 (by decide)
      1 2 toolW1 (by decide) (by decide) (by decide)⟩

/-- A transcript whose final line is a partial JSON write: one complete
record line (bytes 0–15, newline included) followed by the five bytes of
an unterminated, unparseable line starting at offset 16. -/
def c3content : List Char := ("\x7b\"type\":\"user\"\x7d\n\x7b\"par").toList

/-- **C3.**  The claim says the stored offset stays at the start (16) of a
partial trailing line so the next `check()` re-reads it.  In the code,
`check()` stores `f.tell()` after iterating every line — the end of file
— without consulting the per-line parse results: for every `decode`
(model of `json.loads`) the new offset is 21 = end of file, not 16, even
though a non-empty broken line starts at 16; a subsequent `check()` from
offset 21 reads no lines at all, so the broken line is never re-read. -/
theorem C3_offset_advances_past_partial_line :
    ∀ (decode : List Char → Option Entry) (now : ℚ),
      (watcherCheckFile decode c3content (mkWatcher ("t") ("p") ("c") 0 ∅) now).state.position
          = 21
        ∧ c3content.length = 21
        ∧ c3content.drop 16 ≠ []
        ∧ linesOf (c3content.drop 16) ≠ []
        ∧ linesOf (c3content.drop 21) = [] := by
  intro decode now
  have h : (watcherCheckFile decode c3content
      (mkWatcher ("t") ("p") ("c") 0 ∅) now).state.position = c3content.length := rfl
  refine ⟨?_, by decide, by decide, by decide, by decide⟩
  rw [h]
  decide

/-! ### telegram-daemon.py: `handle_completed_tools` -/

/-- `QUICK_RESPONSE_THRESHOLD = 4.0` seconds (telegram-daemon.py). -/
def QUICK_RESPONSE_THRESHOLD : ℚ := 4

/-- One message-state entry (telegram-daemon.py / telegram_utils.py State).
Message ids are the integer Telegram ids (Python stores `str(msg_id)` keys
and converts back with `int`); absent string fields are `""`, absent
`notified_at` is `0` (both falsy in the code's tests). -/
structure MsgEntry where
  pane : String := ""
  mtype : String := ""
  transcript_path : String := ""
  tool_use_id : String := ""
  tool_name : String := ""
  cwd : String := ""
  claude_msg_id : String := ""
  notified_at : ℚ := 0
  handled : Bool := false
  superseded : Bool := false
deriving Repr, DecidableEq

/-- The message-state map (insertion-ordered dict keyed by message id). -/
abbrev MsgState := List (Nat × MsgEntry)

/-- `state.remove(msg_id)`. -/
def stateRemove (m : MsgState) (id : Nat) : MsgState :=
  m.filter (fun p => p.1 ≠ id)

/-- `state.update(msg_id, handled=True)`. -/
def stateSetHandled (m : MsgState) (id : Nat) : MsgState :=
  m.map (fun p => if p.1 = id then (p.1, { p.2 with handled := true }) else p)

/-- Chat-side effects issued by the daemon tick. -/
inductive DaemonAct
  | deleteMsg (msg_id : Nat)
  | editButtons (msg_id : Nat) (label : String)
deriving Repr, DecidableEq

/-- The body of `handle_completed_tools`'s loop for one snapshot item:
skip handled entries and entries without a `tool_use_id`; when the
entry's transcript has a watcher whose `tool_results` contains the id,
delete the message (and drop the entry) if `now - notified_at <
QUICK_RESPONSE_THRESHOLD`, else rewrite the buttons to "⏰ Expired" and
mark the entry handled.  A falsy `notified_at` counts as elapsed 999. -/
def hctStep (now : ℚ) (watchers : List (String × Finset String))
    (acc : MsgState × List DaemonAct) (p : Nat × MsgEntry) : MsgState × List DaemonAct :=
  if p.2.handled then acc
  else if p.2.tool_use_id = "" then acc
  else
    match (if p.2.transcript_path ≠ "" then watchers.lookup p.2.transcript_path else none) with
    | none => acc
    | some results =>
      if p.2.tool_use_id ∈ results then
        let elapsed := if p.2.notified_at ≠ 0 then now - p.2.notified_at else 999
        if elapsed < QUICK_RESPONSE_THRESHOLD then
          (stateRemove acc.1 p.1, acc.2 ++ [DaemonAct.deleteMsg p.1])
        else
          (stateSetHandled acc.1 p.1, acc.2 ++ [DaemonAct.editButtons p.1 "⏰ Expired"])
      else acc

/-- `handle_completed_tools(bot_token, state, transcript_mgr)`: iterate the
snapshot `list(state.items())`, mutating the live state.  `watchers` maps
each transcript path to its watcher's `tool_results`; `configured` models
`config.is_configured()`. -/
def handle_completed_tools (configured : Bool) (now : ℚ)
    (watchers : List (String × Finset String)) (state : MsgState) :
    MsgState × List DaemonAct :=
  if ¬ configured then (state, [])
  else state.foldl (hctStep now watchers) (state, [])

/-- Witness data for the daemon tick: one unhandled notification entry
whose tool has completed. -/
def msgEntryW : MsgEntry :=
  { pane := "%1", mtype := "permission_prompt", transcript_path := "t",
    tool_use_id := "toolu_1", tool_name := "Bash", notified_at := 10 }

def watchersW : List (String × Finset String) := [("t", {"toolu_1"})]

def stateW : MsgState := [(42, msgEntryW)]

/-! ### telegram_poller.py: `get_action_label` and `handle_callback` -/

/-- `get_action_label(action, tool_name=None)` (telegram_poller.py:118).
`tool_name` is accepted and ignored, as in the source. -/
def get_action_label (action : String) (tool_name : String := "") : String :=
  if action = "y" then "✓ Allowed"
  else if action = "a" then "✓ Always"
  else if action = "n" then "📝 Reply"
  else if action = "replied" then "💬 Replied"
  else "⏰ Expired"

/-- The ephemeral `labels` dict of `handle_callback`
(`\x7b"y": "Allowed", "a": f"Always: \x7btool_name\x7d" if tool_name else
"Always allowed", "n": "Denied"\x7d`). -/
def respLabel (cb_data tool_name : String) : String :=
  if cb_data = "y" then "Allowed"
  else if cb_data = "a" then
    (if tool_name ≠ "" then "Always: " ++ tool_name else "Always allowed")
  else "Denied"

/-- Observable side effects of one `handle_callback` call: callback answers,
button edits, tmux key injections. -/
inductive PollAct
  | answer (text : String)
  | editButtons (msg_id : Nat) (label : String)
  | sendKeysResponse (pane : String) (response : String)
  | sendText (pane : String) (text : String)
  | sendPermText (pane : String) (text : String)
  | replyMsg (text : String)
  | react
deriving Repr, DecidableEq

/-- `max((int(mid) for mid, e in state.items() if e.get("pane") == pane),
default=0)`. -/
def latestFor (pane : String) (state : MsgState) : Nat :=
  state.foldl (fun acc p => if p.2.pane = pane then max acc p.1 else acc) 0

/-- Body of the batch-denial loop (telegram_poller.py:231-242): skip the
denied message itself, other panes, non-permission entries and handled
entries; otherwise rewrite buttons to "❌ Denied via batch denial" and mark
handled. -/
def batchStep (pane : String) (msg_key : Nat)
    (acc : MsgState × List PollAct) (p : Nat × MsgEntry) : MsgState × List PollAct :=
  if p.1 = msg_key then acc
  else if p.2.pane ≠ pane then acc
  else if p.2.mtype ≠ "permission_prompt" then acc
  else if p.2.handled then acc
  else (stateSetHandled acc.1 p.1, acc.2 ++ [PollAct.editButtons p.1 "❌ Denied via batch denial"])

/-- `TelegramPoller.handle_callback` (telegram_poller.py:165-256).
`toolHandled` models `tool_already_handled` (a transcript read);
`sendPermOk`/`sendPaneOk` model whether `send_permission_response` /
`send_to_pane` succeed for a pane.  Returns the new message-state and the
emitted effects, in call order. -/
def handle_callback (toolHandled : String → String → Bool) (sendPermOk sendPaneOk : String → Bool)
    (cb_data : String) (cb_msg_id : Nat) (state : MsgState) : MsgState × List PollAct :=
  if cb_data = "_" then (state, [PollAct.answer "Already handled"])
  else
    match state.lookup cb_msg_id with
    | none => (state, [PollAct.answer "Session not found"])
    | some entry =>
      if entry.handled then (state, [PollAct.answer "Already handled"])
      else if ¬ entry.mtype = "permission_prompt" ∧ cb_msg_id < latestFor entry.pane state then
        (stateSetHandled state cb_msg_id,
          [PollAct.answer "Stale prompt", PollAct.editButtons cb_msg_id "⏰ Expired"])
      else if entry.mtype = "permission_prompt" ∧
          toolHandled entry.transcript_path entry.tool_use_id then
        (stateSetHandled state cb_msg_id,
          [PollAct.answer "Already handled in TUI", PollAct.editButtons cb_msg_id "⏰ Expired"])
      else if cb_data = "y" ∨ cb_data = "n" ∨ cb_data = "a" then
        if entry.mtype = "permission_prompt" then
          if sendPermOk entry.pane then
            let base : MsgState × List PollAct :=
              (stateSetHandled state cb_msg_id,
                [PollAct.sendKeysResponse entry.pane cb_data,
                 PollAct.answer (respLabel cb_data entry.tool_name),
                 PollAct.editButtons cb_msg_id (get_action_label cb_data entry.tool_name)])
            if cb_data = "n" then
              (stateSetHandled state cb_msg_id).foldl (batchStep entry.pane cb_msg_id) base
            else base
          else
            (stateSetHandled state cb_msg_id, [PollAct.answer "Failed: pane dead"])
        else (state, [PollAct.answer "No active prompt"])
      else
        if sendPaneOk entry.pane then
          (state, [PollAct.sendText entry.pane cb_data, PollAct.answer ("Sent: " ++ cb_data)])
        else (state, [PollAct.sendText entry.pane cb_data, PollAct.answer "Failed"])

/-- Witness data for the poller: a denied permission prompt (msg 1), a
second pending prompt on the same pane (msg 2), and a prompt on another
pane (msg 3). -/
def entryDenied : MsgEntry :=
  { pane := "%1", mtype := "permission_prompt", transcript_path := "t",
    tool_use_id := "toolu_1", tool_name := "Bash" }

def entryQueued : MsgEntry :=
  { pane := "%1", mtype := "permission_prompt", transcript_path := "t",
    tool_use_id := "toolu_2", tool_name := "Read" }

def entryOtherPane : MsgEntry :=
  { pane := "%2", mtype := "permission_prompt", transcript_path := "u",
    tool_use_id := "toolu_3" }

def stateC5 : MsgState := [(1, entryDenied), (2, entryQueued), (3, entryOtherPane)]

def cbDenyRun : MsgState × List PollAct :=
  handle_callback (fun _ _ => false) (fun _ => true) (fun _ => true) ("n") 1 stateC5

/-! ### telegram_poller.py: `get_pending_tool_from_transcript` and
`_handle_reply_to_tracked` -/

/-- `\s` of Python `re` (ASCII range). -/
def isWsC (c : Char) : Bool :=
  c == ' ' || c == '\t' || c == '\n' || c == '\r' || c == '\x0b' || c == '\x0c'

/-- Consume leading whitespace (the deterministic reading of a greedy
`\s*` followed by a non-whitespace literal). -/
def skipWs : List Char → List Char
  | [] => []
  | c :: rest => if isWsC c then skipWs rest else c :: rest

/-- Match a literal character sequence at the head, returning the rest. -/
def stripLit : List Char → List Char → Option (List Char)
  | [], cs => some cs
  | _ :: _, [] => none
  | l :: ls, c :: cs => if c = l then stripLit ls cs else none

/-- Longest run of non-quote characters (the greedy `[^"]+` body). -/
def takeNonQuote : List Char → List Char × List Char
  | [] => ([], [])
  | c :: rest =>
    if c = '"' then ([], c :: rest)
    else
      let r := takeNonQuote rest
      (c :: r.1, r.2)

/-- Match the regex `"KEY"\s*:\s*"(toolu_[^"]+)"` anchored at the head of
`cs`, returning the captured group. -/
def matchKeyIdAt (key : List Char) (cs : List Char) : Option (List Char) :=
  match stripLit ('"' :: key ++ ['"']) cs with
  | none => none
  | some cs1 =>
    match stripLit [':'] (skipWs cs1) with
    | none => none
    | some cs3 =>
      match stripLit ('"' :: ("toolu_").toList) (skipWs cs3) with
      | none => none
      | some cs5 =>
        let r := takeNonQuote cs5
        if r.1 = [] then none
        else
          match r.2 with
          | '"' :: _ => some (("toolu_").toList ++ r.1)
          | _ => none

/-- `re.search` for the pattern above: leftmost match. -/
def searchKeyId (key : List Char) : List Char → Option (List Char)
  | [] => none
  | c :: rest =>
    match matchKeyIdAt key (c :: rest) with
    | some g => some g
    | none => searchKeyId key rest

/-- Python `needle in line` (substring), head-anchored helper. -/
def startsWithL : List Char → List Char → Bool
  | [], _ => true
  | _ :: _, [] => false
  | a :: as, b :: bs => (a == b) && startsWithL as bs

/-- Python `needle in line` (substring containment). -/
def containsSub (needle : List Char) : List Char → Bool
  | [] => startsWithL needle []
  | c :: rest => startsWithL needle (c :: rest) || containsSub needle rest

/-- The tool_use id extracted from one transcript line
(telegram_poller.py:42-45). -/
def lineToolUseId (line : List Char) : Option String :=
  if containsSub ("\"tool_use\"").toList line &&
      containsSub ("\"type\":\"tool_use\"").toList line then
    (searchKeyId ("id").toList line).map String.mk
  else none

/-- The tool_use_id extracted from one tool_result line
(telegram_poller.py:46-49). -/
def lineToolResultId (line : List Char) : Option String :=
  if containsSub ("\"tool_result\"").toList line then
    (searchKeyId ("tool_use_id").toList line).map String.mk
  else none

/-- The `tool_uses` set accumulated over the transcript. -/
def transcriptToolUses (lines : List (List Char)) : Finset String :=
  lines.foldl
    (fun s l => match lineToolUseId l with | some id => insert id s | none => s) ∅

/-- The `tool_results` set accumulated over the transcript. -/
def transcriptToolResults (lines : List (List Char)) : Finset String :=
  lines.foldl
    (fun s l => match lineToolResultId l with | some id => insert id s | none => s) ∅

/-- `pending = tool_uses - tool_results`. -/
def pendingTools (lines : List (List Char)) : Finset String :=
  transcriptToolUses lines \ transcriptToolResults lines

/-- `get_pending_tool_from_transcript` (telegram_poller.py:33-56).
`pending.pop()` removes an ARBITRARY element of a Python set; `choice`
models that selection and `transcripts` maps a path to the file's lines. -/
def get_pending_tool_from_transcript (choice : Finset String → String)
    (transcripts : String → List (List Char)) (transcript_path : String) : Option String :=
  if transcript_path = "" then none
  else
    let pending := pendingTools (transcripts transcript_path)
    if pending.Nonempty then some (choice pending) else none

/-- The refusal text of the blocked branch (telegram_poller.py:339). -/
def ignoredMsg : String :=
  "⚠️ Ignored: there\x27s a pending permission prompt. Please respond to that first."

/-- `TelegramPoller._handle_reply_to_tracked` (telegram_poller.py:301-348).
Returns (handled?, new state, effects); `permTextOk` / `panePlainOk` model
whether `send_text_to_permission_prompt` / `send_to_pane` succeed. -/
def handleReplyToTracked (choice : Finset String → String)
    (transcripts : String → List (List Char)) (permTextOk panePlainOk : String → Bool)
    (reply_to : Nat) (text : String) (state : MsgState) : Bool × MsgState × List PollAct :=
  match state.lookup reply_to with
  | none => (false, state, [])
  | some entry =>
    if entry.pane = "" then (false, state, [])
    else
      match get_pending_tool_from_transcript choice transcripts entry.transcript_path with
      | some pending_tool_id =>
        if entry.tool_use_id = pending_tool_id then
          if permTextOk entry.pane then
            (true, stateSetHandled state reply_to,
              [PollAct.sendPermText entry.pane text,
               PollAct.editButtons reply_to "💬 Replied",
               PollAct.react])
          else (true, state, [])
        else (true, state, [PollAct.replyMsg ignoredMsg])
      | none =>
        if panePlainOk entry.pane then
          (true, state, [PollAct.sendText entry.pane text, PollAct.react])
        else (true, state, [])

/-- One transcript line holding a pending `tool_use` with the given id. -/
def tuLine (id : String) : List Char :=
  ("\x7b\"type\":\"tool_use\",\"id\":\"" ++ id ++ "\"\x7d").toList

def linesTwoPending : List (List Char) := [tuLine ("toolu_1"), tuLine ("toolu_2")]

def linesOnePending : List (List Char) := [tuLine ("toolu_1")]

def transcriptsTwo : String → List (List Char) :=
  fun p => if p = "t" then linesTwoPending else []

def transcriptsOne : String → List (List Char) :=
  fun p => if p = "t" then linesOnePending else []

/-- A selection function a Python `set.pop()` could exhibit: prefers
`toolu_2` when present. -/
def choicePrefers2 : Finset String → String :=
  fun s => if "toolu_2" ∈ s then "toolu_2" else "toolu_1"

def entryReplyParent : MsgEntry :=
  { pane := "%1", mtype := "permission_prompt", transcript_path := "t",
    tool_use_id := "toolu_1", tool_name := "Bash" }

def stateReply : MsgState := [(5, entryReplyParent)]

def replyRunTwo : Bool × MsgState × List PollAct :=
  handleReplyToTracked choicePrefers2 transcriptsTwo (fun _ => true) (fun _ => true)
    5 ("ok") stateReply

/-! ### registry.py / telegram_utils.py: file-write protocols -/

/-- Filesystem mutations performed by the JSON writers, in call order. -/
inductive FsOp
  | mkdir (path : String)
  | mkstempWrite (dir : String) (tmp : String) (content : String)
  | rename (src : String) (dst : String)
  | writeText (path : String) (content : String)
deriving Repr, DecidableEq

/-- `_write_json(path, data)` (registry.py:36-51): `ensure_dir()`, write
the serialized data to a fresh `tempfile.mkstemp` file in the target's
directory, then `os.rename` it over the target. `tmp` is the fresh name
mkstemp returns. -/
def _write_json (path parent tmp content : String) : List FsOp :=
  [FsOp.mkdir parent, FsOp.mkstempWrite parent tmp content, FsOp.rename tmp path]

/-- `write_marker_file(directory, data)` (registry.py:261-265):
`marker_path.parent.mkdir(...)` then `marker_path.write_text(...)` — the
target path is written in place. -/
def write_marker_file (marker_path parent content : String) : List FsOp :=
  [FsOp.mkdir parent, FsOp.writeText marker_path content]

/-- `State._flush` (telegram_utils.py:56-57):
`STATE_FILE.write_text(json.dumps(self._data))` — in-place write. -/
def State_flush (stateFile content : String) : List FsOp :=
  [FsOp.writeText stateFile content]

/-- The trace contains an in-place `write_text` of the target path, i.e.
an intermediate point at which the target can hold partial content. -/
def writesTargetDirectly (ops : List FsOp) (target : String) : Bool :=
  ops.any (fun op => match op with
    | FsOp.writeText p _ => p == target
    | _ => false)

/-- The target path is only ever produced by `rename` (write-temp-then-
rename protocol): no in-place write and no temp file equal to the target. -/
def targetOnlyByRename (ops : List FsOp) (target : String) : Bool :=
  ops.all (fun op => match op with
    | FsOp.writeText p _ => !(p == target)
    | FsOp.mkstempWrite _ tmp _ => !(tmp == target)
    | _ => true)

/-! ### registry.py: `rebuild_registry_from_markers` -/

/-- One parsed `.claude/army.json` marker, with the scanner's added
`path`.  Missing string keys read as `""` (falsy), matching `dict.get`;
a pending marker has `pending_topic_name` set but no `name`. -/
structure Marker where
  name : String := ""
  mtype : String := ""
  topic_id : Option Nat := none
  path : String := ""
  repo : String := ""
  pending_topic_name : String := ""
deriving Repr, DecidableEq

/-- One registry task record (the dict built at registry.py:385-392). -/
structure TaskData where
  ttype : String
  path : String
  topic_id : Option Nat
  repo : String := ""
deriving Repr, DecidableEq

/-- The registry's insertion-ordered `tasks` dict. -/
abbrev Registry := List (String × TaskData)

/-- `Registry.add_task` (registry.py:199-202): dict assignment — replace
in place if the key exists, else append. -/
def add_task (reg : Registry) (name : String) (td : TaskData) : Registry :=
  if (reg.lookup name).isSome then
    reg.map (fun p => if p.1 = name then (name, td) else p)
  else reg ++ [(name, td)]

/-- The task_data built from a marker (registry.py:378-390):
`type` defaults to "session", `repo` only carried when truthy. -/
def markerTask (m : Marker) : TaskData :=
  { ttype := if m.mtype = "" then "session" else m.mtype,
    path := m.path,
    topic_id := m.topic_id,
    repo := m.repo }

/-- One iteration of the recovery loop (registry.py:374-396): skip
markers without name or path, skip names already registered, otherwise
add the task and bump the recovered count. -/
def rebuildStep (acc : Registry × Nat) (m : Marker) : Registry × Nat :=
  if m.name = "" ∨ m.path = "" then acc
  else
    match acc.1.lookup m.name with
    | some _ => acc
    | none => (add_task acc.1 m.name (markerTask m), acc.2 + 1)

/-- `rebuild_registry_from_markers` (registry.py:361-398), with the
scanner's marker list passed in: returns the updated registry and the
recovered count. -/
def rebuild_registry_from_markers (markers : List Marker) (reg : Registry) : Registry × Nat :=
  markers.foldl rebuildStep (reg, 0)

/-! ### telegram_utils.py: `split_message_with_code_blocks` and
`send_to_topic` -/

/-- The backtick character (codepoint 96). -/
def backtickC : Char := Char.ofNat 96

/-- The needle of `text.find(...)` for a fence. -/
def backtick3 : List Char := [backtickC, backtickC, backtickC]

/-- The needle for a closing fence. -/
def nlBacktick3 : List Char := '\n' :: backtick3

/-- `SAFE_LIMIT = 4000` (telegram_utils.py:250). -/
def SAFE_LIMIT : Nat := 4000

/-- One record of `_parse_code_blocks`'s result. -/
structure CodeBlock where
  bstart : Nat
  bend : Nat
  language : String
  closed : Bool
deriving Repr, DecidableEq

/-- `text.find(needle, i)` helper walking the dropped suffix. -/
def findSubAux (needle : List Char) : List Char → Nat → Option Nat
  | [], i => if needle = [] then some i else none
  | c :: rest, i =>
    if startsWithL needle (c :: rest) then some i
    else findSubAux needle rest (i + 1)

/-- Python `text.find(needle, start)` (`none` for -1). -/
def findSubFrom (text needle : List Char) (start : Nat) : Option Nat :=
  findSubAux needle (text.drop start) start

/-- Python `str.strip()` (ASCII whitespace). -/
def stripBoth (cs : List Char) : List Char :=
  ((cs.dropWhile isWsC).reverse.dropWhile isWsC).reverse

/-- The scan loop of `_parse_code_blocks` (telegram_utils.py:166-200),
fuelled: find an opening fence, take the rest of its line as the
language, then find the closing fence; unclosed blocks run to the end of
the text and stop the scan. -/
def parseBlocksAux (text : List Char) : Nat → Nat → List CodeBlock
  | 0, _ => []
  | fuel + 1, pos =>
    match findSubFrom text backtick3 pos with
    | none => []
    | some bstart =>
      match findSubFrom text ['\n'] bstart with
      | none => [⟨bstart, text.length, "", false⟩]
      | some line_end =>
        let language := String.mk (stripBoth ((text.drop (bstart + 3)).take (line_end - (bstart + 3))))
        match findSubFrom text nlBacktick3 line_end with
        | none => [⟨bstart, text.length, language, false⟩]
        | some e => ⟨bstart, e + 4, language, true⟩ :: parseBlocksAux text fuel (e + 4)

/-- `_parse_code_blocks(text)`. -/
def _parse_code_blocks (text : List Char) : List CodeBlock :=
  parseBlocksAux text (text.length + 1) 0

/-- Python `for offset in range(hi, lo, -1): if p(offset): return offset`,
fuelled countdown. -/
def searchDownAux (p : Nat → Bool) (lo : Nat) : Nat → Nat → Option Nat
  | 0, _ => none
  | fuel + 1, hi =>
    if hi ≤ lo then none
    else if p hi then some hi
    else searchDownAux p lo fuel (hi - 1)

def searchDown (p : Nat → Bool) (lo hi : Nat) : Option Nat :=
  searchDownAux p lo (hi + 1) hi

/-- Priority 1: a paragraph break ending at `offset`
(`text[offset-1:offset+1] == chr(10) ++ chr(10)` with `offset > 0`). -/
def isParaBreak (text : List Char) (offset : Nat) : Bool :=
  decide (0 < offset) && (text.get? (offset - 1) == some '\n') && (text.get? offset == some '\n')

/-- Priorities 2 and 3: a newline at `offset`. -/
def isNl (text : List Char) (offset : Nat) : Bool :=
  text.get? offset == some '\n'

/-- The result record of `_find_split_point`. -/
structure SplitInfo where
  position : Nat
  in_code_block : Bool
  block_info : Option CodeBlock
deriving Repr, DecidableEq

/-- `_find_split_point(text, start, target, code_blocks)`
(telegram_utils.py:203-235). -/
def _find_split_point (text : List Char) (start target : Nat)
    (code_blocks : List CodeBlock) : SplitInfo :=
  match code_blocks.find? (fun b => decide (b.bstart ≤ target) && decide (target ≤ b.bend)) with
  | none =>
    match searchDown (isParaBreak text) start target with
    | some off => ⟨off, false, none⟩
    | none =>
      match searchDown (isNl text) start target with
      | some off => ⟨off, false, none⟩
      | none => ⟨target, false, none⟩
  | some b =>
    match searchDown (isNl text) (max start b.bstart) target with
    | some off => ⟨off, true, some b⟩
    | none => ⟨target, true, some b⟩

/-- The reopening tag `f"(3 backticks){language}\n"` prepended to a chunk
that continues a code block. -/
def contOpen : Option CodeBlock → List Char
  | none => []
  | some b => backtick3 ++ b.language.toList ++ ['\n']

/-- The closing tag appended when a chunk splits inside a code block. -/
def closeFence : List Char := '\n' :: backtick3

/-- The chunking loop of `split_message_with_code_blocks`
(telegram_utils.py:259-287), fuelled: emit the decorated remainder once
it fits `SAFE_LIMIT`, otherwise cut at the split point, closing and
carrying the continued block. -/
def splitLoopAux (text : List Char) (blocks : List CodeBlock) :
    Nat → Nat → Option CodeBlock → List (List Char)
  | 0, _, _ => []
  | fuel + 1, pos, cont =>
    if text.length ≤ pos then []
    else if (text.drop pos).length ≤ SAFE_LIMIT then
      [contOpen cont ++ text.drop pos]
    else
      let si := _find_split_point text pos (pos + SAFE_LIMIT) blocks
      let chunk1 := contOpen cont ++ (text.drop pos).take (si.position - pos)
      let chunk2 := if si.in_code_block then chunk1 ++ closeFence else chunk1
      let cont2 := if si.in_code_block then si.block_info else none
      chunk2 :: splitLoopAux text blocks fuel si.position cont2

/-- Decimal digits of `n` (Python `str(i)` for the `(i/N)` markers),
fuelled. -/
def natCharsAux : Nat → Nat → List Char
  | 0, _ => []
  | fuel + 1, n =>
    if n < 10 then [Nat.digitChar n]
    else natCharsAux fuel (n / 10) ++ [Nat.digitChar (n % 10)]

def natChars (n : Nat) : List Char := natCharsAux (n + 1) n

/-- The continuation marker `f"(\x7bi\x7d/\x7btotal\x7d) "`. -/
def markerFor (i total : Nat) : List Char :=
  '(' :: natChars i ++ '/' :: natChars total ++ [')', ' ']

/-- `[f"(\x7bi+1\x7d/\x7btotal\x7d) \x7bchunk\x7d" for i, chunk in
enumerate(chunks)]`, with `i` starting at the given index. -/
def addMarkers (total : Nat) : Nat → List (List Char) → List (List Char)
  | _, [] => []
  | i, c :: rest => (markerFor i total ++ c) :: addMarkers total (i + 1) rest

/-- `split_message_with_code_blocks(text, max_length=4096)`
(telegram_utils.py:238-297). -/
def split_message_with_code_blocks (text : List Char) (max_length : Nat := 4096) :
    List (List Char) :=
  let code_blocks := _parse_code_blocks text
  if text.length ≤ max_length then [text]
  else
    let chunks := splitLoopAux text code_blocks (text.length + 1) 0 none
    if 1 < chunks.length then addMarkers chunks.length 1 chunks else chunks

/-- Specification companion of `splitLoopAux` keeping, per chunk, the
continued block it reopens, the raw slice of the original text it
carries, and the block it leaves open for the next chunk.  The chunk
itself is `decorateStep` of this triple. -/
def splitStepsSpec (text : List Char) (blocks : List CodeBlock) :
    Nat → Nat → Option CodeBlock → List (Option CodeBlock × List Char × Option CodeBlock)
  | 0, _, _ => []
  | fuel + 1, pos, cont =>
    if text.length ≤ pos then []
    else if (text.drop pos).length ≤ SAFE_LIMIT then
      [(cont, text.drop pos, none)]
    else
      let si := _find_split_point text pos (pos + SAFE_LIMIT) blocks
      let nxt := if si.in_code_block then si.block_info else none
      (cont, (text.drop pos).take (si.position - pos), nxt) ::
        splitStepsSpec text blocks fuel si.position nxt

/-- Rebuild a chunk from its step triple: reopening tag, raw slice,
closing tag when a block stays open. -/
def decorateStep (s : Option CodeBlock × List Char × Option CodeBlock) : List Char :=
  contOpen s.1 ++ s.2.1 ++ (if s.2.2.isSome then closeFence else [])

/-- `send_to_topic` (telegram_utils.py:574-593): each chunk becomes one
`_send_single_to_topic` call; all but the last go out without
`reply_markup`. -/
def sendToTopicMsgs (chunks : List (List Char)) (markup : Bool) : List (List Char × Bool) :=
  chunks.dropLast.map (fun c => (c, false)) ++
    (match chunks.getLast? with
     | some c => [(c, markup)]
     | none => [])

/-- Body of the counterexample text after the fence's language line. -/
def tailOver : List Char :=
  List.replicate 3795 'a' ++ '\n' :: List.replicate 3949 'b'

/-- Counterexample text: an unclosed fence whose language is 200
characters, a newline at offset 3999, and a 3949-character tail. -/
def textOverlong : List Char :=
  backtick3 ++ List.replicate 200 'x' ++ '\n' :: tailOver

/-- The single (unclosed) code block of `textOverlong`. -/
def blockOv : CodeBlock :=
  ⟨0, 7949, String.mk (List.replicate 200 'x'), false⟩

/-- Witness text: a paragraph break after 3998 characters, no fences. -/
def textPlainLong : List Char :=
  List.replicate 3998 'a' ++ '\n' :: '\n' :: List.replicate 1500 'b'

theorem lookup_stateRemove_ne (m : MsgState) {k id : Nat} (h : k ≠ id) :
    (stateRemove m k).lookup id = m.lookup id := by
  induction m with
  | nil => rfl
  | cons p rest ih =>
    rcases p with ⟨a, b⟩
    unfold stateRemove at ih ⊢
    rw [List.filter_cons]
    by_cases ha : a = k
    · subst ha
      rw [if_neg (by simp)]
      rw [List.lookup]
      have : (id == a) = false := by
        rw [beq_eq_false_iff_ne]
        intro hEq
        exact h hEq.symm
      simp only [this]
      exact ih
    · rw [if_pos (by simpa using ha)]
      rw [List.lookup, List.lookup]
      by_cases hk : id == a
      · simp only [hk]
      · rw [Bool.not_eq_true] at hk
        simp only [hk]
        exact ih

theorem lookup_stateRemove_self (m : MsgState) (id : Nat) :
    (stateRemove m id).lookup id = none := by
  apply lookup_eq_none_of_not_mem_keys
  intro hmem
  rcases List.mem_map.mp hmem with ⟨p, hp, hfst⟩
  have := List.mem_filter.mp hp
  have h2 : p.1 ≠ id := by simpa using this.2
  exact h2 hfst

theorem lookup_stateSetHandled_ne (m : MsgState) {k id : Nat} (h : k ≠ id) :
    (stateSetHandled m k).lookup id = m.lookup id := by
  induction m with
  | nil => rfl
  | cons p rest ih =>
    rcases p with ⟨a, b⟩
    unfold stateSetHandled at ih ⊢
    rw [List.map_cons]
    by_cases ha : a = k
    · subst ha
      rw [if_pos rfl]
      rw [List.lookup, List.lookup]
      have : (id == a) = false := by
        rw [beq_eq_false_iff_ne]
        intro hEq
        exact h hEq.symm
      simp only [this]
      exact ih
    · rw [if_neg (by simpa using ha)]
      rw [List.lookup, List.lookup]
      by_cases hk : id == a
      · simp only [hk]
      · rw [Bool.not_eq_true] at hk
        simp only [hk]
        exact ih

theorem lookup_stateSetHandled_self {m : MsgState} {id : Nat} {e : MsgEntry}
    (h : m.lookup id = some e) :
    (stateSetHandled m id).lookup id = some { e with handled := true } := by
  induction m with
  | nil => simp [List.lookup] at h
  | cons p rest ih =>
    rcases p with ⟨a, b⟩
    rw [List.lookup] at h
    unfold stateSetHandled at ih ⊢
    rw [List.map_cons]
    by_cases hk : id == a
    · simp only [hk] at h
      have ha : id = a := by simpa using hk
      have hb : b = e := by simpa using h
      subst ha
      subst hb
      rw [if_pos rfl, List.lookup]
      simp only [beq_self_eq_true]
    · rw [Bool.not_eq_true] at hk
      simp only [hk] at h
      by_cases ha : a = id
      · exact absurd ha (by intro hEq; subst hEq; simp at hk)
      · rw [if_neg ha, List.lookup]
        simp only [hk]
        exact ih h

/-- One loop step never changes the live state under a key other than the
processed item's. -/
theorem hctStep_lookup_ne (now : ℚ) (watchers : List (String × Finset String))
    (acc : MsgState × List DaemonAct) (p : Nat × MsgEntry) {id : Nat} (h : p.1 ≠ id) :
    (hctStep now watchers acc p).1.lookup id = acc.1.lookup id := by
  unfold hctStep
  split
  · rfl
  · split
    · rfl
    · split
      · rfl
      · split
        · dsimp only
          split
          · split
            · exact lookup_stateRemove_ne acc.1 h
            · exact lookup_stateSetHandled_ne acc.1 h
          · split
            · exact lookup_stateRemove_ne acc.1 h
            · exact lookup_stateSetHandled_ne acc.1 h
        · rfl

/-- One loop step only appends to the action log. -/
theorem hctStep_acts_ext (now : ℚ) (watchers : List (String × Finset String))
    (acc : MsgState × List DaemonAct) (p : Nat × MsgEntry) {a : DaemonAct} (h : a ∈ acc.2) :
    a ∈ (hctStep now watchers acc p).2 := by
  unfold hctStep
  split
  · exact h
  · split
    · exact h
    · split
      · exact h
      · split
        · dsimp only
          split
          · split
            · exact List.mem_append.mpr (Or.inl h)
            · exact List.mem_append.mpr (Or.inl h)
          · split
            · exact List.mem_append.mpr (Or.inl h)
            · exact List.mem_append.mpr (Or.inl h)
        · exact h

/-- Actions already emitted survive the rest of the loop. -/
theorem hct_fold_acts_mono (now : ℚ) (watchers : List (String × Finset String)) :
    ∀ (l : List (Nat × MsgEntry)) (acc : MsgState × List DaemonAct) (a : DaemonAct),
      a ∈ acc.2 → a ∈ (l.foldl (hctStep now watchers) acc).2 := by
  intro l
  induction l with
  | nil => intro acc a ha; exact ha
  | cons p rest ih =>
    intro acc a ha
    rw [List.foldl_cons]
    exact ih _ a (hctStep_acts_ext now watchers acc p ha)

/-- Processing snapshot items with other keys never changes what the live
state stores under `msg_id`. -/
theorem hct_fold_lookup_other (now : ℚ) (watchers : List (String × Finset String)) :
    ∀ (l : List (Nat × MsgEntry)) (acc : MsgState × List DaemonAct) (msg_id : Nat),
      msg_id ∉ l.map Prod.fst →
      (l.foldl (hctStep now watchers) acc).1.lookup msg_id = acc.1.lookup msg_id := by
  intro l
  induction l with
  | nil => intro acc msg_id _; rfl
  | cons p rest ih =>
    intro acc msg_id hmem
    rw [List.map_cons, List.mem_cons] at hmem
    push_neg at hmem
    rw [List.foldl_cons]
    rw [ih _ msg_id hmem.2]
    exact hctStep_lookup_ne now watchers acc p (fun hEq => hmem.1 hEq.symm)

/-- The loop step on an unhandled entry whose completed tool result is
present: the two-branch outcome on `now - notified_at`. -/
theorem hctStep_fire (now : ℚ) (watchers : List (String × Finset String))
    (acc : MsgState × List DaemonAct) (msg_id : Nat) (e : MsgEntry) (results : Finset String)
    (hh : e.handled = false) (ht : e.tool_use_id ≠ "") (htp : e.transcript_path ≠ "")
    (hw : watchers.lookup e.transcript_path = some results)
    (hr : e.tool_use_id ∈ results) (hn : e.notified_at ≠ 0) :
    hctStep now watchers acc (msg_id, e) =
      if now - e.notified_at < QUICK_RESPONSE_THRESHOLD then
        (stateRemove acc.1 msg_id, acc.2 ++ [DaemonAct.deleteMsg msg_id])
      else
        (stateSetHandled acc.1 msg_id, acc.2 ++ [DaemonAct.editButtons msg_id "⏰ Expired"]) := by
  unfold hctStep
  dsimp only
  rw [if_neg (by simp [hh]), if_neg ht, if_pos htp, hw]
  dsimp only
  rw [if_pos hr, if_pos hn]

/-- C4: on a daemon tick, every unhandled message-state entry whose
tool_use_id appears in its watcher's tool_results is resolved by
`handle_completed_tools` in one of exactly two ways: if
`now - notified_at < QUICK_RESPONSE_THRESHOLD` (4 s) the chat message is
deleted and the entry removed from message-state, and otherwise the
button row is rewritten to the single "⏰ Expired" label and the entry
stays in message-state marked `handled = true`. -/
theorem C4_completed_tools_quick_delete_slow_expire
    (now : ℚ) (watchers : List (String × Finset String)) (state : MsgState)
    (msg_id : Nat) (e : MsgEntry) (results : Finset String)
    (hnd : (state.map Prod.fst).Nodup)
    (hmem : (msg_id, e) ∈ state)
    (hh : e.handled = false) (ht : e.tool_use_id ≠ "") (htp : e.transcript_path ≠ "")
    (hw : watchers.lookup e.transcript_path = some results)
    (hr : e.tool_use_id ∈ results) (hn : e.notified_at ≠ 0) :
    (now - e.notified_at < QUICK_RESPONSE_THRESHOLD →
        (handle_completed_tools true now watchers state).1.lookup msg_id = none ∧
        DaemonAct.deleteMsg msg_id ∈ (handle_completed_tools true now watchers state).2) ∧
    (QUICK_RESPONSE_THRESHOLD ≤ now - e.notified_at →
        (handle_completed_tools true now watchers state).1.lookup msg_id =
          some { e with handled := true } ∧
        DaemonAct.editButtons msg_id "⏰ Expired" ∈
          (handle_completed_tools true now watchers state).2) := by
  obtain ⟨l1, l2, hdecomp⟩ := List.append_of_mem hmem
  subst hdecomp
  have hkeys : ((l1 ++ (msg_id, e) :: l2).map Prod.fst) =
      l1.map Prod.fst ++ msg_id :: l2.map Prod.fst := by simp
  rw [hkeys] at hnd
  have hnod := List.nodup_append.mp hnd
  have h1 : msg_id ∉ l1.map Prod.fst :=
    fun hc => (hnod.2.2 hc) (List.mem_cons_self _ _)
  have h2 : msg_id ∉ l2.map Prod.fst := (List.nodup_cons.mp hnod.2.1).1
  unfold handle_completed_tools
  rw [if_neg (by simp)]
  rw [List.foldl_append, List.foldl_cons]
  have hacc1 : (l1.foldl (hctStep now watchers)
      (l1 ++ (msg_id, e) :: l2, [])).1.lookup msg_id = some e := by
    rw [hct_fold_lookup_other now watchers l1 _ msg_id h1]
    dsimp only
    rw [lookup_append_none (lookup_eq_none_of_not_mem_keys h1)]
    rw [List.lookup]
    simp only [beq_self_eq_true]
  rw [hctStep_fire now watchers _ msg_id e results hh ht htp hw hr hn]
  constructor
  · intro hq
    rw [if_pos hq]
    constructor
    · rw [hct_fold_lookup_other now watchers l2 _ msg_id h2]
      exact lookup_stateRemove_self _ msg_id
    · exact hct_fold_acts_mono now watchers l2 _ _
        (List.mem_append.mpr (Or.inr (List.mem_singleton.mpr rfl)))
  · intro hs
    rw [if_neg (not_lt.mpr hs)]
    constructor
    · rw [hct_fold_lookup_other now watchers l2 _ msg_id h2]
      exact lookup_stateSetHandled_self hacc1
    · exact hct_fold_acts_mono now watchers l2 _ _
        (List.mem_append.mpr (Or.inr (List.mem_singleton.mpr rfl)))

/-- Witness for C4: with a single entry notified at t = 10 whose tool
result is present, a tick at t = 11 (elapsed 1 s < 4 s) deletes the chat
message and drops the entry. -/
theorem C4_witness :
    msgEntryW.handled = false ∧ (11 : ℚ) - msgEntryW.notified_at < QUICK_RESPONSE_THRESHOLD ∧
    ((handle_completed_tools true 11 watchersW stateW).1.lookup 42 = none ∧
      DaemonAct.deleteMsg 42 ∈ (handle_completed_tools true 11 watchersW stateW).2) :=
  ⟨by decide, by decide,
    (C4_completed_tools_quick_delete_slow_expire 11 watchersW stateW 42 msgEntryW
      {"toolu_1"} (by decide) (by decide) (by decide) (by decide) (by decide)
      (by decide) (by decide) (by decide)).1 (by decide)⟩

theorem lookup_eq_of_mem_nodup {α β : Type} [BEq α] [LawfulBEq α]
    {m : List (α × β)} {k : α} {b : β}
    (hnd : (m.map Prod.fst).Nodup) (hmem : (k, b) ∈ m) : m.lookup k = some b := by
  obtain ⟨l1, l2, hdec⟩ := List.append_of_mem hmem
  subst hdec
  have hkeys : ((l1 ++ (k, b) :: l2).map Prod.fst) =
      l1.map Prod.fst ++ k :: l2.map Prod.fst := by simp
  rw [hkeys] at hnd
  have h1 : k ∉ l1.map Prod.fst :=
    fun hc => ((List.nodup_append.mp hnd).2.2 hc) (List.mem_cons_self _ _)
  rw [lookup_append_none (lookup_eq_none_of_not_mem_keys h1), List.lookup]
  simp only [beq_self_eq_true]

theorem stateSetHandled_keys (m : MsgState) (id : Nat) :
    (stateSetHandled m id).map Prod.fst = m.map Prod.fst := by
  induction m with
  | nil => rfl
  | cons p rest ih =>
    unfold stateSetHandled at ih ⊢
    rw [List.map_cons, List.map_cons, List.map_cons]
    by_cases h : p.1 = id
    · rw [if_pos h]
      dsimp only
      rw [ih]
    · rw [if_neg h]
      rw [ih]

theorem mem_stateSetHandled_of_ne {m : MsgState} {k : Nat} {o : MsgEntry} (id : Nat)
    (hmem : (k, o) ∈ m) (h : k ≠ id) : (k, o) ∈ stateSetHandled m id :=
  List.mem_map.mpr ⟨(k, o), hmem, by simp [h]⟩

theorem batchStep_lookup_ne (pane : String) (mk : Nat)
    (acc : MsgState × List PollAct) (p : Nat × MsgEntry) {k : Nat} (h : p.1 ≠ k) :
    (batchStep pane mk acc p).1.lookup k = acc.1.lookup k := by
  unfold batchStep
  split
  · rfl
  · split
    · rfl
    · split
      · rfl
      · split
        · rfl
        · exact lookup_stateSetHandled_ne acc.1 h

theorem batchStep_lookup_msgkey (pane : String) (mk : Nat)
    (acc : MsgState × List PollAct) (p : Nat × MsgEntry) :
    (batchStep pane mk acc p).1.lookup mk = acc.1.lookup mk := by
  by_cases h : p.1 = mk
  · unfold batchStep
    rw [if_pos h]
  · exact batchStep_lookup_ne pane mk acc p h

theorem batchStep_acts_ext (pane : String) (mk : Nat)
    (acc : MsgState × List PollAct) (p : Nat × MsgEntry) {a : PollAct} (h : a ∈ acc.2) :
    a ∈ (batchStep pane mk acc p).2 := by
  unfold batchStep
  split
  · exact h
  · split
    · exact h
    · split
      · exact h
      · split
        · exact h
        · exact List.mem_append.mpr (Or.inl h)

theorem batch_fold_acts_mono (pane : String) (mk : Nat) :
    ∀ (l : List (Nat × MsgEntry)) (acc : MsgState × List PollAct) (a : PollAct),
      a ∈ acc.2 → a ∈ (l.foldl (batchStep pane mk) acc).2 := by
  intro l
  induction l with
  | nil => intro acc a ha; exact ha
  | cons p rest ih =>
    intro acc a ha
    rw [List.foldl_cons]
    exact ih _ a (batchStep_acts_ext pane mk acc p ha)

theorem batch_fold_lookup_other (pane : String) (mk : Nat) :
    ∀ (l : List (Nat × MsgEntry)) (acc : MsgState × List PollAct) (k : Nat),
      k ∉ l.map Prod.fst →
      (l.foldl (batchStep pane mk) acc).1.lookup k = acc.1.lookup k := by
  intro l
  induction l with
  | nil => intro acc k _; rfl
  | cons p rest ih =>
    intro acc k hmem
    rw [List.map_cons, List.mem_cons] at hmem
    push_neg at hmem
    rw [List.foldl_cons]
    rw [ih _ k hmem.2]
    exact batchStep_lookup_ne pane mk acc p (fun hEq => hmem.1 hEq.symm)

theorem batch_fold_lookup_msgkey (pane : String) (mk : Nat) :
    ∀ (l : List (Nat × MsgEntry)) (acc : MsgState × List PollAct),
      (l.foldl (batchStep pane mk) acc).1.lookup mk = acc.1.lookup mk := by
  intro l
  induction l with
  | nil => intro acc; rfl
  | cons p rest ih =>
    intro acc
    rw [List.foldl_cons]
    rw [ih _]
    exact batchStep_lookup_msgkey pane mk acc p

theorem batchStep_fire (pane : String) (mk : Nat)
    (acc : MsgState × List PollAct) (k : Nat) (o : MsgEntry)
    (hk : k ≠ mk) (hp : o.pane = pane) (hm : o.mtype = "permission_prompt")
    (hh : o.handled = false) :
    batchStep pane mk acc (k, o) =
      (stateSetHandled acc.1 k, acc.2 ++ [PollAct.editButtons k "❌ Denied via batch denial"]) := by
  unfold batchStep
  dsimp only
  rw [if_neg hk, if_neg (by simp [hp]), if_neg (by simp [hm]), if_neg (by simp [hh])]

theorem batchStep_skip (pane : String) (mk : Nat)
    (acc : MsgState × List PollAct) (k : Nat) (o : MsgEntry)
    (h : k = mk ∨ o.pane ≠ pane ∨ o.mtype ≠ "permission_prompt" ∨ o.handled = true) :
    batchStep pane mk acc (k, o) = acc := by
  unfold batchStep
  dsimp only
  by_cases h1 : k = mk
  · rw [if_pos h1]
  · rw [if_neg h1]
    rcases h with h | h | h | h
    · exact absurd h h1
    · rw [if_pos h]
    · by_cases h2 : o.pane ≠ pane
      · rw [if_pos h2]
      · rw [if_neg h2, if_pos h]
    · by_cases h2 : o.pane ≠ pane
      · rw [if_pos h2]
      · rw [if_neg h2]
        by_cases h3 : o.mtype ≠ "permission_prompt"
        · rw [if_pos h3]
        · rw [if_neg h3, if_pos h]

/-- C5 (corrected): denying a permission prompt marks the denied entry
handled with its button rewritten to `get_action_label "n"` — which is
"📝 Reply", NOT "❌ Denied" as the spec says — and batch-expires every
other unhandled permission_prompt entry of the same pane with the
"❌ Denied via batch denial" label; entries of other panes, non-permission
entries and already-handled entries are left unchanged. -/
theorem C5_deny_marks_reply_and_batch_denies
    (toolHandled : String → String → Bool) (sendPermOk sendPaneOk : String → Bool)
    (cb_msg_id : Nat) (state : MsgState) (entry : MsgEntry)
    (hnd : (state.map Prod.fst).Nodup)
    (hlook : state.lookup cb_msg_id = some entry)
    (hh : entry.handled = false)
    (hperm : entry.mtype = "permission_prompt")
    (hth : toolHandled entry.transcript_path entry.tool_use_id = false)
    (hinj : sendPermOk entry.pane = true) :
    ((handle_callback toolHandled sendPermOk sendPaneOk ("n") cb_msg_id state).1.lookup cb_msg_id =
        some { entry with handled := true } ∧
      PollAct.editButtons cb_msg_id (get_action_label ("n") entry.tool_name) ∈
        (handle_callback toolHandled sendPermOk sendPaneOk ("n") cb_msg_id state).2 ∧
      get_action_label ("n") entry.tool_name = "📝 Reply" ∧
      PollAct.sendKeysResponse entry.pane ("n") ∈
        (handle_callback toolHandled sendPermOk sendPaneOk ("n") cb_msg_id state).2) ∧
    (∀ (k : Nat) (o : MsgEntry), (k, o) ∈ state → k ≠ cb_msg_id →
      o.handled = false → o.pane = entry.pane → o.mtype = "permission_prompt" →
      (handle_callback toolHandled sendPermOk sendPaneOk ("n") cb_msg_id state).1.lookup k =
          some { o with handled := true } ∧
        PollAct.editButtons k "❌ Denied via batch denial" ∈
          (handle_callback toolHandled sendPermOk sendPaneOk ("n") cb_msg_id state).2) ∧
    (∀ (k : Nat) (o : MsgEntry), (k, o) ∈ state → k ≠ cb_msg_id →
      (o.pane ≠ entry.pane ∨ o.mtype ≠ "permission_prompt" ∨ o.handled = true) →
      (handle_callback toolHandled sendPermOk sendPaneOk ("n") cb_msg_id state).1.lookup k =
        some o) := by
  have hred : handle_callback toolHandled sendPermOk sendPaneOk ("n") cb_msg_id state =
      (stateSetHandled state cb_msg_id).foldl (batchStep entry.pane cb_msg_id)
        (stateSetHandled state cb_msg_id,
          [PollAct.sendKeysResponse entry.pane ("n"),
           PollAct.answer (respLabel ("n") entry.tool_name),
           PollAct.editButtons cb_msg_id (get_action_label ("n") entry.tool_name)]) := by
    unfold handle_callback
    rw [if_neg (by decide), hlook]
    dsimp only
    rw [if_neg (by simp [hh]), if_neg (by simp [hperm]), if_neg (by simp [hth]),
        if_pos (Or.inr (Or.inl rfl)), if_pos hperm, if_pos hinj, if_pos rfl]
  have hsnodup : ((stateSetHandled state cb_msg_id).map Prod.fst).Nodup := by
    rw [stateSetHandled_keys]
    exact hnd
  refine ⟨⟨?_, ?_, rfl, ?_⟩, ?_, ?_⟩
  · rw [hred, batch_fold_lookup_msgkey]
    exact lookup_stateSetHandled_self hlook
  · rw [hred]
    exact batch_fold_acts_mono _ _ _ _ _
      (List.mem_cons_of_mem _ (List.mem_cons_of_mem _ (List.mem_cons_self _ _)))
  · rw [hred]
    exact batch_fold_acts_mono _ _ _ _ _ (List.mem_cons_self _ _)
  · intro k o hkmem hkne hoh hop hom
    rw [hred]
    obtain ⟨l1, l2, hdec⟩ := List.append_of_mem (mem_stateSetHandled_of_ne cb_msg_id hkmem hkne)
    rw [hdec, List.foldl_append, List.foldl_cons]
    have hnd2 := hsnodup
    rw [hdec] at hnd2
    have hkeys : ((l1 ++ (k, o) :: l2).map Prod.fst) =
        l1.map Prod.fst ++ k :: l2.map Prod.fst := by simp
    rw [hkeys] at hnd2
    have hnod := List.nodup_append.mp hnd2
    have h1 : k ∉ l1.map Prod.fst :=
      fun hc => (hnod.2.2 hc) (List.mem_cons_self _ _)
    have h2 : k ∉ l2.map Prod.fst := (List.nodup_cons.mp hnod.2.1).1
    have hacc1 : (l1.foldl (batchStep entry.pane cb_msg_id)
        (l1 ++ (k, o) :: l2,
          [PollAct.sendKeysResponse entry.pane ("n"),
           PollAct.answer (respLabel ("n") entry.tool_name),
           PollAct.editButtons cb_msg_id (get_action_label ("n") entry.tool_name)])).1.lookup k =
        some o := by
      rw [batch_fold_lookup_other _ _ _ _ _ h1]
      dsimp only
      rw [lookup_append_none (lookup_eq_none_of_not_mem_keys h1), List.lookup]
      simp only [beq_self_eq_true]
    rw [batchStep_fire entry.pane cb_msg_id _ k o hkne hop hom hoh]
    constructor
    · rw [batch_fold_lookup_other _ _ _ _ _ h2]
      exact lookup_stateSetHandled_self hacc1
    · exact batch_fold_acts_mono _ _ _ _ _
        (List.mem_append.mpr (Or.inr (List.mem_singleton.mpr rfl)))
  · intro k o hkmem hkne hside
    rw [hred]
    obtain ⟨l1, l2, hdec⟩ := List.append_of_mem (mem_stateSetHandled_of_ne cb_msg_id hkmem hkne)
    rw [hdec, List.foldl_append, List.foldl_cons]
    have hnd2 := hsnodup
    rw [hdec] at hnd2
    have hkeys : ((l1 ++ (k, o) :: l2).map Prod.fst) =
        l1.map Prod.fst ++ k :: l2.map Prod.fst := by simp
    rw [hkeys] at hnd2
    have hnod := List.nodup_append.mp hnd2
    have h1 : k ∉ l1.map Prod.fst :=
      fun hc => (hnod.2.2 hc) (List.mem_cons_self _ _)
    have h2 : k ∉ l2.map Prod.fst := (List.nodup_cons.mp hnod.2.1).1
    rw [batchStep_skip entry.pane cb_msg_id _ k o (Or.inr hside)]
    rw [batch_fold_lookup_other _ _ _ _ _ h2, batch_fold_lookup_other _ _ _ _ _ h1]
    dsimp only
    rw [lookup_append_none (lookup_eq_none_of_not_mem_keys h1), List.lookup]
    simp only [beq_self_eq_true]

/-- Counterexample to C5 as stated: in a concrete deny on msg 1 the
denied entry's button is rewritten to "📝 Reply" and no "❌ Denied" edit
is ever issued, while msg 2 (same pane, pending) does get the
"❌ Denied via batch denial" treatment and msg 3 (other pane) is untouched. -/
theorem C5_counterexample :
    PollAct.editButtons 1 "📝 Reply" ∈ cbDenyRun.2 ∧
    PollAct.editButtons 1 "❌ Denied" ∉ cbDenyRun.2 ∧
    (∀ a ∈ cbDenyRun.2, a ≠ PollAct.editButtons 1 "❌ Denied") ∧
    cbDenyRun.1.lookup 1 = some { entryDenied with handled := true } ∧
    cbDenyRun.1.lookup 2 = some { entryQueued with handled := true } ∧
    PollAct.editButtons 2 "❌ Denied via batch denial" ∈ cbDenyRun.2 ∧
    cbDenyRun.1.lookup 3 = some entryOtherPane := by
  decide

/-- Witness for the corrected C5 theorem at the concrete deny run. -/
theorem C5_witness :
    (stateC5.map Prod.fst).Nodup ∧ stateC5.lookup 1 = some entryDenied ∧
    (handle_callback (fun _ _ => false) (fun _ => true) (fun _ => true) ("n") 1 stateC5).1.lookup 2 =
        some { entryQueued with handled := true } ∧
    PollAct.editButtons 2 "❌ Denied via batch denial" ∈
      (handle_callback (fun _ _ => false) (fun _ => true) (fun _ => true) ("n") 1 stateC5).2 :=
  ⟨by decide, by decide,
    ((C5_deny_marks_reply_and_batch_denies (fun _ _ => false) (fun _ => true) (fun _ => true)
        1 stateC5 entryDenied (by decide) (by decide) (by decide) (by decide) (by decide)
        (by decide)).2.1 2 entryQueued (by decide) (by decide) (by decide) (by decide)
        (by decide)).1,
    ((C5_deny_marks_reply_and_batch_denies (fun _ _ => false) (fun _ => true) (fun _ => true)
        1 stateC5 entryDenied (by decide) (by decide) (by decide) (by decide) (by decide)
        (by decide)).2.1 2 entryQueued (by decide) (by decide) (by decide) (by decide)
        (by decide)).2⟩

/-- C6 (corrected): the reply routing of `_handle_reply_to_tracked` is
decided by the SINGLE pending tool that `pending.pop()` happens to pick,
not by whether the parent's tool is among the pending set: if the chosen
pending tool equals the parent entry's tool_use_id (and the pane
injection succeeds), the text goes through the permission-dialog
free-text path and the parent is marked handled; if the chosen tool
differs, the reply is refused with the explanatory message and the state
is unchanged with nothing injected; if there is no pending tool at all,
the text is injected as plain pane input. -/
theorem C6_reply_routing_follows_chosen_pending
    (choice : Finset String → String) (transcripts : String → List (List Char))
    (permTextOk panePlainOk : String → Bool)
    (reply_to : Nat) (text : String) (state : MsgState) (entry : MsgEntry)
    (hlook : state.lookup reply_to = some entry)
    (hpane : entry.pane ≠ "") :
    (entry.transcript_path ≠ "" →
      (pendingTools (transcripts entry.transcript_path)).Nonempty →
      choice (pendingTools (transcripts entry.transcript_path)) = entry.tool_use_id →
      permTextOk entry.pane = true →
      handleReplyToTracked choice transcripts permTextOk panePlainOk reply_to text state =
        (true, stateSetHandled state reply_to,
          [PollAct.sendPermText entry.pane text,
           PollAct.editButtons reply_to "💬 Replied",
           PollAct.react])) ∧
    (entry.transcript_path ≠ "" →
      (pendingTools (transcripts entry.transcript_path)).Nonempty →
      choice (pendingTools (transcripts entry.transcript_path)) ≠ entry.tool_use_id →
      handleReplyToTracked choice transcripts permTextOk panePlainOk reply_to text state =
        (true, state, [PollAct.replyMsg ignoredMsg])) ∧
    ((entry.transcript_path = "" ∨ pendingTools (transcripts entry.transcript_path) = ∅) →
      panePlainOk entry.pane = true →
      handleReplyToTracked choice transcripts permTextOk panePlainOk reply_to text state =
        (true, state, [PollAct.sendText entry.pane text, PollAct.react])) := by
  refine ⟨?_, ?_, ?_⟩
  · intro h1 h2 h3 h4
    unfold handleReplyToTracked get_pending_tool_from_transcript
    rw [hlook]
    dsimp only
    rw [if_neg hpane, if_neg h1, if_pos h2]
    dsimp only
    rw [if_pos h3.symm, if_pos h4]
  · intro h1 h2 h3
    unfold handleReplyToTracked get_pending_tool_from_transcript
    rw [hlook]
    dsimp only
    rw [if_neg hpane, if_neg h1, if_pos h2]
    dsimp only
    rw [if_neg (fun hEq => h3 hEq.symm)]
  · intro h1 h2
    unfold handleReplyToTracked get_pending_tool_from_transcript
    rw [hlook]
    dsimp only
    rw [if_neg hpane]
    rcases h1 with h | h
    · rw [if_pos h]
      dsimp only
      rw [if_pos h2]
    · by_cases hp : entry.transcript_path = ""
      · rw [if_pos hp]
        dsimp only
        rw [if_pos h2]
      · rw [if_neg hp, if_neg (by rw [h]; exact Finset.not_nonempty_empty)]
        dsimp only
        rw [if_pos h2]

/-- Counterexample to C6 as stated: msg 5's parent tool `toolu_1` IS a
pending tool of the transcript (the claim's condition for injecting the
reply), and the selection made by `pending.pop()` is a legitimate member
of the pending set, yet the reply is refused and nothing is injected,
because the arbitrary pop picked the other pending tool `toolu_2`. -/
theorem C6_counterexample :
    "toolu_1" ∈ pendingTools (transcriptsTwo entryReplyParent.transcript_path) ∧
    choicePrefers2 (pendingTools (transcriptsTwo entryReplyParent.transcript_path)) ∈
      pendingTools (transcriptsTwo entryReplyParent.transcript_path) ∧
    entryReplyParent.tool_use_id = "toolu_1" ∧
    replyRunTwo = (true, stateReply, [PollAct.replyMsg ignoredMsg]) := by
  decide

/-- Witness for the corrected C6 theorem: with a single pending tool the
chosen tool is the parent's, and the reply goes through the
permission-dialog free-text path. -/
theorem C6_witness :
    entryReplyParent.pane ≠ "" ∧
    choicePrefers2 (pendingTools (transcriptsOne "t")) = "toolu_1" ∧
    handleReplyToTracked choicePrefers2 transcriptsOne (fun _ => true) (fun _ => true)
        5 ("ok") stateReply =
      (true, stateSetHandled stateReply 5,
        [PollAct.sendPermText "%1" "ok",
         PollAct.editButtons 5 "💬 Replied",
         PollAct.react]) :=
  ⟨by decide, by decide,
    (C6_reply_routing_follows_chosen_pending choicePrefers2 transcriptsOne
        (fun _ => true) (fun _ => true) 5 ("ok") stateReply entryReplyParent
        (by decide) (by decide)).1 (by decide) (by decide) (by decide) (by decide)⟩

/-- C7 (corrected): only `_write_json` (registry and configuration)
follows the write-temp-then-rename protocol; `write_marker_file` and
`State._flush` write their target paths in place with `write_text`, so a
reader can observe a partially-written marker or message-state file. -/
theorem C7_only_write_json_is_atomic (path parent tmp content : String)
    (htmp : tmp ≠ path) :
    targetOnlyByRename (_write_json path parent tmp content) path = true ∧
    FsOp.rename tmp path ∈ _write_json path parent tmp content ∧
    writesTargetDirectly (write_marker_file path parent content) path = true ∧
    writesTargetDirectly (State_flush path content) path = true := by
  refine ⟨?_, ?_, ?_, ?_⟩
  · unfold targetOnlyByRename _write_json
    simp [htmp]
  · unfold _write_json
    exact List.mem_cons_of_mem _ (List.mem_cons_of_mem _ (List.mem_cons_self _ _))
  · unfold writesTargetDirectly write_marker_file
    simp
  · unfold writesTargetDirectly State_flush
    simp

/-- Counterexample to C7 as stated: the marker writer and the state
writer place a `write_text` of the target path itself in their traces,
so those JSON files are not written via write-temp-then-rename. -/
theorem C7_counterexample :
    writesTargetDirectly (write_marker_file ("/w/.claude/claude-telegram.json")
      ("/w/.claude") ("m")) ("/w/.claude/claude-telegram.json") = true ∧
    writesTargetDirectly (State_flush ("/tmp/state.json") ("s")) ("/tmp/state.json") = true ∧
    targetOnlyByRename (_write_json ("/r/registry.json") ("/r") ("/r/abc.tmp") ("d"))
      ("/r/registry.json") = true := by
  decide

/-- Witness for the corrected C7 theorem at concrete paths. -/
theorem C7_witness :
    ("/r/abc.tmp" : String) ≠ "/r/registry.json" ∧
    (targetOnlyByRename (_write_json ("/r/registry.json") ("/r") ("/r/abc.tmp") ("d"))
        ("/r/registry.json") = true ∧
      FsOp.rename ("/r/abc.tmp") ("/r/registry.json") ∈
        _write_json ("/r/registry.json") ("/r") ("/r/abc.tmp") ("d") ∧
      writesTargetDirectly (write_marker_file ("/r/registry.json") ("/r") ("d"))
        ("/r/registry.json") = true ∧
      writesTargetDirectly (State_flush ("/r/registry.json") ("d"))
        ("/r/registry.json") = true) :=
  ⟨by decide,
    C7_only_write_json_is_atomic ("/r/registry.json") ("/r") ("/r/abc.tmp") ("d") (by decide)⟩

theorem add_task_none {reg : Registry} {name : String} (td : TaskData)
    (h : reg.lookup name = none) : add_task reg name td = reg ++ [(name, td)] := by
  unfold add_task
  rw [if_neg (by simp [h])]

theorem rebuildStep_isSome {acc : Registry × Nat} {k : String} (m : Marker)
    (h : (acc.1.lookup k).isSome) : ((rebuildStep acc m).1.lookup k).isSome := by
  by_cases h1 : m.name = "" ∨ m.path = ""
  · unfold rebuildStep
    rw [if_pos h1]
    exact h
  · unfold rebuildStep
    rw [if_neg h1]
    rcases hl : acc.1.lookup m.name with _ | td0
    · dsimp only
      rw [add_task_none (markerTask m) hl]
      obtain ⟨v, hv⟩ := Option.isSome_iff_exists.mp h
      rw [lookup_append_some hv]
      rfl
    · dsimp only
      exact h

theorem rebuild_fold_isSome :
    ∀ (markers : List Marker) (acc : Registry × Nat) (k : String),
      (acc.1.lookup k).isSome →
      ((markers.foldl rebuildStep acc).1.lookup k).isSome := by
  intro markers
  induction markers with
  | nil => intro acc k h; exact h
  | cons p rest ih =>
    intro acc k h
    rw [List.foldl_cons]
    exact ih _ k (rebuildStep_isSome p h)

theorem rebuild_fold_mem_isSome :
    ∀ (markers : List Marker) (acc : Registry × Nat) (m : Marker),
      m ∈ markers → m.name ≠ "" → m.path ≠ "" →
      ((markers.foldl rebuildStep acc).1.lookup m.name).isSome := by
  intro markers
  induction markers with
  | nil => intro acc m hm; cases hm
  | cons p rest ih =>
    intro acc m hm hn hp
    rw [List.foldl_cons]
    rcases List.mem_cons.mp hm with rfl | hm2
    · apply rebuild_fold_isSome
      unfold rebuildStep
      rw [if_neg (by simp [hn, hp])]
      rcases hl : acc.1.lookup m.name with _ | td0
      · dsimp only
        rw [add_task_none (markerTask m) hl, lookup_append_none hl, List.lookup]
        simp only [beq_self_eq_true]
        rfl
      · dsimp only
        rw [hl]
        rfl
    · exact ih _ m hm2 hn hp

theorem rebuildStep_noop {acc : Registry × Nat} {m : Marker}
    (h : m.name = "" ∨ m.path = "" ∨ (acc.1.lookup m.name).isSome) :
    rebuildStep acc m = acc := by
  unfold rebuildStep
  by_cases h1 : m.name = "" ∨ m.path = ""
  · rw [if_pos h1]
  · rw [if_neg h1]
    have h3 : (acc.1.lookup m.name).isSome := by
      rcases h with h | h | h
      · exact absurd (Or.inl h) h1
      · exact absurd (Or.inr h) h1
      · exact h
    obtain ⟨v, hv⟩ := Option.isSome_iff_exists.mp h3
    rw [hv]

theorem rebuild_fold_noop :
    ∀ (markers : List Marker) (acc : Registry × Nat),
      (∀ m ∈ markers, m.name = "" ∨ m.path = "" ∨ (acc.1.lookup m.name).isSome) →
      markers.foldl rebuildStep acc = acc := by
  intro markers
  induction markers with
  | nil => intro acc _; rfl
  | cons p rest ih =>
    intro acc h
    rw [List.foldl_cons, rebuildStep_noop (h p (List.mem_cons_self _ _))]
    exact ih acc (fun m hm => h m (List.mem_cons_of_mem _ hm))

theorem rebuildStep_lookup_empty (acc : Registry × Nat) (m : Marker) :
    (rebuildStep acc m).1.lookup "" = acc.1.lookup "" := by
  by_cases h1 : m.name = "" ∨ m.path = ""
  · unfold rebuildStep
    rw [if_pos h1]
  · unfold rebuildStep
    rw [if_neg h1]
    rcases hl : acc.1.lookup m.name with _ | td0
    · dsimp only
      rw [add_task_none (markerTask m) hl]
      have hne : m.name ≠ "" := fun hc => h1 (Or.inl hc)
      rcases he : acc.1.lookup "" with _ | w
      · rw [lookup_append_none he, List.lookup]
        have hb : (("" : String) == m.name) = false :=
          beq_eq_false_iff_ne.mpr (fun hc => hne hc.symm)
        rw [hb]
        rfl
      · rw [lookup_append_some he]
    · dsimp only

theorem rebuild_fold_lookup_empty :
    ∀ (markers : List Marker) (acc : Registry × Nat),
      (markers.foldl rebuildStep acc).1.lookup "" = acc.1.lookup "" := by
  intro markers
  induction markers with
  | nil => intro acc; rfl
  | cons p rest ih =>
    intro acc
    rw [List.foldl_cons, ih _, rebuildStep_lookup_empty]

/-- C9: `rebuild_registry_from_markers` is idempotent: with the marker
files and registry unchanged after one run, a second run leaves the
registry exactly as it was and returns a recovered count of 0; and keys
without a name (pending markers read `name` as the falsy missing value)
are never inserted — the registry is unchanged at that key. -/
theorem C9_rebuild_idempotent (markers : List Marker) (reg : Registry) :
    rebuild_registry_from_markers markers (rebuild_registry_from_markers markers reg).1 =
      ((rebuild_registry_from_markers markers reg).1, 0) ∧
    (rebuild_registry_from_markers markers reg).1.lookup "" = reg.lookup "" := by
  constructor
  · unfold rebuild_registry_from_markers
    apply rebuild_fold_noop
    intro m hm
    by_cases hn : m.name = ""
    · exact Or.inl hn
    · by_cases hp : m.path = ""
      · exact Or.inr (Or.inl hp)
      · exact Or.inr (Or.inr (rebuild_fold_mem_isSome markers (reg, 0) m hm hn hp))
  · unfold rebuild_registry_from_markers
    rw [rebuild_fold_lookup_empty]

/-- `_find_split_point` returns `block_info = some _` exactly when it
reports `in_code_block`. -/
theorem findSplit_block_iff (text : List Char) (s t : Nat) (blocks : List CodeBlock) :
    (_find_split_point text s t blocks).block_info.isSome =
      (_find_split_point text s t blocks).in_code_block := by
  unfold _find_split_point
  split
  · split
    · rfl
    · split
      · rfl
      · rfl
  · split
    · rfl
    · rfl

theorem splitLoop_eq_decorate (text : List Char) (blocks : List CodeBlock) :
    ∀ (fuel pos : Nat) (cont : Option CodeBlock),
      splitLoopAux text blocks fuel pos cont =
        (splitStepsSpec text blocks fuel pos cont).map decorateStep := by
  intro fuel
  induction fuel with
  | zero => intro pos cont; rfl
  | succ f ih =>
    intro pos cont
    unfold splitLoopAux splitStepsSpec
    by_cases h1 : text.length ≤ pos
    · rw [if_pos h1, if_pos h1]
      rfl
    · rw [if_neg h1, if_neg h1]
      by_cases h2 : (text.drop pos).length ≤ SAFE_LIMIT
      · rw [if_pos h2, if_pos h2]
        simp [decorateStep]
      · rw [if_neg h2, if_neg h2]
        dsimp only
        rw [List.map_cons, ih]
        congr 1
        unfold decorateStep
        dsimp only
        by_cases h3 : (_find_split_point text pos (pos + SAFE_LIMIT) blocks).in_code_block
        · have hsome :
              ((_find_split_point text pos (pos + SAFE_LIMIT) blocks).block_info).isSome =
                true := by
            rw [findSplit_block_iff]
            exact h3
          rw [if_pos h3, if_pos h3, if_pos hsome, List.append_assoc]
        · rw [if_neg h3, if_neg h3]
          simp

theorem searchDownAux_bounds (p : Nat → Bool) (lo : Nat) :
    ∀ (fuel hi off : Nat), searchDownAux p lo fuel hi = some off → lo < off ∧ off ≤ hi := by
  intro fuel
  induction fuel with
  | zero => intro hi off h; exact absurd h (by simp [searchDownAux])
  | succ f ih =>
    intro hi off h
    unfold searchDownAux at h
    by_cases h1 : hi ≤ lo
    · rw [if_pos h1] at h
      exact absurd h (by simp)
    · rw [if_neg h1] at h
      by_cases h2 : p hi
      · rw [if_pos h2] at h
        rcases Option.some.inj h with rfl
        exact ⟨Nat.lt_of_not_le h1, Nat.le_refl _⟩
      · rw [if_neg h2] at h
        rcases ih (hi - 1) off h with ⟨ha, hb⟩
        exact ⟨ha, Nat.le_trans hb (Nat.sub_le _ _)⟩

theorem searchDown_bounds {p : Nat → Bool} {lo hi off : Nat}
    (h : searchDown p lo hi = some off) : lo < off ∧ off ≤ hi :=
  searchDownAux_bounds p lo (hi + 1) hi off h

/-- The split position always lands strictly after `start` and at or
before `target`. -/
theorem findSplit_pos_bounds (text : List Char) {start target : Nat}
    (blocks : List CodeBlock) (hst : start < target) :
    start < (_find_split_point text start target blocks).position ∧
      (_find_split_point text start target blocks).position ≤ target := by
  unfold _find_split_point
  split
  · split
    · rename_i off hs
      exact searchDown_bounds hs
    · split
      · rename_i off hs
        exact searchDown_bounds hs
      · exact ⟨hst, Nat.le_refl _⟩
  · split
    · rename_i b hf off hs
      rcases searchDown_bounds hs with ⟨ha, hb⟩
      exact ⟨Nat.lt_of_le_of_lt (Nat.le_max_left _ _) ha, hb⟩
    · exact ⟨hst, Nat.le_refl _⟩

/-- Any block reported by `_find_split_point` is one of the parsed
blocks. -/
theorem findSplit_block_mem (text : List Char) (start target : Nat)
    (blocks : List CodeBlock) {b : CodeBlock}
    (h : (_find_split_point text start target blocks).block_info = some b) :
    b ∈ blocks := by
  unfold _find_split_point at h
  revert h
  split
  · split
    · intro h
      exact absurd h (by simp)
    · split
      · intro h
        exact absurd h (by simp)
      · intro h
        exact absurd h (by simp)
  · rename_i b0 hf
    split
    · intro h
      rcases Option.some.inj h with rfl
      exact List.mem_of_find?_eq_some hf
    · intro h
      rcases Option.some.inj h with rfl
      exact List.mem_of_find?_eq_some hf

/-- The block carried to the next chunk is `none` or one of the parsed
blocks. -/
theorem findSplit_next_inv (text : List Char) (start target : Nat)
    (blocks : List CodeBlock) :
    (if (_find_split_point text start target blocks).in_code_block then
        (_find_split_point text start target blocks).block_info
      else none) = none ∨
    ∃ b ∈ blocks,
      (if (_find_split_point text start target blocks).in_code_block then
          (_find_split_point text start target blocks).block_info
        else none) = some b := by
  by_cases hc : (_find_split_point text start target blocks).in_code_block
  · rw [if_pos hc]
    rcases hbi : (_find_split_point text start target blocks).block_info with _ | b
    · exact Or.inl rfl
    · exact Or.inr ⟨b, findSplit_block_mem text start target blocks hbi, rfl⟩
  · rw [if_neg hc]
    exact Or.inl rfl

theorem SAFE_LIMIT_pos : 0 < SAFE_LIMIT := by decide

/-- Every raw slice the splitter carries is at most `SAFE_LIMIT` long. -/
theorem splitSteps_raw_len (text : List Char) (blocks : List CodeBlock) :
    ∀ (fuel pos : Nat) (cont : Option CodeBlock) (s : Option CodeBlock × List Char × Option CodeBlock),
      s ∈ splitStepsSpec text blocks fuel pos cont → s.2.1.length ≤ SAFE_LIMIT := by
  intro fuel
  induction fuel with
  | zero => intro pos cont s hs; exact absurd hs (by simp [splitStepsSpec])
  | succ f ih =>
    intro pos cont s hs
    unfold splitStepsSpec at hs
    by_cases h1 : text.length ≤ pos
    · rw [if_pos h1] at hs
      exact absurd hs (by simp)
    · rw [if_neg h1] at hs
      by_cases h2 : (text.drop pos).length ≤ SAFE_LIMIT
      · rw [if_pos h2] at hs
        rcases List.mem_singleton.mp hs with rfl
        exact h2
      · rw [if_neg h2] at hs
        dsimp only at hs
        rcases List.mem_cons.mp hs with rfl | hs2
        · dsimp only
          rw [List.length_take]
          refine Nat.le_trans (Nat.min_le_left _ _) ?_
          have hb := (findSplit_pos_bounds text blocks
            (Nat.lt_add_of_pos_right SAFE_LIMIT_pos :
              pos < pos + SAFE_LIMIT)).2
          omega
        · exact ih _ _ s hs2

/-- The reopened and carried blocks are always `none` or parsed blocks. -/
theorem splitSteps_cont_inv (text : List Char) (blocks : List CodeBlock) :
    ∀ (fuel pos : Nat) (cont : Option CodeBlock),
      (cont = none ∨ ∃ b ∈ blocks, cont = some b) →
      ∀ s ∈ splitStepsSpec text blocks fuel pos cont,
        (s.1 = none ∨ ∃ b ∈ blocks, s.1 = some b) ∧
        (s.2.2 = none ∨ ∃ b ∈ blocks, s.2.2 = some b) := by
  intro fuel
  induction fuel with
  | zero => intro pos cont _ s hs; exact absurd hs (by simp [splitStepsSpec])
  | succ f ih =>
    intro pos cont hcont s hs
    unfold splitStepsSpec at hs
    by_cases h1 : text.length ≤ pos
    · rw [if_pos h1] at hs
      exact absurd hs (by simp)
    · rw [if_neg h1] at hs
      by_cases h2 : (text.drop pos).length ≤ SAFE_LIMIT
      · rw [if_pos h2] at hs
        rcases List.mem_singleton.mp hs with rfl
        exact ⟨hcont, Or.inl rfl⟩
      · rw [if_neg h2] at hs
        dsimp only at hs
        rcases List.mem_cons.mp hs with rfl | hs2
        · exact ⟨hcont, findSplit_next_inv text pos (pos + SAFE_LIMIT) blocks⟩
        · exact ih _ _ (findSplit_next_inv text pos (pos + SAFE_LIMIT) blocks) s hs2

/-- The first emitted step reopens exactly the block the loop entered
with. -/
theorem splitSteps_head (text : List Char) (blocks : List CodeBlock) :
    ∀ (fuel pos : Nat) (cont : Option CodeBlock)
      (s : Option CodeBlock × List Char × Option CodeBlock),
      (splitStepsSpec text blocks fuel pos cont).head? = some s → s.1 = cont := by
  intro fuel
  induction fuel with
  | zero => intro pos cont s hs; exact absurd hs (by simp [splitStepsSpec])
  | succ f _ =>
    intro pos cont s hs
    unfold splitStepsSpec at hs
    by_cases h1 : text.length ≤ pos
    · rw [if_pos h1] at hs
      exact absurd hs (by simp)
    · rw [if_neg h1] at hs
      by_cases h2 : (text.drop pos).length ≤ SAFE_LIMIT
      · rw [if_pos h2] at hs
        rcases Option.some.inj hs with rfl
        rfl
      · rw [if_neg h2] at hs
        dsimp only at hs
        rcases Option.some.inj hs with rfl
        rfl

/-- Consecutive chunks agree: each chunk reopens exactly the block the
previous one left open. -/
theorem splitSteps_chain (text : List Char) (blocks : List CodeBlock) :
    ∀ (fuel pos : Nat) (cont : Option CodeBlock),
      List.Chain' (fun a b : Option CodeBlock × List Char × Option CodeBlock => b.1 = a.2.2)
        (splitStepsSpec text blocks fuel pos cont) := by
  intro fuel
  induction fuel with
  | zero => intro pos cont; simp [splitStepsSpec]
  | succ f ih =>
    intro pos cont
    unfold splitStepsSpec
    by_cases h1 : text.length ≤ pos
    · rw [if_pos h1]
      simp
    · rw [if_neg h1]
      by_cases h2 : (text.drop pos).length ≤ SAFE_LIMIT
      · rw [if_pos h2]
        simp
      · rw [if_neg h2]
        dsimp only
        rw [List.chain'_cons']
        constructor
        · intro s hhead
          exact splitSteps_head text blocks f _ _ s hhead
        · exact ih _ _

/-- The raw slices concatenate exactly to the unprocessed suffix of the
text: nothing is lost or duplicated by the splitting loop. -/
theorem splitSteps_join (text : List Char) (blocks : List CodeBlock) :
    ∀ (fuel pos : Nat) (cont : Option CodeBlock),
      text.length - pos < fuel →
      ((splitStepsSpec text blocks fuel pos cont).map (fun s => s.2.1)).flatten =
        text.drop pos := by
  intro fuel
  induction fuel with
  | zero => intro pos cont h; exact absurd h (Nat.not_lt_zero _)
  | succ f ih =>
    intro pos cont hfuel
    unfold splitStepsSpec
    by_cases h1 : text.length ≤ pos
    · rw [if_pos h1]
      rw [List.drop_eq_nil_of_le h1]
      rfl
    · rw [if_neg h1]
      by_cases h2 : (text.drop pos).length ≤ SAFE_LIMIT
      · rw [if_pos h2]
        simp
      · rw [if_neg h2]
        dsimp only
        simp only [List.map_cons, List.flatten_cons]
        have hpos := findSplit_pos_bounds text blocks
          (Nat.lt_add_of_pos_right SAFE_LIMIT_pos :
            pos < pos + SAFE_LIMIT)
        have hlt : text.length -
            (_find_split_point text pos (pos + SAFE_LIMIT) blocks).position < f := by
          omega
        rw [ih ((_find_split_point text pos (pos + SAFE_LIMIT) blocks).position)
          (if (_find_split_point text pos (pos + SAFE_LIMIT) blocks).in_code_block then
            (_find_split_point text pos (pos + SAFE_LIMIT) blocks).block_info
          else none) hlt]
        have hdd : text.drop (_find_split_point text pos (pos + SAFE_LIMIT) blocks).position =
            (text.drop pos).drop
              ((_find_split_point text pos (pos + SAFE_LIMIT) blocks).position - pos) := by
          rw [List.drop_drop]
          congr 1
          omega
        rw [hdd, List.take_append_drop]

/-- With any fuel left, the loop emits at least one chunk for a nonempty
remainder. -/
theorem splitSteps_ne_nil (text : List Char) (blocks : List CodeBlock)
    (fuel pos : Nat) (cont : Option CodeBlock) (hpos : pos < text.length) :
    splitStepsSpec text blocks (fuel + 1) pos cont ≠ [] := by
  unfold splitStepsSpec
  rw [if_neg (Nat.not_le_of_lt hpos)]
  by_cases h2 : (text.drop pos).length ≤ SAFE_LIMIT
  · rw [if_pos h2]
    simp
  · rw [if_neg h2]
    simp

theorem natCharsAux_len :
    ∀ (f n d : Nat), n < 10 ^ d → 0 < d → (natCharsAux f n).length ≤ d := by
  intro f
  induction f with
  | zero => intro n d _ _; exact Nat.zero_le d
  | succ f ih =>
    intro n d hn hd
    unfold natCharsAux
    by_cases h10 : n < 10
    · rw [if_pos h10]
      exact hd
    · rw [if_neg h10]
      rcases d with _ | d1
      · exact absurd hd (by simp)
      · have hd1 : 0 < d1 := by
          rcases Nat.eq_zero_or_pos d1 with h0 | h0
          · subst h0
            rw [pow_one] at hn
            exact absurd hn h10
          · exact h0
        have hdiv : n / 10 < 10 ^ d1 := by
          rw [Nat.div_lt_iff_lt_mul (by decide : 0 < 10)]
          rw [pow_succ] at hn
          exact hn
        rw [List.length_append]
        have := ih (n / 10) d1 hdiv hd1
        simp only [List.length_cons, List.length_nil]
        omega

theorem markerFor_len {i total : Nat} (hi : i ≤ 999) (ht : total ≤ 999) :
    (markerFor i total).length ≤ 10 := by
  have h1 : (natChars i).length ≤ 3 :=
    natCharsAux_len (i + 1) i 3 (by omega) (by decide)
  have h2 : (natChars total).length ≤ 3 :=
    natCharsAux_len (total + 1) total 3 (by omega) (by decide)
  unfold markerFor
  simp only [List.length_cons, List.length_append, List.length_nil]
  omega

/-- Adding `(i/N)` markers keeps every chunk within 4096 when chunks fit
4084 and there are at most 999 of them. -/
theorem addMarkers_bound (total : Nat) (ht : total ≤ 999) :
    ∀ (chunks : List (List Char)) (i : Nat),
      i + chunks.length ≤ total + 1 →
      (∀ c ∈ chunks, c.length ≤ 4084) →
      ∀ c2 ∈ addMarkers total i chunks, c2.length ≤ 4096 := by
  intro chunks
  induction chunks with
  | nil => intro i _ _ c2 hc2; exact absurd hc2 (by simp [addMarkers])
  | cons c rest ih =>
    intro i hi hlen c2 hc2
    unfold addMarkers at hc2
    rcases List.mem_cons.mp hc2 with rfl | hc2r
    · rw [List.length_append]
      have hm : (markerFor i total).length ≤ 10 :=
        markerFor_len (by simp at hi; omega) ht
      have hcl : c.length ≤ 4084 := hlen c (List.mem_cons_self _ _)
      omega
    · refine ih (i + 1) ?_ (fun x hx => hlen x (List.mem_cons_of_mem _ hx)) c2 hc2r
      simp at hi ⊢
      omega

theorem addMarkers_length (total : Nat) :
    ∀ (l : List (List Char)) (i : Nat), (addMarkers total i l).length = l.length := by
  intro l
  induction l with
  | nil => intro i; rfl
  | cons c rest ih =>
    intro i
    unfold addMarkers
    rw [List.length_cons, List.length_cons, ih]

theorem splitSteps_two (text : List Char) (blocks : List CodeBlock)
    (hlong : 4096 < text.length) :
    1 < (splitStepsSpec text blocks (text.length + 1) 0 none).length := by
  have h1 : ¬ text.length ≤ 0 := by omega
  have h2 : ¬ (text.drop 0).length ≤ SAFE_LIMIT := by
    rw [List.drop_zero]
    unfold SAFE_LIMIT
    omega
  rcases Nat.exists_eq_succ_of_ne_zero (by omega : text.length ≠ 0) with ⟨f, hf⟩
  have hlt : (_find_split_point text 0 (0 + SAFE_LIMIT) blocks).position < text.length := by
    have hb := (findSplit_pos_bounds text blocks
      (Nat.lt_add_of_pos_right SAFE_LIMIT_pos : 0 < 0 + SAFE_LIMIT)).2
    have hs : SAFE_LIMIT = 4000 := rfl
    omega
  have hne := splitSteps_ne_nil text blocks f
    ((_find_split_point text 0 (0 + SAFE_LIMIT) blocks).position)
    (if (_find_split_point text 0 (0 + SAFE_LIMIT) blocks).in_code_block then
      (_find_split_point text 0 (0 + SAFE_LIMIT) blocks).block_info
    else none)
    hlt
  rw [hf]
  unfold splitStepsSpec
  rw [if_neg h1, if_neg h2]
  dsimp only
  rw [List.length_cons]
  have hpos0 := List.length_pos.mpr hne
  omega

theorem split_message_eq (text : List Char) (hlong : 4096 < text.length) :
    split_message_with_code_blocks text =
      addMarkers
        ((splitStepsSpec text (_parse_code_blocks text) (text.length + 1) 0 none).map
          decorateStep).length 1
        ((splitStepsSpec text (_parse_code_blocks text) (text.length + 1) 0 none).map
          decorateStep) := by
  unfold split_message_with_code_blocks
  rw [if_neg (Nat.not_le_of_lt hlong)]
  dsimp only
  rw [splitLoop_eq_decorate]
  rw [if_pos (show 1 <
      ((splitStepsSpec text (_parse_code_blocks text) (text.length + 1) 0 none).map
        decorateStep).length by
    rw [List.length_map]
    exact splitSteps_two text (_parse_code_blocks text) hlong)]

/-- One decorated chunk is at most 4084 characters before the marker. -/
theorem decorate_len (blocks : List CodeBlock)
    (hL : ∀ b ∈ blocks, b.language.length ≤ 76)
    (s : Option CodeBlock × List Char × Option CodeBlock)
    (hcont : s.1 = none ∨ ∃ b ∈ blocks, s.1 = some b)
    (hraw : s.2.1.length ≤ SAFE_LIMIT) :
    (decorateStep s).length ≤ 4084 := by
  unfold decorateStep
  rw [List.length_append, List.length_append]
  have hopen : (contOpen s.1).length ≤ 80 := by
    rcases hcont with h | ⟨b, hb, h⟩
    · rw [h]
      exact Nat.zero_le _
    · rw [h]
      unfold contOpen backtick3
      rw [List.length_append, List.length_append]
      have hlang : b.language.toList.length ≤ 76 := hL b hb
      simp only [List.length_cons, List.length_nil]
      omega
  have hclose : (if s.2.2.isSome then closeFence else []).length ≤ 4 := by
    by_cases h : s.2.2.isSome
    · rw [if_pos h]
      decide
    · rw [if_neg h]
      exact Nat.zero_le _
  unfold SAFE_LIMIT at hraw
  omega

/-- `send_to_topic` attaches `reply_markup` to the last chunk only. -/
theorem sendToTopic_snd (chunks : List (List Char)) (markup : Bool) (h : chunks ≠ []) :
    (sendToTopicMsgs chunks markup).map Prod.snd =
      List.replicate (chunks.length - 1) false ++ [markup] := by
  unfold sendToTopicMsgs
  rcases hg : chunks.getLast? with _ | c
  · exact absurd (List.getLast?_eq_none_iff.mp hg) h
  · rw [List.map_append, List.map_map]
    have hc : (Prod.snd ∘ fun c : List Char => (c, false)) = fun _ => false := rfl
    rw [hc, List.map_const', List.length_dropLast]
    rfl

/-- C8 (corrected): for a message longer than 4096 characters whose code
fence languages are at most 76 characters and which splits into at most
999 parts, `split_message_with_code_blocks` yields exactly the
`(i/N)`-marked decorations of a step sequence whose raw slices
concatenate byte-for-byte to the original text; each part fits 4096;
each part reopens exactly the (parsed) block the previous part left open
(starting with none), and `send_to_topic` sends every part but the last
without buttons.  Without the language bound the 4096 limit is violated
(see the counterexample). -/
theorem C8_split_parts_structure (text : List Char) (markup : Bool)
    (hlong : 4096 < text.length)
    (hL : ∀ b ∈ _parse_code_blocks text, b.language.length ≤ 76)
    (hN : (splitStepsSpec text (_parse_code_blocks text) (text.length + 1) 0 none).length ≤
      999) :
    (∀ c ∈ split_message_with_code_blocks text, c.length ≤ 4096) ∧
    split_message_with_code_blocks text =
      addMarkers
        ((splitStepsSpec text (_parse_code_blocks text) (text.length + 1) 0 none).map
          decorateStep).length 1
        ((splitStepsSpec text (_parse_code_blocks text) (text.length + 1) 0 none).map
          decorateStep) ∧
    ((splitStepsSpec text (_parse_code_blocks text) (text.length + 1) 0 none).map
      (fun s => s.2.1)).flatten = text ∧
    (∀ s ∈ splitStepsSpec text (_parse_code_blocks text) (text.length + 1) 0 none,
      s.1 = none ∨ ∃ b ∈ _parse_code_blocks text, s.1 = some b) ∧
    (∀ s, (splitStepsSpec text (_parse_code_blocks text) (text.length + 1) 0 none).head? =
        some s → s.1 = none) ∧
    List.Chain' (fun a b : Option CodeBlock × List Char × Option CodeBlock => b.1 = a.2.2)
      (splitStepsSpec text (_parse_code_blocks text) (text.length + 1) 0 none) ∧
    (sendToTopicMsgs (split_message_with_code_blocks text) markup).map Prod.snd =
      List.replicate ((split_message_with_code_blocks text).length - 1) false ++ [markup] := by
  have hchunk : ∀ c ∈ (splitStepsSpec text (_parse_code_blocks text)
      (text.length + 1) 0 none).map decorateStep, c.length ≤ 4084 := by
    intro c hc
    rcases List.mem_map.mp hc with ⟨s, hsmem, rfl⟩
    exact decorate_len (_parse_code_blocks text) hL s
      ((splitSteps_cont_inv text (_parse_code_blocks text) _ _ _ (Or.inl rfl) s hsmem).1)
      (splitSteps_raw_len text (_parse_code_blocks text) _ _ _ s hsmem)
  have hlen : ((splitStepsSpec text (_parse_code_blocks text) (text.length + 1) 0
      none).map decorateStep).length ≤ 999 := by
    rw [List.length_map]
    exact hN
  refine ⟨?_, split_message_eq text hlong, ?_, ?_, ?_, ?_, ?_⟩
  · intro c hc
    rw [split_message_eq text hlong] at hc
    exact addMarkers_bound _ hlen _ 1 (by omega) hchunk c hc
  · rw [splitSteps_join text (_parse_code_blocks text) (text.length + 1) 0 none (by omega)]
    exact List.drop_zero text
  · exact fun s hs => (splitSteps_cont_inv text (_parse_code_blocks text) _ _ _
      (Or.inl rfl) s hs).1
  · exact fun s hs => splitSteps_head text (_parse_code_blocks text) _ _ _ s hs
  · exact splitSteps_chain text (_parse_code_blocks text) _ _ _
  · refine sendToTopic_snd _ markup ?_
    rw [split_message_eq text hlong]
    intro hnil
    have hlen2 := splitSteps_two text (_parse_code_blocks text) hlong
    have := addMarkers_length
      ((splitStepsSpec text (_parse_code_blocks text) (text.length + 1) 0 none).map
        decorateStep).length
      ((splitStepsSpec text (_parse_code_blocks text) (text.length + 1) 0 none).map
        decorateStep) 1
    rw [hnil] at this
    simp only [List.length_nil, List.length_map] at this
    omega

theorem startsWithL_cons (a : Char) (as : List Char) (b : Char) (bs : List Char) :
    startsWithL (a :: as) (b :: bs) = ((a == b) && startsWithL as bs) := rfl

theorem startsWithL_cons_false {a b : Char} (as bs : List Char) (h : (a == b) = false) :
    startsWithL (a :: as) (b :: bs) = false := by
  rw [startsWithL_cons, h, Bool.false_and]

theorem findSubAux_cons_false {needle : List Char} {c : Char} {rest : List Char}
    (i : Nat) (h : startsWithL needle (c :: rest) = false) :
    findSubAux needle (c :: rest) i = findSubAux needle rest (i + 1) := by
  conv_lhs => unfold findSubAux
  rw [h, if_neg (by decide)]

theorem findSubAux_cons_true {needle : List Char} {c : Char} {rest : List Char}
    (i : Nat) (h : startsWithL needle (c :: rest) = true) :
    findSubAux needle (c :: rest) i = some i := by
  conv_lhs => unfold findSubAux
  rw [h, if_pos rfl]

/-- Skip a replicate-run the needle cannot match in. -/
theorem findSubAux_replicate {needle : List Char} {c : Char}
    (h : ∀ rest : List Char, startsWithL needle (c :: rest) = false) :
    ∀ (n : Nat) (rest : List Char) (i : Nat),
      findSubAux needle (List.replicate n c ++ rest) i = findSubAux needle rest (i + n) := by
  intro n
  induction n with
  | zero => intro rest i; simp
  | succ m ih =>
    intro rest i
    rw [List.replicate_succ, List.cons_append, findSubAux_cons_false i (h _), ih]
    congr 1
    omega

theorem searchDownAux_step {p : Nat → Bool} {lo hi : Nat} (fuel : Nat)
    (h1 : ¬ hi ≤ lo) (h2 : p hi = false) :
    searchDownAux p lo (fuel + 1) hi = searchDownAux p lo fuel (hi - 1) := by
  conv_lhs => unfold searchDownAux
  rw [if_neg h1, h2, if_neg (by decide)]

theorem searchDownAux_hit {p : Nat → Bool} {lo hi : Nat} (fuel : Nat)
    (h1 : ¬ hi ≤ lo) (h2 : p hi = true) :
    searchDownAux p lo (fuel + 1) hi = some hi := by
  conv_lhs => unfold searchDownAux
  rw [if_neg h1, h2, if_pos rfl]

theorem dropWhile_replicate_false {p : Char → Bool} {c : Char} (h : p c = false) (n : Nat) :
    List.dropWhile p (List.replicate n c) = List.replicate n c := by
  cases n with
  | zero => rfl
  | succ m =>
    rw [List.replicate_succ, List.dropWhile_cons, h]
    rfl

theorem stripBoth_replicate {c : Char} (h : isWsC c = false) (n : Nat) :
    stripBoth (List.replicate n c) = List.replicate n c := by
  unfold stripBoth
  rw [dropWhile_replicate_false h, List.reverse_replicate, dropWhile_replicate_false h,
    List.reverse_replicate]

theorem textOverlong_length : textOverlong.length = 7949 := by
  simp only [textOverlong, tailOver, backtick3, List.length_append, List.length_replicate,
    List.length_cons, List.length_nil]

theorem textOverlong_find_nl : findSubFrom textOverlong ['\n'] 0 = some 203 := by
  have hb : ∀ rest : List Char, startsWithL ['\n'] (backtickC :: rest) = false :=
    fun rest => startsWithL_cons_false _ _ (by decide)
  have hx : ∀ rest : List Char, startsWithL ['\n'] ('x' :: rest) = false :=
    fun rest => startsWithL_cons_false _ _ (by decide)
  unfold findSubFrom
  rw [List.drop_zero]
  show findSubAux ['\n']
    (List.replicate 3 backtickC ++ List.replicate 200 'x' ++ '\n' :: tailOver) 0 = some 203
  refine Eq.trans (findSubAux_replicate hb 3 _ 0) ?_
  refine Eq.trans (findSubAux_replicate hx 200 _ _) ?_
  rfl

theorem textOverlong_drop3 :
    textOverlong.drop 3 = List.replicate 200 'x' ++ '\n' :: tailOver := by
  unfold textOverlong
  rw [show (3 : Nat) = backtick3.length from rfl]
  exact List.drop_left backtick3 _

theorem textOverlong_drop203 : textOverlong.drop 203 = '\n' :: tailOver := by
  have hre : textOverlong = (backtick3 ++ List.replicate 200 'x') ++ '\n' :: tailOver := by
    unfold textOverlong
    rw [List.append_assoc]
  rw [hre, show (203 : Nat) = (backtick3 ++ List.replicate 200 'x').length from by
    simp only [backtick3, List.length_append, List.length_replicate, List.length_cons,
      List.length_nil]]
  exact List.drop_left _ _

/-- A needle that cannot match at any position of a replicate-run is not
found in it. -/
theorem findSubAux_replicate_nil {needle : List Char} {c : Char}
    (h : ∀ rest : List Char, startsWithL needle (c :: rest) = false)
    (hne : needle ≠ []) :
    ∀ (n i : Nat), findSubAux needle (List.replicate n c) i = none := by
  intro n
  induction n with
  | zero =>
    intro i
    rw [List.replicate_zero]
    unfold findSubAux
    rw [if_neg hne]
  | succ m ih =>
    intro i
    rw [List.replicate_succ]
    exact Eq.trans (findSubAux_cons_false i (h _)) (ih _)

theorem textOverlong_no_close : findSubFrom textOverlong nlBacktick3 203 = none := by
  have ha : ∀ rest : List Char, startsWithL nlBacktick3 ('a' :: rest) = false :=
    fun rest => startsWithL_cons_false _ _ (by decide)
  have hbch : ∀ rest : List Char, startsWithL nlBacktick3 ('b' :: rest) = false :=
    fun rest => startsWithL_cons_false _ _ (by decide)
  have h1 : startsWithL nlBacktick3 ('\n' :: tailOver) = false := rfl
  have h2 : startsWithL nlBacktick3 ('\n' :: List.replicate 3949 'b') = false := rfl
  unfold findSubFrom
  rw [textOverlong_drop203]
  refine Eq.trans (findSubAux_cons_false 203 h1) ?_
  show findSubAux nlBacktick3
    (List.replicate 3795 'a' ++ '\n' :: List.replicate 3949 'b') (203 + 1) = none
  refine Eq.trans (findSubAux_replicate ha 3795 _ _) ?_
  refine Eq.trans (findSubAux_cons_false _ h2) ?_
  exact findSubAux_replicate_nil hbch (by decide) 3949 _

/-- `_parse_code_blocks` finds exactly the one unclosed 200-character-
language block in the counterexample text. -/
theorem parse_over : _parse_code_blocks textOverlong = [blockOv] := by
  unfold _parse_code_blocks
  conv_lhs => unfold parseBlocksAux
  rw [show findSubFrom textOverlong backtick3 0 = some 0 from rfl]
  dsimp only
  rw [textOverlong_find_nl]
  dsimp only
  rw [textOverlong_no_close]
  show [⟨0, textOverlong.length,
    String.mk (stripBoth ((textOverlong.drop (0 + 3)).take (203 - (0 + 3)))), false⟩] =
    [blockOv]
  rw [show (0 + 3 : Nat) = 3 from rfl, show (203 - 3 : Nat) = 200 from rfl]
  rw [textOverlong_drop3]
  have htake : (List.replicate 200 'x' ++ '\n' :: tailOver).take 200 =
      List.replicate 200 'x' :=
    List.take_left' (by rw [List.length_replicate])
  rw [htake]
  rw [stripBoth_replicate (by decide)]
  rw [textOverlong_length]
  rfl

theorem textOverlong_get4000 : textOverlong.get? 4000 = some 'b' := by
  simp only [textOverlong, tailOver, backtick3, List.get?_eq_getElem?, List.getElem?_append,
    List.getElem?_replicate, List.getElem?_cons_succ, List.getElem?_cons_zero,
    List.length_append, List.length_replicate, List.length_cons, List.length_nil]
  norm_num

theorem textOverlong_get3999 : textOverlong.get? 3999 = some '\n' := by
  simp only [textOverlong, tailOver, backtick3, List.get?_eq_getElem?, List.getElem?_append,
    List.getElem?_replicate, List.getElem?_cons_succ, List.getElem?_cons_zero,
    List.length_append, List.length_replicate, List.length_cons, List.length_nil]
  norm_num

theorem searchDown_over : searchDown (isNl textOverlong) 0 4000 = some 3999 := by
  have hp4000 : isNl textOverlong 4000 = false := by
    unfold isNl
    rw [textOverlong_get4000]
    decide
  have hp3999 : isNl textOverlong 3999 = true := by
    unfold isNl
    rw [textOverlong_get3999]
    decide
  unfold searchDown
  refine Eq.trans (searchDownAux_step 4000 (by decide) hp4000) ?_
  show searchDownAux (isNl textOverlong) 0 (3999 + 1) 3999 = some 3999
  exact searchDownAux_hit 3999 (by decide) hp3999

theorem si_over : _find_split_point textOverlong 0 (0 + SAFE_LIMIT) [blockOv] =
    ⟨3999, true, some blockOv⟩ := by
  unfold _find_split_point
  rw [List.find?_cons_of_pos _ (by decide)]
  dsimp only
  rw [show (max 0 blockOv.bstart : Nat) = 0 from rfl,
    show (0 + SAFE_LIMIT : Nat) = 4000 from rfl]
  rw [searchDown_over]

theorem steps_over :
    splitStepsSpec textOverlong [blockOv] (textOverlong.length + 1) 0 none =
      [(none, textOverlong.take 3999, some blockOv),
       (some blockOv, textOverlong.drop 3999, none)] := by
  conv_lhs => unfold splitStepsSpec
  rw [if_neg (show ¬ textOverlong.length ≤ 0 by rw [textOverlong_length]; decide)]
  rw [List.drop_zero]
  rw [if_neg (show ¬ textOverlong.length ≤ SAFE_LIMIT by rw [textOverlong_length]; decide)]
  dsimp only
  rw [si_over]
  dsimp only
  rw [if_pos rfl, Nat.sub_zero]
  rw [show textOverlong.length = 7948 + 1 from by rw [textOverlong_length]]
  conv_lhs => unfold splitStepsSpec
  rw [if_neg (show ¬ textOverlong.length ≤ 3999 by rw [textOverlong_length]; decide)]
  rw [if_pos (show (textOverlong.drop 3999).length ≤ SAFE_LIMIT by
    rw [List.length_drop, textOverlong_length]; decide)]

theorem decorate_over_len :
    (decorateStep ((some blockOv : Option CodeBlock), textOverlong.drop 3999,
      (none : Option CodeBlock))).length = 4154 := by
  unfold decorateStep
  dsimp only
  rw [if_neg (by decide), List.append_nil]
  rw [show contOpen (some blockOv) = backtick3 ++ List.replicate 200 'x' ++ ['\n'] from rfl]
  rw [List.length_append, List.length_append, List.length_append, List.length_drop,
    List.length_replicate, textOverlong_length]
  simp only [backtick3, List.length_cons, List.length_nil]

set_option maxRecDepth 4000 in
/-- Counterexample to C8 as stated: `textOverlong` has a (legal) fence
whose language is 200 characters; the split's second part is 4160
characters, exceeding Telegram's 4096 limit, because the splitter
reserves only `SAFE_LIMIT = 4000` and then prepends the reopening tag
with the full language plus the `(i/N)` marker. -/
theorem C8_counterexample :
    (∃ b ∈ _parse_code_blocks textOverlong, 76 < b.language.length) ∧
    (∃ c ∈ split_message_with_code_blocks textOverlong, 4096 < c.length) := by
  constructor
  · refine ⟨blockOv, ?_, ?_⟩
    · rw [parse_over]
      exact List.mem_cons_self _ _
    · show 76 < blockOv.language.length
      decide
  · have hlong8 : 4096 < textOverlong.length := by
      rw [textOverlong_length]
      decide
    refine ⟨markerFor 2 2 ++ decorateStep ((some blockOv : Option CodeBlock),
      textOverlong.drop 3999, (none : Option CodeBlock)), ?_, ?_⟩
    · rw [split_message_eq textOverlong hlong8]
      rw [parse_over, steps_over]
      rw [List.map_cons, List.map_cons, List.map_nil]
      rw [show ([decorateStep ((none : Option CodeBlock), textOverlong.take 3999,
          (some blockOv : Option CodeBlock)),
        decorateStep ((some blockOv : Option CodeBlock), textOverlong.drop 3999,
          (none : Option CodeBlock))] : List (List Char)).length = 2 from rfl]
      unfold addMarkers
      exact List.mem_cons_of_mem _ (List.mem_cons_self _ _)
    · rw [List.length_append, decorate_over_len]
      have hm : (markerFor 2 2).length = 6 := by decide
      rw [hm]
      decide

theorem textPlainLong_length : textPlainLong.length = 5500 := by
  simp only [textPlainLong, List.length_append, List.length_replicate, List.length_cons,
    List.length_nil]

theorem parse_plain : _parse_code_blocks textPlainLong = [] := by
  have ha : ∀ rest : List Char, startsWithL backtick3 ('a' :: rest) = false :=
    fun rest => startsWithL_cons_false _ _ (by decide)
  have hnl : ∀ rest : List Char, startsWithL backtick3 ('\n' :: rest) = false :=
    fun rest => startsWithL_cons_false _ _ (by decide)
  have hb : ∀ rest : List Char, startsWithL backtick3 ('b' :: rest) = false :=
    fun rest => startsWithL_cons_false _ _ (by decide)
  have hfind : findSubFrom textPlainLong backtick3 0 = none := by
    unfold findSubFrom
    rw [List.drop_zero]
    show findSubAux backtick3
      (List.replicate 3998 'a' ++ '\n' :: '\n' :: List.replicate 1500 'b') 0 = none
    refine Eq.trans (findSubAux_replicate ha 3998 _ 0) ?_
    refine Eq.trans (findSubAux_cons_false _ (hnl _)) ?_
    refine Eq.trans (findSubAux_cons_false _ (hnl _)) ?_
    exact findSubAux_replicate_nil hb (by decide) 1500 _
  unfold _parse_code_blocks
  conv_lhs => unfold parseBlocksAux
  rw [hfind]

theorem textPlainLong_get3998 : textPlainLong.get? 3998 = some '\n' := by
  simp only [textPlainLong, List.get?_eq_getElem?, List.getElem?_append,
    List.getElem?_replicate, List.getElem?_cons_succ, List.getElem?_cons_zero,
    List.length_append, List.length_replicate, List.length_cons, List.length_nil]
  norm_num

theorem textPlainLong_get3999 : textPlainLong.get? 3999 = some '\n' := by
  simp only [textPlainLong, List.get?_eq_getElem?, List.getElem?_append,
    List.getElem?_replicate, List.getElem?_cons_succ, List.getElem?_cons_zero,
    List.length_append, List.length_replicate, List.length_cons, List.length_nil]
  norm_num

theorem textPlainLong_get4000 : textPlainLong.get? 4000 = some 'b' := by
  simp only [textPlainLong, List.get?_eq_getElem?, List.getElem?_append,
    List.getElem?_replicate, List.getElem?_cons_succ, List.getElem?_cons_zero,
    List.length_append, List.length_replicate, List.length_cons, List.length_nil]
  norm_num

theorem searchDown_plain :
    searchDown (isParaBreak textPlainLong) 0 4000 = some 3999 := by
  have hp4000 : isParaBreak textPlainLong 4000 = false := by
    unfold isParaBreak
    rw [show (4000 - 1 : Nat) = 3999 from rfl, textPlainLong_get3999, textPlainLong_get4000]
    decide
  have hp3999 : isParaBreak textPlainLong 3999 = true := by
    unfold isParaBreak
    rw [show (3999 - 1 : Nat) = 3998 from rfl, textPlainLong_get3998, textPlainLong_get3999]
    decide
  unfold searchDown
  refine Eq.trans (searchDownAux_step 4000 (by decide) hp4000) ?_
  show searchDownAux (isParaBreak textPlainLong) 0 (3999 + 1) 3999 = some 3999
  exact searchDownAux_hit 3999 (by decide) hp3999

theorem si_plain : _find_split_point textPlainLong 0 (0 + SAFE_LIMIT) [] =
    ⟨3999, false, none⟩ := by
  unfold _find_split_point
  rw [List.find?_nil]
  dsimp only
  rw [show (0 + SAFE_LIMIT : Nat) = 4000 from rfl]
  rw [searchDown_plain]

theorem steps_plain :
    splitStepsSpec textPlainLong [] (textPlainLong.length + 1) 0 none =
      [((none : Option CodeBlock), textPlainLong.take 3999, (none : Option CodeBlock)),
       ((none : Option CodeBlock), textPlainLong.drop 3999, (none : Option CodeBlock))] := by
  conv_lhs => unfold splitStepsSpec
  rw [if_neg (show ¬ textPlainLong.length ≤ 0 by rw [textPlainLong_length]; decide)]
  rw [List.drop_zero]
  rw [if_neg (show ¬ textPlainLong.length ≤ SAFE_LIMIT by rw [textPlainLong_length]; decide)]
  dsimp only
  rw [si_plain]
  dsimp only
  rw [if_neg (by decide), Nat.sub_zero]
  rw [show textPlainLong.length = 5499 + 1 from by rw [textPlainLong_length]]
  conv_lhs => unfold splitStepsSpec
  rw [if_neg (show ¬ textPlainLong.length ≤ 3999 by rw [textPlainLong_length]; decide)]
  rw [if_pos (show (textPlainLong.drop 3999).length ≤ SAFE_LIMIT by
    rw [List.length_drop, textPlainLong_length]; decide)]

/-- Witness for the corrected C8 theorem: a 5500-character fence-free
message splits into parts that all fit 4096 and whose raw slices rebuild
the text. -/
theorem C8_witness :
    4096 < textPlainLong.length ∧
    (∀ c ∈ split_message_with_code_blocks textPlainLong, c.length ≤ 4096) ∧
    ((splitStepsSpec textPlainLong (_parse_code_blocks textPlainLong)
      (textPlainLong.length + 1) 0 none).map (fun s => s.2.1)).flatten = textPlainLong :=
  ⟨by rw [textPlainLong_length]; decide,
   (C8_split_parts_structure textPlainLong true
      (by rw [textPlainLong_length]; decide)
      (by intro b hb; rw [parse_plain] at hb; exact absurd hb (List.not_mem_nil b))
      (by rw [parse_plain, steps_plain]; decide)).1,
   (C8_split_parts_structure textPlainLong true
      (by rw [textPlainLong_length]; decide)
      (by intro b hb; rw [parse_plain] at hb; exact absurd hb (List.not_mem_nil b))
      (by rw [parse_plain, steps_plain]; decide)).2.2.1⟩

end CT
